import Mathlib

/-!
# Huffman tree builder, table extractor and bit packer

A shallow embedding of `huffman.go`.

* A `*Huffman` pointer is a value of the inductive type `Huffman`: `Huffman.nil` is the nil
  pointer and `Huffman.node Data Sum Left Right` a pointer to a struct.  `Data *byte` is an
  `Option Nat` (the byte pointed to, or `none` for a nil pointer).
* Go `int` is `Int`, additions are wrapped to 64-bit two's complement by `wrapInt`.
* A `map[byte]int` handed to `BuildHuffman` is the list of its entries in the order in which the
  `range` loop enumerates them (keys are distinct; a nil map has no entries, like an empty one).
* A `map[byte]uint32` is a function `Nat → Option Nat`.
* A `byte` and a `uint32` are a `Nat`; the `uint8` operations of `Encode` are reduced modulo
  256. No arithmetic is done on symbols, and the code values are only shifted to the right.
* A `(value, error)` result is a pair whose second component tells whether the error is non-nil.
* Operations that can panic (indexing past the end of a slice, dereferencing nil) and loops that
  run on fuel return `Option`; `none` is a panic or exhausted fuel.
-/

namespace Hf

/-! ## Data model -/

/-- A pointer to a `Huffman` struct: `nil`, or a struct with its four fields. -/
inductive Huffman where
  | nil : Huffman
  | node (Data : Option Nat) (Sum : Int) (Left Right : Huffman) : Huffman
  deriving DecidableEq, Repr

/-- An entry of the priority queue (the `index` field is written by `Swap` and `Push` and read
only by `update`, which `BuildHuffman` never calls; it is left out). -/
structure Item where
  value : Huffman
  priority : Int
  deriving DecidableEq, Repr

/-- The type `PriorityQueue`, a slice of items. -/
abbrev PriorityQueue := List Item

/-- A code table `map[byte]uint32`. -/
abbrev CodeTable := Nat → Option Nat

/-- The struct `EncodedData`. -/
structure EncodedData where
  Codes : CodeTable
  Data : List Nat
  Padding : Nat

/-- Two's complement wrap-around of a 64-bit Go `int`. -/
def wrapInt (x : Int) : Int := (x + 2 ^ 63) % 2 ^ 64 - 2 ^ 63

/-- Field read `hf.Sum`; reading through a nil pointer panics. -/
def Huffman.getSum : Huffman → Option Int
  | .nil => none
  | .node _ s _ _ => some s

/-! ## The priority queue and `container/heap` -/

/-- The comparison made by `PriorityQueue.Less` on the two items `a := pq[i]`, `b := pq[j]`. -/
def itemLess (a b : Item) : Option Bool :=
  if a.priority = b.priority then
    match a.value with
    | .nil => none
    | .node none _ _ _ => some false
    | .node (some x) _ _ _ =>
      match b.value with
      | .nil => none
      | .node (some y) _ _ _ => some (decide (x < y))
      | .node none _ _ _ => some true
  else some (decide (a.priority < b.priority))

/-- Method `PriorityQueue.Less`. -/
def Less (pq : PriorityQueue) (i j : Nat) : Option Bool :=
  match pq[i]?, pq[j]? with
  | some a, some b => itemLess a b
  | _, _ => none

/-- Method `PriorityQueue.Swap`. -/
def Swap (pq : PriorityQueue) (i j : Nat) : Option PriorityQueue :=
  match pq[i]?, pq[j]? with
  | some a, some b => some ((pq.set i b).set j a)
  | _, _ => none

/-- The loop of `heap.up`, started at `j`. -/
def upLoop : Nat → PriorityQueue → Nat → Option PriorityQueue
  | 0, _, _ => none
  | fuel + 1, pq, j =>
    let i := (j - 1) / 2
    if i = j then some pq
    else
      match Less pq j i with
      | none => none
      | some false => some pq
      | some true =>
        match Swap pq i j with
        | none => none
        | some pq1 => upLoop fuel pq1 i

/-- Function `heap.up`: every iteration halves `j`, so `j + 1` iterations are enough. -/
def up (pq : PriorityQueue) (j : Nat) : Option PriorityQueue := upLoop (j + 1) pq j

/-- The loop of `heap.down`, at position `i` with bound `n` (the test `j1 < 0` of the library
guards against an overflow that the length of a slice cannot cause). -/
def downLoop : Nat → PriorityQueue → Nat → Nat → Option PriorityQueue
  | 0, _, _, _ => none
  | fuel + 1, pq, i, n =>
    let j1 := 2 * i + 1
    if n ≤ j1 then some pq
    else
      let j2 := j1 + 1
      let pick : Option Nat :=
        if j2 < n then
          match Less pq j2 j1 with
          | none => none
          | some true => some j2
          | some false => some j1
        else some j1
      match pick with
      | none => none
      | some j =>
        match Less pq j i with
        | none => none
        | some false => some pq
        | some true =>
          match Swap pq i j with
          | none => none
          | some pq1 => downLoop fuel pq1 j n

/-- Function `heap.down` (its boolean result is not used by `Init` and `Pop`): the position
grows at every iteration and stays below `n`, so `n + 1` iterations are enough. -/
def down (pq : PriorityQueue) (i0 n : Nat) : Option PriorityQueue := downLoop (n + 1) pq i0 n

/-- The loop of `heap.Init`: `k` is `i + 1`, the loop runs while `i >= 0`. -/
def initLoop (n : Nat) : Nat → PriorityQueue → Option PriorityQueue
  | 0, pq => some pq
  | k + 1, pq =>
    match down pq k n with
    | none => none
    | some pq1 => initLoop n k pq1

/-- Function `heap.Init`. -/
def heapInit (pq : PriorityQueue) : Option PriorityQueue :=
  initLoop pq.length (pq.length / 2) pq

/-- Function `heap.Push`: the method `Push` appends, then `up` from the last position. -/
def heapPush (pq : PriorityQueue) (x : Item) : Option PriorityQueue :=
  up (pq ++ [x]) (pq.length + 1 - 1)

/-- Function `heap.Pop`: swap the root with the last item, sift down, and let the method `Pop`
remove and return the last item. -/
def heapPop (pq : PriorityQueue) : Option (Item × PriorityQueue) :=
  if pq.length = 0 then none
  else
    let n := pq.length - 1
    match Swap pq 0 n with
    | none => none
    | some pq1 =>
      match down pq1 0 n with
      | none => none
      | some pq2 =>
        match pq2.getLast? with
        | none => none
        | some item => some (item, pq2.dropLast)

/-! ## `CompareHuffman` -/

/-- Function `CompareHuffman`. -/
def CompareHuffman : Huffman → Huffman → Bool
  | .nil, .nil => true
  | .node _ _ _ _, .nil => false
  | .nil, .node _ _ _ _ => false
  | .node da sa la ra, .node db sb lb rb =>
    match da, db with
    | none, none => decide (sa = sb) && CompareHuffman la lb && CompareHuffman ra rb
    | none, some _ => false
    | some _, none => false
    | some x, some y =>
      decide (x = y) && decide (sa = sb) && CompareHuffman la lb && CompareHuffman ra rb

/-! ## `BuildHuffman` -/

/-- The leaf item made for one entry of the frequency table. -/
def seedItem (e : Nat × Int) : Item :=
  { value := .node (some e.1) e.2 .nil .nil, priority := e.2 }

/-- The merge loop `for pq.Len() >= 2`; each iteration shortens the queue by one, so the
initial length is enough fuel. -/
def mergeLoop : Nat → PriorityQueue → Option PriorityQueue
  | 0, pq => if 2 ≤ pq.length then none else some pq
  | fuel + 1, pq =>
    if 2 ≤ pq.length then
      match heapPop pq with
      | none => none
      | some (first, pq1) =>
        match heapPop pq1 with
        | none => none
        | some (second, pq2) =>
          match first.value.getSum, second.value.getSum with
          | some s1, some s2 =>
            let total := wrapInt (s1 + s2)
            let node := Huffman.node none total first.value second.value
            match heapPush pq2 { value := node, priority := total } with
            | none => none
            | some pq3 => mergeLoop fuel pq3
          | _, _ => none
    else some pq

/-- Function `BuildHuffman`, on the entries of `f` in the order the `range` loop yields them
(each iteration has its own `ch`, as the tests require). -/
def BuildHuffman (f : List (Nat × Int)) : Option (Huffman × Bool) :=
  if f.length < 2 then some (.nil, true)
  else
    match heapInit (f.map seedItem) with
    | none => none
    | some pq =>
      match mergeLoop pq.length pq with
      | none => none
      | some pq1 =>
        match heapPop pq1 with
        | none => none
        | some (item, _) => some (item.value, false)

/-- One iteration of the merge loop of `BuildHuffman`: the two entries popped, the queue left by
the two pops, and the queue after the push of the new node. -/
def mergeStep (pq : PriorityQueue) : Option (Item × Item × PriorityQueue × PriorityQueue) :=
  match heapPop pq with
  | none => none
  | some (first, pq1) =>
    match heapPop pq1 with
    | none => none
    | some (second, pq2) =>
      match first.value.getSum, second.value.getSum with
      | some s1, some s2 =>
        let total := wrapInt (s1 + s2)
        let node := Huffman.node none total first.value second.value
        match heapPush pq2 { value := node, priority := total } with
        | none => none
        | some pq3 => some (first, second, pq2, pq3)
      | _, _ => none

/-- The queues that the merge loop of `BuildHuffman f` meets at the head of an iteration: the
queue made by `heap.Init`, and the queue left by an iteration that started with two entries or
more. -/
inductive Reach (f : List (Nat × Int)) : PriorityQueue → Prop
  | init (pq : PriorityQueue) : heapInit (f.map seedItem) = some pq → Reach f pq
  | step (pq : PriorityQueue) (first second : Item) (pq2 pq3 : PriorityQueue) :
      Reach f pq → 2 ≤ pq.length → mergeStep pq = some (first, second, pq2, pq3) → Reach f pq3

/-! ## `GetTable` -/

/-- The call `strconv.ParseUint(code, 2, 32)` on a string of the characters 0 and 1, given as
the list of its digits (`false` is the character 0, `true` the character 1): the loop of the
standard library over the digits, with its overflow checks. `none` is a non-nil error. -/
def parseLoop : List Bool → Nat → Option Nat
  | [], n => some n
  | c :: cs, n =>
    let d : Nat := if c then 1 else 0
    if 2 ^ 63 ≤ n then none
    else
      let m := (n * 2) % 2 ^ 64
      let n1 := (m + d) % 2 ^ 64
      if n1 < m ∨ 2 ^ 32 - 1 < n1 then none
      else parseLoop cs n1

/-- The call `strconv.ParseUint(code, 2, 32)`: the empty string is a syntax error. -/
def ParseUint (code : List Bool) : Option Nat :=
  if code = [] then none else parseLoop code 0

/-- The closure `table` of `GetTable`, threading the map `f` it writes to; the boolean is
`err != nil`. The error of the call on `hf.Right` is not assigned to `err`. -/
def table : Huffman → List Bool → CodeTable → CodeTable × Bool
  | .nil, _, f => (f, false)
  | .node (some ch) _ _ _, code, f =>
    match ParseUint code with
    | none => (f, true)
    | some val => (Function.update f ch (some (val % 2 ^ 32)), false)
  | .node none _ l r, code, f =>
    let r1 := table l (code ++ [false]) f
    if r1.2 then (r1.1, true)
    else
      let r2 := table r (code ++ [true]) r1.1
      (r2.1, false)

/-- Function `GetTable`. -/
def GetTable (hf : Huffman) : Option CodeTable × Bool :=
  let r := table hf [] (fun _ => none)
  if r.2 then (none, true) else (some r.1, false)

/-! ## `Encode` -/

/-- The variables `payload`, `byteResult` and `bitPosition` of `Encode`. -/
structure EncState where
  payload : List Nat
  byteResult : Nat
  bitPosition : Int

/-- The loop `for code != 0` that pushes the bits of `code`, lowest first, on `stack`; every
iteration halves `code`, so `code` iterations are enough. -/
def stackLoop : Nat → Nat → List Nat → List Nat
  | 0, _, stack => stack
  | fuel + 1, code, stack =>
    if code ≠ 0 then stackLoop fuel (code >>> 1) (stack ++ [(code &&& 1) % 256])
    else stack

/-- The decrement of `bitPosition` with the flush of a full byte. -/
def advance (st : EncState) : EncState :=
  let pos := st.bitPosition - 1
  if pos = -1 then
    { payload := st.payload ++ [st.byteResult], byteResult := 0, bitPosition := 7 }
  else { st with bitPosition := pos }

/-- One iteration of the loop that replays the stack: `byteResult |= (bit << bitPosition)` in
`uint8`, then the decrement. -/
def emitBit (st : EncState) (bit : Nat) : EncState :=
  advance { st with byteResult := (st.byteResult ||| (bit <<< st.bitPosition.toNat) % 256) % 256 }

/-- The body of the loop over the input for a byte that has the code `code`; the stack is
replayed from its last element to its first. -/
def encodeSymbol (st : EncState) (code : Nat) : EncState :=
  if code ≠ 0 then (stackLoop code code []).reverse.foldl emitBit st
  else advance st

/-- The loop `for _, ch := range data`; `none` is the early return with an error. -/
def encodeLoop (codes : CodeTable) : List Nat → EncState → Option EncState
  | [], st => some st
  | ch :: rest, st =>
    match codes ch with
    | none => none
    | some code => encodeLoop codes rest (encodeSymbol st code)

/-- Function `Encode`. -/
def Encode (codes : CodeTable) (data : List Nat) : Option EncodedData × Bool :=
  match encodeLoop codes data { payload := [], byteResult := 0, bitPosition := 7 } with
  | none => (none, true)
  | some st =>
    if st.bitPosition < 7 then
      (some { Codes := codes, Data := st.payload ++ [st.byteResult],
              Padding := ((st.bitPosition % 256).toNat + 1) % 256 }, false)
    else (some { Codes := codes, Data := st.payload, Padding := 0 }, false)


/-! ## Notions the properties are stated with -/

/-- The leaves that the traversal of `GetTable` reaches, left to right, with their paths from
the root: `false` is a step to `Left` (the character 0), `true` a step to `Right`. -/
def paths : Huffman → List (Nat × List Bool)
  | .nil => []
  | .node (some ch) _ _ _ => [(ch, [])]
  | .node none _ l r =>
    (paths l).map (fun e => (e.1, false :: e.2)) ++ (paths r).map (fun e => (e.1, true :: e.2))

/-- The leaves of a tree, left to right, as pairs of symbol and weight. -/
def leaves : Huffman → List (Nat × Int)
  | .nil => []
  | .node (some ch) s _ _ => [(ch, s)]
  | .node none _ l r => leaves l ++ leaves r

/-- The leaves of all the trees of a queue. -/
def forestLeaves : PriorityQueue → List (Nat × Int)
  | [] => []
  | it :: rest => leaves it.value ++ forestLeaves rest

/-- Every node is a leaf with a symbol and no children, or an internal node with no symbol and
two children. -/
def wellFormed : Huffman → Bool
  | .nil => false
  | .node (some _) _ l r => decide (l = .nil) && decide (r = .nil)
  | .node none _ l r => wellFormed l && wellFormed r

/-- The depth of a tree: the number of steps of its longest root-to-leaf path. -/
def depth : Huffman → Nat
  | .nil => 0
  | .node (some _) _ _ _ => 0
  | .node none _ l r => 1 + max (depth l) (depth r)

/-- The number of internal nodes (nodes without a symbol) of a tree. -/
def internalCount : Huffman → Nat
  | .nil => 0
  | .node (some _) _ _ _ => 0
  | .node none _ l r => 1 + internalCount l + internalCount r

/-- The unsigned integer read from a path as a binary number: 0 for a step to `Left`, 1 for a
step to `Right`, the first step most significant. -/
def pathValue (p : List Bool) : Nat := p.foldl (fun n b => 2 * n + (if b then 1 else 0)) 0

/-- The bits of a path: 0 for a step to `Left`, 1 for a step to `Right`. -/
def pathBits (p : List Bool) : List Nat := p.map fun b => if b then 1 else 0

/-- The length of the root-to-leaf path of a symbol in a tree (0 for a symbol that is not in
the tree). -/
def pathLen (t : Huffman) (ch : Nat) : Nat :=
  match (paths t).find? fun e => e.1 = ch with
  | some e => e.2.length
  | none => 0

/-- The sum of the path lengths of the bytes of an input. -/
def totalPathBits (t : Huffman) (data : List Nat) : Nat := (data.map (pathLen t)).sum

/-- Every node without a symbol has two children and a `Sum` that is `add` of theirs. -/
def weightInv (add : Int → Int → Int) : Huffman → Bool
  | .nil => true
  | .node (some _) _ _ _ => true
  | .node none s l r =>
    match l.getSum, r.getSum with
    | some sl, some sr => decide (s = add sl sr) && weightInv add l && weightInv add r
    | _, _ => false

/-- The sum of the weights of the leaves. -/
def leafSum (t : Huffman) : Int := ((leaves t).map Prod.snd).sum

/-- The arithmetic of the merge loop is exact on the table `f`: the absolute values of the
frequencies add up to less than `2^63`, so that no sum of some of them leaves the range of a
64-bit `int`. -/
def ExactSums (f : List (Nat × Int)) : Prop :=
  (f.map fun e => |e.2|).sum < 2 ^ 63

/-- The `Sum` of a tree is, as a 64-bit `int`, the sum of the weights of its leaves, and the
`Sum` of an internal node is in the range of a 64-bit `int`. -/
def SumOfLeaves (t : Huffman) : Prop :=
  ∃ s, t.getSum = some s ∧ wrapInt s = wrapInt (leafSum t) ∧
    (∀ s0 l r, t = Huffman.node none s0 l r → wrapInt s = s)

/-- No item of the queue holds a nil tree. -/
def NoNil (pq : PriorityQueue) : Prop := ∀ it ∈ pq, it.value ≠ Huffman.nil

/-- The priority of every entry of the queue is the `Sum` of its tree. -/
def PrioSum (pq : PriorityQueue) : Prop := ∀ it ∈ pq, it.value.getSum = some it.priority

/-- The invariant of the queue of `BuildHuffman` on the table `f`. -/
def ForestInv (f : List (Nat × Int)) (pq : PriorityQueue) : Prop :=
  (∀ it ∈ pq, wellFormed it.value = true ∧
    weightInv (fun a b => wrapInt (a + b)) it.value = true) ∧
  (forestLeaves pq).Perm f ∧
  (ExactSums f → ∀ it ∈ pq, weightInv (fun a b => a + b) it.value = true ∧
    it.value.getSum = some (leafSum it.value))

/-- The key that `Less` compares: the priority, then leaves before internal nodes, then the
symbol of a leaf. -/
def itemKey (it : Item) : Int × Nat × Nat :=
  match it.value with
  | .node (some x) _ _ _ => (it.priority, 0, x)
  | _ => (it.priority, 1, 0)

/-- The lexicographic order of the keys. -/
def keyLt (a b : Int × Nat × Nat) : Prop :=
  a.1 < b.1 ∨ (a.1 = b.1 ∧ (a.2.1 < b.2.1 ∨ (a.2.1 = b.2.1 ∧ a.2.2 < b.2.2)))

/-- The entry `b` is not `Less` than the entry `a`. -/
def itemLe (a b : Item) : Prop := ¬ keyLt (itemKey b) (itemKey a)

/-- The entry at `j` is not `Less` than the entry at its parent `(j - 1) / 2`. -/
def Edge (pq : PriorityQueue) (j : Nat) : Prop :=
  ∀ x y, pq[(j - 1) / 2]? = some x → pq[j]? = some y → itemLe x y

/-- The heap condition on the first `n` entries, for the parents from `lo` on. -/
def HeapFrom (pq : PriorityQueue) (n lo : Nat) : Prop :=
  ∀ j, 0 < j → j < n → lo ≤ (j - 1) / 2 → Edge pq j

/-- The heap condition on the whole queue. -/
def IsHeap (pq : PriorityQueue) : Prop := HeapFrom pq pq.length 0

/-- What `heap.down` needs at position `i`: the heap condition for the parents from `lo` on
except `i`, and the parent of `i` not above the children of `i`. -/
def DownPre (pq : PriorityQueue) (i n lo : Nat) : Prop :=
  (∀ j, 0 < j → j < n → lo ≤ (j - 1) / 2 → (j - 1) / 2 ≠ i → Edge pq j) ∧
  (0 < i → lo ≤ (i - 1) / 2 → ∀ c, 0 < c → c < n → (c - 1) / 2 = i →
    ∀ x y, pq[(i - 1) / 2]? = some x → pq[c]? = some y → itemLe x y)

/-- What `heap.up` needs at position `j`: the heap condition except for the entry at `j`, and
the parent of `j` not above the children of `j`. -/
def UpPre (pq : PriorityQueue) (j : Nat) : Prop :=
  (∀ k, 0 < k → k < pq.length → k ≠ j → Edge pq k) ∧
  (0 < j → ∀ c, 0 < c → c < pq.length → (c - 1) / 2 = j →
    ∀ x y, pq[(j - 1) / 2]? = some x → pq[c]? = some y → itemLe x y)

/-- The bit string of a code value: its binary digits, most significant first and without
leading zeros, or the single bit 0 when the value is 0. -/
def codeBits (v : Nat) : List Nat := if v = 0 then [0] else (Nat.digits 2 v).reverse

/-- The bit length of a code value, a value of 0 counted as one bit. -/
def codeLength (v : Nat) : Nat := if v = 0 then 1 else Nat.log 2 v + 1

/-- The concatenation, in input order, of the bit strings of the codes of the input bytes. -/
def bitStream (codes : CodeTable) : List Nat → List Nat
  | [] => []
  | ch :: rest =>
    (match codes ch with
      | some v => codeBits v
      | none => []) ++ bitStream codes rest

/-- The total number of bits of an input: the sum of the bit lengths of the codes of its
bytes. -/
def totalBits (codes : CodeTable) (data : List Nat) : Nat :=
  (data.map fun ch =>
    match codes ch with
    | some v => codeLength v
    | none => 0).sum

/-- The value of a group of bits that fills a word from bit `w - 1` downwards; the positions
the group does not reach stay zero. -/
def weigh : Nat → List Nat → Nat
  | 0, _ => 0
  | _ + 1, [] => 0
  | w + 1, b :: bs => b * 2 ^ w + weigh w bs

/-- The byte made of a group of at most 8 bits, filled from bit 7 down to bit 0. -/
def byteOfBits (bs : List Nat) : Nat := weigh 8 bs

/-- The reference packing: the stream split into groups of 8 bits, one byte for each group,
the last group filled up with zeros. -/
def packBits (bs : List Nat) : List Nat :=
  (List.range ((bs.length + 7) / 8)).map fun k => byteOfBits ((bs.drop (8 * k)).take 8)

/-- The state of `Encode` stands for the emitted groups of 8 bits `chunks` and the bits
`pending` of the group that is being filled. -/
def Rep (st : EncState) (chunks : List (List Nat)) (pending : List Nat) : Prop :=
  (∀ c ∈ chunks, c.length = 8 ∧ ∀ b ∈ c, b ≤ 1) ∧ pending.length < 8 ∧
  (∀ b ∈ pending, b ≤ 1) ∧ st.payload = chunks.map byteOfBits ∧
  st.byteResult = byteOfBits pending ∧ st.bitPosition = 7 - (pending.length : Int)

/-- The frequency `f[s]` of a symbol in a table (0 for a symbol that is not in the table). -/
def freqOf (f : List (Nat × Int)) (s : Nat) : Int :=
  match f.find? fun e => e.1 = s with
  | some e => e.2
  | none => 0

/-- The weighted path length of a tree for a table: the sum, over the leaves, of the frequency
of the symbol times the depth of the leaf. -/
def weightedPathLength (f : List (Nat × Int)) (t : Huffman) : Int :=
  ((paths t).map fun e => freqOf f e.1 * (e.2.length : Int)).sum

/-- The leaves of a tree, left to right, as pairs of weight (the `Sum` of the leaf) and
depth. -/
def leafDepths : Huffman → List (Int × Nat)
  | .nil => []
  | .node (some _) s _ _ => [(s, 0)]
  | .node none _ l r =>
    (leafDepths l).map (fun p => (p.1, p.2 + 1)) ++ (leafDepths r).map (fun p => (p.1, p.2 + 1))

/-- The weighted path length of a tree with the `Sum` of every leaf as its weight. -/
def treeCost (t : Huffman) : Int := ((leafDepths t).map fun p => p.1 * (p.2 : Int)).sum

/-- The multisets of leaf depths of the binary trees whose internal nodes all have two
children: the single leaf at depth 0, and a multiset in which a leaf at depth `d` is replaced
by two leaves at depth `d + 1`. -/
inductive ValidD : Multiset Nat → Prop
  | single : ValidD {0}
  | split (d : Nat) (D : Multiset Nat) : ValidD (d ::ₘ D) → ValidD ((d + 1) ::ₘ (d + 1) ::ₘ D)

/-- The cost of a multiset of leaves given as pairs of weight and depth. -/
def pairCost (M : Multiset (Int × Nat)) : Int := (M.map fun p => p.1 * (p.2 : Int)).sum

/-- The queue of `BuildHuffman f` can still be completed to a tree no worse than any
arrangement of the frequencies of `f` on the leaves of a binary tree: for every such
arrangement there is one of the priorities of the queue whose cost, added to the costs of the
trees of the queue, is not greater. -/
def OptInv (f : List (Nat × Int)) (pq : PriorityQueue) : Prop :=
  ∀ M0 : Multiset (Int × Nat), ValidD (M0.map Prod.snd) →
    M0.map Prod.fst = Multiset.ofList (f.map Prod.snd) →
    ∃ M : Multiset (Int × Nat), ValidD (M.map Prod.snd) ∧
      M.map Prod.fst = Multiset.ofList (pq.map fun it => it.priority) ∧
      pairCost M + (pq.map fun it => treeCost it.value).sum ≤ pairCost M0

/-! ## The inputs of the tests and of the examples -/

/-- A leaf as `BuildHuffman` makes it. -/
def leaf (ch : Nat) (w : Int) : Huffman := .node (some ch) w .nil .nil

/-- The frequency table of the tests, `{A:3, B:2, C:1, D:1}`, in the order of insertion. -/
def tableABCD : List (Nat × Int) := [(65, 3), (66, 2), (67, 1), (68, 1)]

/-- The tree `expected` of `TestBuildHuffman`. -/
def expectedTree : Huffman :=
  .node none 7 (leaf 65 3) (.node none 4 (leaf 66 2) (.node none 2 (leaf 67 1) (leaf 68 1)))

/-- The table `expectedEnc` of `TestHuffmanBuildTable`, `{A:0, B:2, C:6, D:7}`. -/
def expectedEnc : CodeTable := fun ch =>
  if ch = 65 then some 0 else if ch = 66 then some 2 else if ch = 67 then some 6
  else if ch = 68 then some 7 else none

/-- The input of `TestHuffmanEncode`: A, B, B, C, C, D, A, B. -/
def testInput : List Nat := [65, 66, 66, 67, 67, 68, 65, 66]

/-- The table `{A:1, B:1, C:1, D:1, E:1, F:1}` enumerated as A, B, C, D, E, F. -/
def sixOnesABC : List (Nat × Int) := [(65, 1), (66, 1), (67, 1), (68, 1), (69, 1), (70, 1)]

/-- The same table enumerated as B, C, A, D, E, F. -/
def sixOnesBCA : List (Nat × Int) := [(66, 1), (67, 1), (65, 1), (68, 1), (69, 1), (70, 1)]

/-- The tree built from `sixOnesABC`: the pair C, D on the left of the root. -/
def sixOnesTreeABC : Huffman :=
  .node none 6 (.node none 2 (leaf 67 1) (leaf 68 1))
    (.node none 4 (.node none 2 (leaf 65 1) (leaf 66 1)) (.node none 2 (leaf 69 1) (leaf 70 1)))

/-- The tree built from `sixOnesBCA`: the pair A, B on the left of the root. -/
def sixOnesTreeBCA : Huffman :=
  .node none 6 (.node none 2 (leaf 65 1) (leaf 66 1))
    (.node none 4 (.node none 2 (leaf 67 1) (leaf 68 1)) (.node none 2 (leaf 69 1) (leaf 70 1)))

/-- The table `{A:1, B:1, C:1, D:1}`. -/
def fourOnes : List (Nat × Int) := [(65, 1), (66, 1), (67, 1), (68, 1)]

/-- The tree built from `fourOnes`: the paths of A, B, C, D are 00, 01, 10, 11. -/
def fourOnesTree : Huffman :=
  .node none 4 (.node none 2 (leaf 65 1) (leaf 66 1)) (.node none 2 (leaf 67 1) (leaf 68 1))

/-- The table that `GetTable` makes of `fourOnesTree`, `{A:0, B:1, C:2, D:3}`. -/
def fourOnesCodes : CodeTable := fun ch =>
  if ch = 65 then some 0 else if ch = 66 then some 1 else if ch = 67 then some 2
  else if ch = 68 then some 3 else none

/-- The entry made by the merge of A and B in the table `fourOnes`. -/
def itemAB : Item := { value := .node none 2 (leaf 65 1) (leaf 66 1), priority := 2 }

/-- The entry made by the merge of C and D in the table `fourOnes`. -/
def itemCD : Item := { value := .node none 2 (leaf 67 1) (leaf 68 1), priority := 2 }

/-- The table of 34 symbols with the weights 1, 1, 2, 4, ..., `2^(k+1)`, for `k = 32`. -/
def deepTable : Nat → List (Nat × Int)
  | 0 => [(0, 1), (1, 1)]
  | k + 1 => deepTable k ++ [(k + 2, 2 ^ (k + 1))]

/-- The tree built from `deepTable k`: every leaf hangs on the left of a chain of right
children, the symbols 0 and 1 at its end, `k + 1` steps below the root. -/
def comb : Nat → Huffman
  | 0 => .node none 2 (leaf 0 1) (leaf 1 1)
  | k + 1 => .node none (2 ^ (k + 2)) (leaf (k + 2) (2 ^ (k + 1))) (comb k)

/-- The table `{A:2^62, B:2^62, C:2^62, D:2^62}`, whose sums leave the range of a 64-bit
`int`. -/
def fourBig : List (Nat × Int) := [(65, 2 ^ 62), (66, 2 ^ 62), (67, 2 ^ 62), (68, 2 ^ 62)]

/-- The tree built from `fourBig`: a chain with D one step, C two steps, A and B three steps
below the root. -/
def fourBigTree : Huffman :=
  .node none 0
    (.node none (-2 ^ 62) (.node none (-2 ^ 63) (leaf 65 (2 ^ 62)) (leaf 66 (2 ^ 62)))
      (leaf 67 (2 ^ 62)))
    (leaf 68 (2 ^ 62))

/-! # Theorems -/

/-! ## Heap operations permute the queue -/

theorem cons_set_perm {α : Type} : ∀ (xs : List α) (j : Nat) (x b : α),
    xs[j]? = some b → (b :: xs.set j x).Perm (x :: xs)
  | [], j, x, b, h => by simp at h
  | y :: ys, 0, x, b, h => by
    simp at h
    subst h
    simpa using List.Perm.swap x y ys
  | y :: ys, j + 1, x, b, h => by
    simp at h
    have ih := cons_set_perm ys j x b h
    simp only [List.set_cons_succ]
    exact (List.Perm.swap y b _).trans ((ih.cons y).trans (List.Perm.swap x y ys))

theorem set_set_perm_of_get : ∀ (l : List Item) (i j : Nat) (a b : Item),
    l[i]? = some a → l[j]? = some b → ((l.set i b).set j a).Perm l
  | [], i, j, a, b, hi, _ => by simp at hi
  | x :: xs, 0, 0, a, b, hi, hj => by
    simp at hi hj
    subst hi
    simp
  | x :: xs, 0, j + 1, a, b, hi, hj => by
    simp at hi hj
    subst hi
    simpa using cons_set_perm xs j x b hj
  | x :: xs, i + 1, 0, a, b, hi, hj => by
    simp at hi hj
    subst hj
    simpa using cons_set_perm xs i x a hi
  | x :: xs, i + 1, j + 1, a, b, hi, hj => by
    simp at hi hj
    simpa using set_set_perm_of_get xs i j a b hi hj

theorem Swap_perm {pq pq1 : PriorityQueue} {i j : Nat} (h : Swap pq i j = some pq1) :
    pq1.Perm pq := by
  unfold Swap at h
  split at h
  · next a b ha hb =>
    simp at h
    subst h
    exact set_set_perm_of_get pq i j a b ha hb
  · simp at h

theorem Swap_isSome {pq : PriorityQueue} {i j : Nat} (hi : i < pq.length) (hj : j < pq.length) :
    ∃ pq1, Swap pq i j = some pq1 := by
  unfold Swap
  rw [List.getElem?_eq_getElem hi, List.getElem?_eq_getElem hj]
  exact ⟨_, rfl⟩

theorem NoNil_perm {pq pq1 : PriorityQueue} (h : NoNil pq) (hp : pq1.Perm pq) : NoNil pq1 :=
  fun it hit => h it (hp.subset hit)

theorem itemLess_isSome {a b : Item} (ha : a.value ≠ Huffman.nil) (hb : b.value ≠ Huffman.nil) :
    ∃ r, itemLess a b = some r := by
  unfold itemLess
  split
  · cases hav : a.value with
    | nil => exact absurd hav ha
    | node da sa la ra =>
      cases da with
      | none => exact ⟨_, rfl⟩
      | some x =>
        cases hbv : b.value with
        | nil => exact absurd hbv hb
        | node db sb lb rb =>
          cases db with
          | none => exact ⟨_, rfl⟩
          | some y => exact ⟨_, rfl⟩
  · exact ⟨_, rfl⟩

theorem Less_isSome {pq : PriorityQueue} (h : NoNil pq) {i j : Nat} (hi : i < pq.length)
    (hj : j < pq.length) : ∃ r, Less pq i j = some r := by
  unfold Less
  rw [List.getElem?_eq_getElem hi, List.getElem?_eq_getElem hj]
  exact itemLess_isSome (h _ (List.getElem_mem _)) (h _ (List.getElem_mem _))

theorem downLoop_spec : ∀ (fuel : Nat) (pq : PriorityQueue) (i n : Nat),
    NoNil pq → n ≤ pq.length → n - i < fuel →
    ∃ pq1, downLoop fuel pq i n = some pq1 ∧ pq1.Perm pq
  | 0, _, _, _, _, _, hf => by omega
  | fuel + 1, pq, i, n, hnn, hn, hf => by
    unfold downLoop
    simp only
    by_cases h1 : n ≤ 2 * i + 1
    · rw [if_pos h1]
      exact ⟨pq, rfl, List.Perm.refl _⟩
    · rw [if_neg h1]
      have key : ∀ j, i < j → j < n →
          ∃ pq1, (match Less pq j i with
            | none => none
            | some false => some pq
            | some true =>
              match Swap pq i j with
              | none => none
              | some pq1 => downLoop fuel pq1 j n) = some pq1 ∧ pq1.Perm pq := by
        intro j hij hjn
        obtain ⟨r, hr⟩ := Less_isSome hnn (show j < pq.length by omega) (show i < pq.length by omega)
        rw [hr]
        cases r with
        | false => exact ⟨pq, rfl, List.Perm.refl _⟩
        | true =>
          obtain ⟨pq1, hs⟩ := Swap_isSome (show i < pq.length by omega) (show j < pq.length by omega)
          have hp := Swap_perm hs
          simp only [hs]
          obtain ⟨pq2, h2, hp2⟩ := downLoop_spec fuel pq1 j n (NoNil_perm hnn hp)
            (by rw [hp.length_eq]; exact hn) (by omega)
          exact ⟨pq2, h2, hp2.trans hp⟩
      by_cases h2 : 2 * i + 1 + 1 < n
      · rw [if_pos h2]
        obtain ⟨r, hr⟩ := Less_isSome hnn (show 2 * i + 1 + 1 < pq.length by omega)
          (show 2 * i + 1 < pq.length by omega)
        rw [hr]
        cases r with
        | false => exact key _ (by omega) (by omega)
        | true => exact key _ (by omega) (by omega)
      · rw [if_neg h2]
        exact key _ (by omega) (by omega)

theorem down_spec (pq : PriorityQueue) (i n : Nat) (hnn : NoNil pq) (hn : n ≤ pq.length) :
    ∃ pq1, down pq i n = some pq1 ∧ pq1.Perm pq :=
  downLoop_spec (n + 1) pq i n hnn hn (by omega)

theorem upLoop_spec : ∀ (fuel : Nat) (pq : PriorityQueue) (j : Nat),
    NoNil pq → j < pq.length → j < fuel →
    ∃ pq1, upLoop fuel pq j = some pq1 ∧ pq1.Perm pq
  | 0, _, _, _, _, hf => by omega
  | fuel + 1, pq, j, hnn, hj, hf => by
    unfold upLoop
    simp only
    by_cases h1 : (j - 1) / 2 = j
    · rw [if_pos h1]
      exact ⟨pq, rfl, List.Perm.refl _⟩
    · rw [if_neg h1]
      have hlt : (j - 1) / 2 < j := by omega
      obtain ⟨r, hr⟩ := Less_isSome hnn hj (show (j - 1) / 2 < pq.length by omega)
      rw [hr]
      cases r with
      | false => exact ⟨pq, rfl, List.Perm.refl _⟩
      | true =>
        obtain ⟨pq1, hs⟩ := Swap_isSome (show (j - 1) / 2 < pq.length by omega) hj
        have hp := Swap_perm hs
        simp only [hs]
        obtain ⟨pq2, h2, hp2⟩ := upLoop_spec fuel pq1 ((j - 1) / 2) (NoNil_perm hnn hp)
          (by rw [hp.length_eq]; omega) (by omega)
        exact ⟨pq2, h2, hp2.trans hp⟩

theorem initLoop_spec (n : Nat) : ∀ (k : Nat) (pq : PriorityQueue),
    NoNil pq → n ≤ pq.length →
    ∃ pq1, initLoop n k pq = some pq1 ∧ pq1.Perm pq
  | 0, pq, _, _ => ⟨pq, rfl, List.Perm.refl _⟩
  | k + 1, pq, hnn, hn => by
    unfold initLoop
    obtain ⟨pq1, h1, hp1⟩ := down_spec pq k n hnn hn
    simp only [h1]
    obtain ⟨pq2, h2, hp2⟩ := initLoop_spec n k pq1 (NoNil_perm hnn hp1) (by rw [hp1.length_eq]; exact hn)
    exact ⟨pq2, h2, hp2.trans hp1⟩

theorem heapInit_spec (pq : PriorityQueue) (hnn : NoNil pq) :
    ∃ pq1, heapInit pq = some pq1 ∧ pq1.Perm pq :=
  initLoop_spec pq.length _ pq hnn (Nat.le_refl _)

theorem heapPush_spec (pq : PriorityQueue) (x : Item) (hnn : NoNil pq)
    (hx : x.value ≠ Huffman.nil) :
    ∃ pq1, heapPush pq x = some pq1 ∧ pq1.Perm (x :: pq) := by
  have hnn1 : NoNil (pq ++ [x]) := by
    intro it hit
    rcases List.mem_append.1 hit with h | h
    · exact hnn it h
    · simp at h
      subst h
      exact hx
  obtain ⟨pq1, h1, hp1⟩ := upLoop_spec (pq.length + 1 - 1 + 1) (pq ++ [x]) (pq.length + 1 - 1)
    hnn1 (by simp) (by omega)
  refine ⟨pq1, h1, hp1.trans ?_⟩
  simp

theorem heapPop_spec (pq : PriorityQueue) (hnn : NoNil pq) (hne : pq ≠ []) :
    ∃ item pq1, heapPop pq = some (item, pq1) ∧ (item :: pq1).Perm pq := by
  have hlen : 0 < pq.length := List.length_pos.2 hne
  unfold heapPop
  rw [if_neg (by omega)]
  simp only
  obtain ⟨pq1, hs⟩ := Swap_isSome hlen (show pq.length - 1 < pq.length by omega)
  have hp := Swap_perm hs
  simp only [hs]
  obtain ⟨pq2, h2, hp2⟩ := down_spec pq1 0 (pq.length - 1) (NoNil_perm hnn hp)
    (by rw [hp.length_eq]; omega)
  simp only [h2]
  have hne2 : pq2 ≠ [] := by
    intro h
    have := (hp2.trans hp).length_eq
    rw [h] at this
    simp at this
    omega
  have hl : pq2.getLast? = some (pq2.getLast hne2) := List.getLast?_eq_getLast _ hne2
  rw [hl]
  refine ⟨_, _, rfl, ?_⟩
  have : (pq2.dropLast ++ [pq2.getLast hne2]) = pq2 := List.dropLast_append_getLast hne2
  have hp3 : (pq2.getLast hne2 :: pq2.dropLast).Perm pq2 := by
    have h4 : ([pq2.getLast hne2] ++ pq2.dropLast).Perm (pq2.dropLast ++ [pq2.getLast hne2]) :=
      List.perm_append_comm
    rw [this] at h4
    simpa using h4
  exact hp3.trans (hp2.trans hp)

/-! ## The merge loop keeps every invariant of the forest -/

theorem NoNil_getSum {pq : PriorityQueue} (h : NoNil pq) {it : Item} (hit : it ∈ pq) :
    ∃ s, it.value.getSum = some s := by
  cases hv : it.value with
  | nil => exact absurd hv (h it hit)
  | node d s l r => exact ⟨s, rfl⟩

theorem mergeLoop_inv (I : PriorityQueue → Prop)
    (hnil : ∀ pq, I pq → NoNil pq)
    (hperm : ∀ pq pq1 : PriorityQueue, pq1.Perm pq → I pq → I pq1)
    (hmerge : ∀ (a b : Item) (rest : PriorityQueue) (sa sb : Int),
      I (a :: b :: rest) → a.value.getSum = some sa → b.value.getSum = some sb →
      I ({ value := .node none (wrapInt (sa + sb)) a.value b.value,
           priority := wrapInt (sa + sb) } :: rest)) :
    ∀ (fuel : Nat) (pq : PriorityQueue), I pq → pq ≠ [] → pq.length ≤ fuel + 1 →
      ∃ item, mergeLoop fuel pq = some [item] ∧ I [item]
  | 0, pq, hI, hne, hlen => by
    match pq, hI, hne, hlen with
    | [item], hI, _, _ => exact ⟨item, by simp [mergeLoop], hI⟩
    | _ :: _ :: _, _, _, hlen => simp at hlen
  | fuel + 1, pq, hI, hne, hlen => by
    unfold mergeLoop
    by_cases h2 : 2 ≤ pq.length
    · rw [if_pos h2]
      obtain ⟨first, pq1, hpop1, hp1⟩ := heapPop_spec pq (hnil pq hI) hne
      have hI1 : I (first :: pq1) := hperm _ _ hp1 hI
      have hnn1 : NoNil pq1 := fun it hit => hnil _ hI1 it (List.mem_cons_of_mem _ hit)
      have hne1 : pq1 ≠ [] := by
        intro h
        have := hp1.length_eq
        rw [h] at this
        simp at this
        omega
      obtain ⟨second, pq2, hpop2, hp2⟩ := heapPop_spec pq1 hnn1 hne1
      have hp12 : (first :: second :: pq2).Perm pq := (hp2.cons first).trans hp1
      have hI2 : I (first :: second :: pq2) := hperm _ _ hp12 hI
      have hnn2 := hnil _ hI2
      obtain ⟨sa, hsa⟩ := NoNil_getSum hnn2 (List.mem_cons_self _ _)
      obtain ⟨sb, hsb⟩ := NoNil_getSum hnn2 (List.mem_cons_of_mem _ (List.mem_cons_self _ _))
      have hI3 := hmerge first second pq2 sa sb hI2 hsa hsb
      have hnn3 : NoNil pq2 := fun it hit =>
        hnn2 it (List.mem_cons_of_mem _ (List.mem_cons_of_mem _ hit))
      obtain ⟨pq3, hpush, hp3⟩ := heapPush_spec pq2
        { value := .node none (wrapInt (sa + sb)) first.value second.value,
          priority := wrapInt (sa + sb) } hnn3 (by simp)
      have hI4 : I pq3 := hperm _ _ hp3 hI3
      have hlen3 : pq3.length ≤ fuel + 1 := by
        have e1 := hp3.length_eq
        have e2 := hp12.length_eq
        simp at e1 e2
        omega
      have hne3 : pq3 ≠ [] := by
        intro h
        have := hp3.length_eq
        rw [h] at this
        simp at this
      obtain ⟨item, hm, hIm⟩ := mergeLoop_inv I hnil hperm hmerge fuel pq3 hI4 hne3 hlen3
      refine ⟨item, ?_, hIm⟩
      simp only [hpop1, hpop2, hsa, hsb, hpush, hm]
    · rw [if_neg h2]
      match pq, hI, hne, h2 with
      | [item], hI, _, _ => exact ⟨item, rfl, hI⟩
      | _ :: _ :: _, _, _, h2 => simp at h2

theorem seed_noNil (f : List (Nat × Int)) : NoNil (f.map seedItem) := by
  intro it hit
  obtain ⟨e, _, rfl⟩ := List.mem_map.1 hit
  simp [seedItem]

theorem BuildHuffman_inv (I : PriorityQueue → Prop)
    (hnil : ∀ pq, I pq → NoNil pq)
    (hperm : ∀ pq pq1 : PriorityQueue, pq1.Perm pq → I pq → I pq1)
    (hmerge : ∀ (a b : Item) (rest : PriorityQueue) (sa sb : Int),
      I (a :: b :: rest) → a.value.getSum = some sa → b.value.getSum = some sb →
      I ({ value := .node none (wrapInt (sa + sb)) a.value b.value,
           priority := wrapInt (sa + sb) } :: rest))
    (f : List (Nat × Int)) (hlen : 2 ≤ f.length) (hseed : I (f.map seedItem)) :
    ∃ item, BuildHuffman f = some (item.value, false) ∧ I [item] := by
  unfold BuildHuffman
  rw [if_neg (by omega)]
  obtain ⟨pq, hinit, hp⟩ := heapInit_spec (f.map seedItem) (seed_noNil f)
  have hI : I pq := hperm _ _ hp hseed
  have hne : pq ≠ [] := by
    intro h
    have := hp.length_eq
    rw [h] at this
    simp at this
    omega
  obtain ⟨item, hm, hIm⟩ := mergeLoop_inv I hnil hperm hmerge pq.length pq hI hne (by omega)
  obtain ⟨last, pq2, hpop, hp2⟩ := heapPop_spec [item] (hnil _ hIm) (by simp)
  have hl : last = item := by
    have := hp2.subset (List.mem_cons_self _ _)
    simpa using this
  subst hl
  refine ⟨last, ?_, hIm⟩
  simp only [hinit, hm, hpop]

/-! ## The invariant of the forest -/

theorem wrapInt_eq {x : Int} (h0 : -2 ^ 63 ≤ x) (h1 : x < 2 ^ 63) : wrapInt x = x := by
  unfold wrapInt
  norm_num at h0 h1 ⊢
  omega

theorem forestLeaves_perm {pq pq1 : PriorityQueue} (h : pq1.Perm pq) :
    (forestLeaves pq1).Perm (forestLeaves pq) := by
  induction h with
  | nil => exact List.Perm.refl _
  | cons x _ ih => exact List.Perm.append_left _ ih
  | swap x y l =>
    simp only [forestLeaves, ← List.append_assoc]
    exact List.Perm.append_right _ List.perm_append_comm
  | trans _ _ ih1 ih2 => exact ih1.trans ih2

theorem forestLeaves_seed : ∀ f : List (Nat × Int), forestLeaves (f.map seedItem) = f
  | [] => rfl
  | e :: rest => by
    simp [forestLeaves, seedItem, leaves, forestLeaves_seed rest]

theorem wellFormed_ne_nil {t : Huffman} (h : wellFormed t = true) : t ≠ Huffman.nil := by
  intro ht
  subst ht
  simp [wellFormed] at h

theorem ForestInv_noNil {f : List (Nat × Int)} {pq : PriorityQueue} (h : ForestInv f pq) :
    NoNil pq :=
  fun it hit => wellFormed_ne_nil (h.1 it hit).1

theorem ForestInv_perm {f : List (Nat × Int)} {pq pq1 : PriorityQueue} (hp : pq1.Perm pq)
    (h : ForestInv f pq) : ForestInv f pq1 :=
  ⟨fun it hit => h.1 it (hp.subset hit), (forestLeaves_perm hp).trans h.2.1,
    fun he it hit => h.2.2 he it (hp.subset hit)⟩

theorem ForestInv_seed (f : List (Nat × Int)) : ForestInv f (f.map seedItem) := by
  refine ⟨?_, ?_, ?_⟩
  · intro it hit
    obtain ⟨e, _, rfl⟩ := List.mem_map.1 hit
    simp [seedItem, wellFormed, weightInv]
  · rw [forestLeaves_seed]
  · intro _ it hit
    obtain ⟨e, _, rfl⟩ := List.mem_map.1 hit
    simp [seedItem, weightInv, Huffman.getSum, leafSum, leaves]

theorem absSum_nonneg (l : List (Nat × Int)) : 0 ≤ (l.map fun e => |e.2|).sum := by
  apply List.sum_nonneg
  intro x hx
  obtain ⟨e, _, rfl⟩ := List.mem_map.1 hx
  exact abs_nonneg _

theorem abs_sum_le_absSum : ∀ l : List (Nat × Int),
    |(l.map Prod.snd).sum| ≤ (l.map fun e => |e.2|).sum
  | [] => by simp
  | e :: rest => by
    have ih := abs_sum_le_absSum rest
    simp only [List.map_cons, List.sum_cons]
    exact le_trans (abs_add _ _) (by omega)

theorem abs_leafSum_le (t : Huffman) : |leafSum t| ≤ ((leaves t).map fun e => |e.2|).sum :=
  abs_sum_le_absSum (leaves t)

theorem ForestInv_merge {f : List (Nat × Int)} (a b : Item) (rest : PriorityQueue)
    (sa sb : Int) (h : ForestInv f (a :: b :: rest)) (hsa : a.value.getSum = some sa)
    (hsb : b.value.getSum = some sb) :
    ForestInv f ({ value := .node none (wrapInt (sa + sb)) a.value b.value,
                   priority := wrapInt (sa + sb) } :: rest) := by
  obtain ⟨hall, hleaves, hexact⟩ := h
  have ha := hall a (List.mem_cons_self _ _)
  have hb := hall b (List.mem_cons_of_mem _ (List.mem_cons_self _ _))
  refine ⟨?_, ?_, ?_⟩
  · intro it hit
    rcases List.mem_cons.1 hit with rfl | hr
    · simp [wellFormed, weightInv, hsa, hsb, ha.1, ha.2, hb.1, hb.2]
    · exact hall it (List.mem_cons_of_mem _ (List.mem_cons_of_mem _ hr))
  · simpa [forestLeaves, leaves, List.append_assoc] using hleaves
  · intro he it hit
    rcases List.mem_cons.1 hit with rfl | hr
    · have hea := hexact he a (List.mem_cons_self _ _)
      have heb := hexact he b (List.mem_cons_of_mem _ (List.mem_cons_self _ _))
      rw [hsa] at hea
      rw [hsb] at heb
      have hsa1 : sa = leafSum a.value := Option.some.inj hea.2
      have hsb1 : sb = leafSum b.value := Option.some.inj heb.2
      have hsum : ((forestLeaves (a :: b :: rest)).map fun e => |e.2|).sum =
          (f.map fun e => |e.2|).sum := (hleaves.map _).sum_eq
      have h0a := abs_leafSum_le a.value
      have h0b := abs_leafSum_le b.value
      have h0r := absSum_nonneg (forestLeaves rest)
      have htot : ((leaves a.value).map fun e => |e.2|).sum +
          ((leaves b.value).map fun e => |e.2|).sum +
          ((forestLeaves rest).map fun e => |e.2|).sum = (f.map fun e => |e.2|).sum := by
        rw [← hsum]
        simp [forestLeaves, add_assoc]
      have hlt : (f.map fun e => |e.2|).sum < 2 ^ 63 := he
      have hab := abs_add (leafSum a.value) (leafSum b.value)
      have hbnd := abs_lt.1 (lt_of_le_of_lt hab
        (show |leafSum a.value| + |leafSum b.value| < 2 ^ 63 by omega))
      have hw : wrapInt (sa + sb) = sa + sb := by
        apply wrapInt_eq <;> rw [hsa1, hsb1]
        · exact le_of_lt hbnd.1
        · exact hbnd.2
      refine ⟨?_, ?_⟩
      · simp only [weightInv, hsa, hsb, hw, hea.1, heb.1]
        simp
      · rw [hsa1, hsb1] at hw
        simp only [Huffman.getSum, hsa1, hsb1, hw]
        simp [leafSum, leaves]
    · exact hexact he it (List.mem_cons_of_mem _ (List.mem_cons_of_mem _ hr))

/-- The tree built from a table of at least two entries, with the facts the invariant gives. -/
theorem BuildHuffman_forest (f : List (Nat × Int)) (hlen : 2 ≤ f.length) :
    ∃ t, BuildHuffman f = some (t, false) ∧ wellFormed t = true ∧
      weightInv (fun a b => wrapInt (a + b)) t = true ∧ (leaves t).Perm f ∧
      (ExactSums f → weightInv (fun a b => a + b) t = true ∧
        t.getSum = some (leafSum t)) := by
  obtain ⟨item, hb, hI⟩ := BuildHuffman_inv (ForestInv f) (fun _ h => ForestInv_noNil h)
    (fun _ _ hp h => ForestInv_perm hp h) (fun a b rest sa sb h => ForestInv_merge a b rest sa sb h) f hlen
    (ForestInv_seed f)
  have hit : item ∈ [item] := List.mem_cons_self _ _
  refine ⟨item.value, hb, (hI.1 item hit).1, (hI.1 item hit).2, ?_, fun he => hI.2.2 he item hit⟩
  simpa [forestLeaves] using hI.2.1

/-! ## The built tree -/

theorem paths_fst : ∀ t : Huffman, (paths t).map Prod.fst = (leaves t).map Prod.fst
  | .nil => rfl
  | .node (some _) _ _ _ => rfl
  | .node none _ l r => by
    simp [paths, leaves, paths_fst l, paths_fst r, Function.comp_def]

theorem paths_prefix_eq : ∀ (t : Huffman) (a b : Nat) (pa pb : List Bool),
    (a, pa) ∈ paths t → (b, pb) ∈ paths t → pa <+: pb → a = b
  | .nil, _, _, _, _, ha, _, _ => by simp [paths] at ha
  | .node (some ch) _ _ _, a, b, pa, pb, ha, hb, _ => by
    simp [paths] at ha hb
    rw [ha.1, hb.1]
  | .node none _ l r, a, b, pa, pb, ha, hb, hpre => by
    simp only [paths, List.mem_append, List.mem_map, Prod.mk.injEq] at ha hb
    rcases ha with ⟨ea, hea, rfl, rfl⟩ | ⟨ea, hea, rfl, rfl⟩ <;>
      rcases hb with ⟨eb, heb, rfl, rfl⟩ | ⟨eb, heb, rfl, rfl⟩
    · exact paths_prefix_eq l _ _ _ _ hea heb ((List.prefix_cons_inj _).1 hpre)
    · obtain ⟨u, hu⟩ := hpre
      simp at hu
    · obtain ⟨u, hu⟩ := hpre
      simp at hu
    · exact paths_prefix_eq r _ _ _ _ hea heb ((List.prefix_cons_inj _).1 hpre)

theorem BuildHuffman_short (f : List (Nat × Int)) (h : f.length < 2) :
    BuildHuffman f = some (Huffman.nil, true) := by
  unfold BuildHuffman
  rw [if_pos h]

/-- C9: `BuildHuffman` returns an error, and a nil tree with it, exactly when the table has
fewer than two entries (a nil or an empty table has none); on every table with at least two
entries it returns a non-nil tree and a nil error. The empty table and `{A:1}` fail. -/
theorem BuildHuffman_error_iff (f : List (Nat × Int)) :
    (BuildHuffman f = some (Huffman.nil, true) ↔ f.length < 2) ∧
    ((∃ t, BuildHuffman f = some (t, true)) ↔ f.length < 2) ∧
    (2 ≤ f.length → ∃ t, t ≠ Huffman.nil ∧ BuildHuffman f = some (t, false)) ∧
    BuildHuffman [] = some (Huffman.nil, true) ∧
    BuildHuffman [(65, 1)] = some (Huffman.nil, true) := by
  have hsmall : f.length < 2 → BuildHuffman f = some (Huffman.nil, true) :=
    BuildHuffman_short f
  have hbig : 2 ≤ f.length → ∃ t, t ≠ Huffman.nil ∧ BuildHuffman f = some (t, false) := by
    intro h
    obtain ⟨t, hb, hwf, _⟩ := BuildHuffman_forest f h
    exact ⟨t, wellFormed_ne_nil hwf, hb⟩
  refine ⟨⟨fun h => ?_, hsmall⟩, ⟨fun h => ?_, fun h => ⟨_, hsmall h⟩⟩, hbig, rfl, rfl⟩
  · by_contra hc
    obtain ⟨t, _, hb⟩ := hbig (by omega)
    rw [hb] at h
    simp at h
  · by_contra hc
    obtain ⟨t, _, hb⟩ := hbig (by omega)
    obtain ⟨t1, h1⟩ := h
    rw [hb] at h1
    simp at h1

theorem BuildHuffman_error_iff_witness :
    ∃ t, t ≠ Huffman.nil ∧ BuildHuffman tableABCD = some (t, false) :=
  (BuildHuffman_error_iff tableABCD).2.2.1 (by decide)

/-- C8: on every table with at least two entries `BuildHuffman` returns a well-formed tree in
which every internal node has a `Sum` equal to the Go sum (wrapped to 64 bits) of the `Sum`
fields of its two children; when the arithmetic is exact (the absolute values of the frequencies add
up to less than `2^63`) the `Sum` is the exact sum of the two, through the whole tree. -/
theorem BuildHuffman_weight_invariant (f : List (Nat × Int)) (hlen : 2 ≤ f.length) :
    ∃ t, BuildHuffman f = some (t, false) ∧ wellFormed t = true ∧
      weightInv (fun a b => wrapInt (a + b)) t = true ∧
      (ExactSums f → weightInv (fun a b => a + b) t = true) := by
  obtain ⟨t, hb, hwf, hw, _, hex⟩ := BuildHuffman_forest f hlen
  exact ⟨t, hb, hwf, hw, fun he => (hex he).1⟩

theorem BuildHuffman_weight_invariant_witness :
    2 ≤ tableABCD.length ∧ ∃ t, BuildHuffman tableABCD = some (t, false) ∧
      wellFormed t = true ∧ weightInv (fun a b => wrapInt (a + b)) t = true ∧
      (ExactSums tableABCD → weightInv (fun a b => a + b) t = true) :=
  ⟨by decide, BuildHuffman_weight_invariant tableABCD (by decide)⟩

/-- C7: on every table with at least two entries `BuildHuffman` returns a tree whose leaves
carry exactly the symbols of the table, and the root-to-leaf paths of two distinct symbols are
different and neither is a prefix of the other. -/
theorem BuildHuffman_paths_prefix_free (f : List (Nat × Int)) (hlen : 2 ≤ f.length) :
    ∃ t, BuildHuffman f = some (t, false) ∧
      ((paths t).map Prod.fst).Perm (f.map Prod.fst) ∧
      ∀ a b pa pb, (a, pa) ∈ paths t → (b, pb) ∈ paths t → a ≠ b →
        pa ≠ pb ∧ ¬ pa <+: pb ∧ ¬ pb <+: pa := by
  obtain ⟨t, hb, _, _, hl, _⟩ := BuildHuffman_forest f hlen
  refine ⟨t, hb, ?_, ?_⟩
  · rw [paths_fst]
    exact hl.map Prod.fst
  · intro a b pa pb ha hb1 hab
    have h1 : ¬ pa <+: pb := fun h => hab (paths_prefix_eq t a b pa pb ha hb1 h)
    have h2 : ¬ pb <+: pa := fun h => hab (paths_prefix_eq t b a pb pa hb1 ha h).symm
    exact ⟨fun h => h1 (h ▸ List.prefix_refl _), h1, h2⟩

theorem BuildHuffman_paths_prefix_free_witness :
    2 ≤ tableABCD.length ∧ ∃ t, BuildHuffman tableABCD = some (t, false) ∧
      ((paths t).map Prod.fst).Perm (tableABCD.map Prod.fst) ∧
      ∀ a b pa pb, (a, pa) ∈ paths t → (b, pb) ∈ paths t → a ≠ b →
        pa ≠ pb ∧ ¬ pa <+: pb ∧ ¬ pb <+: pa :=
  ⟨by decide, BuildHuffman_paths_prefix_free tableABCD (by decide)⟩

/-! ## The table of the tests -/

theorem BuildHuffman_tableABCD_orders :
    ∀ l ∈ tableABCD.permutations', BuildHuffman l = some (expectedTree, false) := by
  decide

/-- C3: in whatever order the four entries of `{A:3, B:2, C:1, D:1}` are enumerated,
`BuildHuffman` succeeds and `CompareHuffman` reports its tree equal to the expected one. -/
theorem BuildHuffman_test_tree (l : List (Nat × Int)) (h : l.Perm tableABCD) :
    ∃ t, BuildHuffman l = some (t, false) ∧ CompareHuffman t expectedTree = true :=
  ⟨expectedTree, BuildHuffman_tableABCD_orders l (List.mem_permutations'.2 h), by decide⟩

theorem BuildHuffman_test_tree_witness :
    ∃ t, BuildHuffman [(68, 1), (66, 2), (65, 3), (67, 1)] = some (t, false) ∧
      CompareHuffman t expectedTree = true :=
  BuildHuffman_test_tree [(68, 1), (66, 2), (65, 3), (67, 1)] (by decide)

/-- C4: the table of six symbols of weight 1 gives two trees that `CompareHuffman` tells apart
when its entries are enumerated in two different orders. -/
theorem BuildHuffman_order_dependent :
    sixOnesBCA.Perm sixOnesABC ∧
    BuildHuffman sixOnesABC = some (sixOnesTreeABC, false) ∧
    BuildHuffman sixOnesBCA = some (sixOnesTreeBCA, false) ∧
    CompareHuffman sixOnesTreeABC sixOnesTreeBCA = false := by
  refine ⟨by decide, by decide, by decide, by decide⟩

/-! ## `GetTable` -/

theorem parseLoop_eq : ∀ (p : List Bool) (n : Nat), (n + 1) * 2 ^ p.length ≤ 2 ^ 32 →
    parseLoop p n = some (p.foldl (fun n b => 2 * n + (if b then 1 else 0)) n)
  | [], n, _ => rfl
  | c :: cs, n, h => by
    have hq : 0 < 2 ^ cs.length := Nat.two_pow_pos _
    have h1 : (n + 1) * (2 * 2 ^ cs.length) ≤ 2 ^ 32 := by
      simpa [Nat.pow_succ, Nat.mul_comm] using h
    have hd : (if c then 1 else 0) ≤ 1 := by split <;> omega
    have h2 : (2 * n + (if c then 1 else 0) + 1) * 2 ^ cs.length ≤ 2 ^ 32 := by
      calc (2 * n + (if c then 1 else 0) + 1) * 2 ^ cs.length
          ≤ (2 * n + 2) * 2 ^ cs.length := Nat.mul_le_mul_right _ (by omega)
        _ = (n + 1) * (2 * 2 ^ cs.length) := by ring
        _ ≤ 2 ^ 32 := h1
    have h3 : 2 * n + (if c then 1 else 0) + 1 ≤ 2 ^ 32 :=
      le_trans (Nat.le_mul_of_pos_right _ hq) h2
    have ih := parseLoop_eq cs (2 * n + (if c then 1 else 0)) h2
    norm_num at h3
    unfold parseLoop
    simp only [List.foldl_cons]
    rw [if_neg (by norm_num; omega)]
    have e1 : n * 2 % 2 ^ 64 = 2 * n := by norm_num; omega
    have e2 : (2 * n + (if c then 1 else 0)) % 2 ^ 64 = 2 * n + (if c then 1 else 0) := by
      norm_num; omega
    rw [e1, e2, if_neg (by norm_num; omega)]
    exact ih

theorem ParseUint_eq (p : List Bool) (h1 : 1 ≤ p.length) (h2 : p.length ≤ 32) :
    ParseUint p = some (pathValue p) ∧ pathValue p < 2 ^ 32 := by
  have hp : (0 + 1) * 2 ^ p.length ≤ 2 ^ 32 := by
    simpa using Nat.pow_le_pow_right (by decide : 0 < 2) h2
  have hne : p ≠ [] := by
    intro h
    rw [h] at h1
    simp at h1
  refine ⟨?_, ?_⟩
  · unfold ParseUint
    rw [if_neg hne]
    exact parseLoop_eq p 0 hp
  · have : ∀ (q : List Bool) (n k : Nat), n < 2 ^ k →
        q.foldl (fun n b => 2 * n + (if b then 1 else 0)) n < 2 ^ (k + q.length) := by
      intro q
      induction q with
      | nil => intro n k h; simpa using h
      | cons c cs ih =>
        intro n k h
        have hd : (if c then 1 else 0) ≤ 1 := by split <;> omega
        have := ih (2 * n + (if c then 1 else 0)) (k + 1) (by rw [Nat.pow_succ]; omega)
        simpa [Nat.add_assoc, Nat.add_comm 1] using this
    have h3 := this p 0 0 (by simp)
    exact lt_of_lt_of_le h3 (Nat.pow_le_pow_right (by decide) (by omega))

/-- What the closure `table` does on a tree all of whose paths, appended to `code`, have
between 1 and 32 characters. -/
theorem table_spec : ∀ (t : Huffman) (code : List Bool) (f : CodeTable),
    (∀ e ∈ paths t, 1 ≤ (code ++ e.2).length ∧ (code ++ e.2).length ≤ 32) →
    (table t code f).2 = false ∧
    (∀ ch, ch ∉ (paths t).map Prod.fst → (table t code f).1 ch = f ch) ∧
    (((paths t).map Prod.fst).Nodup → ∀ e ∈ paths t,
      (table t code f).1 e.1 = some (pathValue (code ++ e.2)))
  | .nil, code, f, _ => by simp [table, paths]
  | .node (some ch) _ _ _, code, f, h => by
    have hc := h (ch, []) (by simp [paths])
    simp only [List.append_nil] at hc
    obtain ⟨hp, hlt⟩ := ParseUint_eq code hc.1 hc.2
    refine ⟨?_, ?_, ?_⟩
    · simp [table, hp]
    · intro c hc
      simp [paths] at hc
      simp [table, hp, Function.update, hc]
    · intro _ e he
      simp [paths] at he
      subst he
      simp only [table, hp, Nat.mod_eq_of_lt hlt]
      simp
  | .node none s l r, code, f, h => by
    have hl : ∀ e ∈ paths l, 1 ≤ ((code ++ [false]) ++ e.2).length ∧
        ((code ++ [false]) ++ e.2).length ≤ 32 := by
      intro e he
      have := h (e.1, false :: e.2) (by rw [paths]; exact List.mem_append.2 (Or.inl (List.mem_map.2 ⟨e, he, rfl⟩)))
      simpa using this
    have hr : ∀ e ∈ paths r, 1 ≤ ((code ++ [true]) ++ e.2).length ∧
        ((code ++ [true]) ++ e.2).length ≤ 32 := by
      intro e he
      have := h (e.1, true :: e.2) (by rw [paths]; exact List.mem_append.2 (Or.inr (List.mem_map.2 ⟨e, he, rfl⟩)))
      simpa using this
    obtain ⟨l1, l2, l3⟩ := table_spec l (code ++ [false]) f hl
    obtain ⟨r1, r2, r3⟩ := table_spec r (code ++ [true]) (table l (code ++ [false]) f).1 hr
    have hfst : (paths (.node none s l r)).map Prod.fst =
        (paths l).map Prod.fst ++ (paths r).map Prod.fst := by
      simp [paths, Function.comp_def]
    simp only [table, l1]
    refine ⟨by simp, ?_, ?_⟩
    · intro ch hch
      rw [hfst, List.mem_append, not_or] at hch
      simp only [Bool.false_eq_true, if_false]
      rw [r2 ch hch.2, l2 ch hch.1]
    · intro hnd e he
      rw [hfst] at hnd
      simp only [Bool.false_eq_true, if_false]
      simp only [paths, List.mem_append, List.mem_map] at he
      rcases he with ⟨e1, he1, rfl⟩ | ⟨e1, he1, rfl⟩
      · have hnot : e1.1 ∉ (paths r).map Prod.fst := fun hin =>
          (List.nodup_append.1 hnd).2.2 (List.mem_map_of_mem Prod.fst he1) hin
        rw [r2 _ hnot, l3 (List.nodup_append.1 hnd).1 e1 he1]
        simp
      · rw [r3 (List.nodup_append.1 hnd).2.1 e1 he1]
        simp

theorem paths_length_le_depth : ∀ (t : Huffman), ∀ e ∈ paths t, e.2.length ≤ depth t
  | .nil, e, he => by simp [paths] at he
  | .node (some _) _ _ _, e, he => by
    simp [paths] at he
    subst he
    simp
  | .node none _ l r, e, he => by
    simp only [paths, List.mem_append, List.mem_map] at he
    rcases he with ⟨e1, he1, rfl⟩ | ⟨e1, he1, rfl⟩
    · have := paths_length_le_depth l e1 he1
      simp only [depth, List.length_cons]
      omega
    · have := paths_length_le_depth r e1 he1
      simp only [depth, List.length_cons]
      omega

theorem paths_length_pos : ∀ (t : Huffman), 1 ≤ depth t → ∀ e ∈ paths t, 1 ≤ e.2.length
  | .nil, h, _, _ => by simp [depth] at h
  | .node (some _) _ _ _, h, _, _ => by simp [depth] at h
  | .node none _ l r, _, e, he => by
    simp only [paths, List.mem_append, List.mem_map] at he
    rcases he with ⟨e1, he1, rfl⟩ | ⟨e1, he1, rfl⟩ <;> simp

theorem GetTable_spec (t : Huffman) (h1 : 1 ≤ depth t) (h32 : depth t ≤ 32) :
    ∃ codes, GetTable t = (some codes, false) ∧
      (∀ ch, ch ∉ (paths t).map Prod.fst → codes ch = none) ∧
      (((paths t).map Prod.fst).Nodup → ∀ e ∈ paths t, codes e.1 = some (pathValue e.2)) := by
  have hb : ∀ e ∈ paths t, 1 ≤ (([] : List Bool) ++ e.2).length ∧
      (([] : List Bool) ++ e.2).length ≤ 32 := by
    intro e he
    have a := paths_length_le_depth t e he
    have b := paths_length_pos t h1 e he
    simp only [List.nil_append]
    omega
  obtain ⟨e1, e2, e3⟩ := table_spec t [] (fun _ => none) hb
  refine ⟨(table t [] (fun _ => none)).1, ?_, e2, ?_⟩
  · simp [GetTable, e1]
  · intro hnd e he
    simpa using e3 hnd e he

theorem GetTable_expectedTree : GetTable expectedTree = (some expectedEnc, false) := by
  have h : (table expectedTree [] (fun _ => none)).1 = expectedEnc := by
    funext ch
    simp [expectedTree, leaf, table, ParseUint, parseLoop, expectedEnc, Function.update]
    split_ifs <;> simp_all
  have h2 : (table expectedTree [] (fun _ => none)).2 = false := by
    simp [expectedTree, leaf, table, ParseUint, parseLoop]
  simp [GetTable, h, h2]

/-- C2: on every well-formed tree with pairwise distinct leaf symbols and a depth between 1 and
32, `GetTable` succeeds; the keys of its table are exactly the leaf symbols and each is mapped
to its root-to-leaf path read as a binary number. For the tree built from
`{A:3, B:2, C:1, D:1}` the table is `{A:0, B:2, C:6, D:7}`. -/
theorem GetTable_paths (t : Huffman) (hwf : wellFormed t = true)
    (hnd : ((leaves t).map Prod.fst).Nodup) (h1 : 1 ≤ depth t) (h32 : depth t ≤ 32) :
    (∃ codes, GetTable t = (some codes, false) ∧
      (∀ ch, codes ch ≠ none ↔ ch ∈ (leaves t).map Prod.fst) ∧
      (∀ ch p, (ch, p) ∈ paths t → codes ch = some (pathValue p))) ∧
    ∃ t0, BuildHuffman tableABCD = some (t0, false) ∧
      GetTable t0 = (some expectedEnc, false) := by
  have _ := hwf
  refine ⟨?_, expectedTree, by decide, GetTable_expectedTree⟩
  obtain ⟨codes, hg, hnone, hsome⟩ := GetTable_spec t h1 h32
  rw [paths_fst] at hnone hsome
  refine ⟨codes, hg, ?_, fun ch p hp => hsome hnd (ch, p) hp⟩
  intro ch
  constructor
  · intro hne
    by_contra hc
    exact hne (hnone ch hc)
  · intro hin
    rw [← paths_fst] at hin
    obtain ⟨e, he, rfl⟩ := List.mem_map.1 hin
    rw [hsome hnd e he]
    simp

theorem GetTable_paths_witness :
    (∃ codes, GetTable expectedTree = (some codes, false) ∧
      (∀ ch, codes ch ≠ none ↔ ch ∈ (leaves expectedTree).map Prod.fst) ∧
      (∀ ch p, (ch, p) ∈ paths expectedTree → codes ch = some (pathValue p))) ∧
    ∃ t0, BuildHuffman tableABCD = some (t0, false) ∧
      GetTable t0 = (some expectedEnc, false) :=
  GetTable_paths expectedTree (by decide) (by decide) (by decide) (by decide)

/-! ## `Encode`: the bits of one code -/

theorem stackLoop_eq : ∀ (fuel code : Nat) (stack : List Nat), code ≤ fuel →
    stackLoop fuel code stack = stack ++ Nat.digits 2 code
  | 0, code, stack, h => by
    have : code = 0 := by omega
    subst this
    simp [stackLoop]
  | fuel + 1, code, stack, h => by
    unfold stackLoop
    by_cases hc : code = 0
    · subst hc
      simp
    · rw [if_pos hc]
      have hpos : 0 < code := Nat.pos_of_ne_zero hc
      rw [stackLoop_eq fuel (code >>> 1) _ (by rw [Nat.shiftRight_eq_div_pow]; omega)]
      rw [Nat.digits_def' (by decide) hpos, Nat.and_one_is_mod, Nat.shiftRight_eq_div_pow]
      have : code % 2 % 256 = code % 2 := by omega
      simp [this]

theorem codeBits_le_one (v : Nat) : ∀ b ∈ codeBits v, b ≤ 1 := by
  intro b hb
  unfold codeBits at hb
  split at hb
  · simp at hb
    omega
  · have := Nat.digits_lt_base (b := 2) (m := v) (by decide) (List.mem_reverse.1 hb)
    omega

theorem codeBits_ne_nil (v : Nat) : codeBits v ≠ [] := by
  unfold codeBits
  split
  · simp
  · next h =>
    simpa using (Nat.digits_ne_nil_iff_ne_zero (b := 2)).2 h

/-! ## `Encode`: the value of a group of bits -/

theorem weigh_nil (w : Nat) : weigh w [] = 0 := by
  cases w <;> rfl

theorem weigh_append : ∀ (w : Nat) (p : List Nat) (b : Nat), p.length < w →
    weigh w (p ++ [b]) = weigh w p + b * 2 ^ (w - 1 - p.length)
  | 0, _, _, h => by omega
  | w + 1, [], b, _ => by simp [weigh, weigh_nil]
  | w + 1, a :: p, b, h => by
    simp only [List.length_cons] at h
    have ih := weigh_append w p b (by omega)
    have e : w + 1 - 1 - (p.length + 1) = w - 1 - p.length := by omega
    show weigh (w + 1) (a :: (p ++ [b])) = weigh (w + 1) (a :: p) + _
    simp only [weigh, List.length_cons]
    rw [ih, e]
    ring

theorem weigh_dvd : ∀ (w : Nat) (p : List Nat), p.length ≤ w →
    ∃ q, weigh w p = 2 ^ (w - p.length) * q
  | 0, _, _ => ⟨0, by simp [weigh]⟩
  | w + 1, [], _ => ⟨0, by simp [weigh]⟩
  | w + 1, a :: p, h => by
    simp only [List.length_cons] at h
    obtain ⟨q, hq⟩ := weigh_dvd w p (by omega)
    refine ⟨a * 2 ^ p.length + q, ?_⟩
    have e : w + 1 - (p.length + 1) = w - p.length := by omega
    have e2 : 2 ^ w = 2 ^ (w - p.length) * 2 ^ p.length := by
      rw [← Nat.pow_add]
      congr 1
      omega
    simp only [weigh, List.length_cons, hq, e]
    rw [e2]
    ring

theorem weigh_bound : ∀ (w : Nat) (p : List Nat), p.length ≤ w → (∀ b ∈ p, b ≤ 1) →
    weigh w p + 2 ^ (w - p.length) ≤ 2 ^ w
  | 0, p, h, _ => by
    have : p.length = 0 := by omega
    simp [weigh, this]
  | w + 1, [], _, _ => by simp [weigh]
  | w + 1, a :: p, h, hb => by
    simp only [List.length_cons] at h
    have ih := weigh_bound w p (by omega) (fun b hm => hb b (List.mem_cons_of_mem _ hm))
    have ha : a ≤ 1 := hb a (List.mem_cons_self _ _)
    have e : w + 1 - (p.length + 1) = w - p.length := by omega
    simp only [weigh, List.length_cons, e]
    have h2 : a * 2 ^ w ≤ 2 ^ w := by
      calc a * 2 ^ w ≤ 1 * 2 ^ w := Nat.mul_le_mul_right _ ha
        _ = 2 ^ w := Nat.one_mul _
    rw [Nat.pow_succ]
    omega

theorem weigh_lt (w : Nat) (p : List Nat) (h : p.length ≤ w) (hb : ∀ b ∈ p, b ≤ 1) :
    weigh w p < 2 ^ w := by
  have := weigh_bound w p h hb
  have := Nat.two_pow_pos (w - p.length)
  omega

theorem weigh_inj : ∀ (w : Nat) (p q : List Nat), p.length = q.length → p.length ≤ w →
    (∀ b ∈ p, b ≤ 1) → (∀ b ∈ q, b ≤ 1) → weigh w p = weigh w q → p = q
  | _, [], [], _, _, _, _, _ => rfl
  | _, [], _ :: _, h, _, _, _, _ => by simp at h
  | _, _ :: _, [], h, _, _, _, _ => by simp at h
  | 0, _ :: _, _ :: _, _, h, _, _, _ => by simp at h
  | w + 1, a :: p, b :: q, hl, hw, hp, hq, he => by
    simp only [List.length_cons] at hl hw
    have ha : a ≤ 1 := hp a (List.mem_cons_self _ _)
    have hb : b ≤ 1 := hq b (List.mem_cons_self _ _)
    have hp1 := weigh_lt w p (by omega) (fun x hm => hp x (List.mem_cons_of_mem _ hm))
    have hq1 := weigh_lt w q (by omega) (fun x hm => hq x (List.mem_cons_of_mem _ hm))
    simp only [weigh] at he
    have hab : a = b := by
      rcases Nat.le_one_iff_eq_zero_or_eq_one.1 ha with rfl | rfl <;>
        rcases Nat.le_one_iff_eq_zero_or_eq_one.1 hb with rfl | rfl <;> simp at he ⊢ <;> omega
    subst hab
    have : weigh w p = weigh w q := by omega
    rw [weigh_inj w p q (by omega) (by omega) (fun x hm => hp x (List.mem_cons_of_mem _ hm))
      (fun x hm => hq x (List.mem_cons_of_mem _ hm)) this]

/-- Setting the bit at the cursor adds its weight to the byte. -/
theorem byte_or_bit (p : List Nat) (b : Nat) (hp : p.length < 8) (hpb : ∀ x ∈ p, x ≤ 1)
    (hb : b ≤ 1) :
    (byteOfBits p ||| (b <<< (7 - p.length)) % 256) % 256 = byteOfBits (p ++ [b]) := by
  unfold byteOfBits
  obtain ⟨q, hq⟩ := weigh_dvd 8 p (by omega)
  have hbnd : weigh 8 (p ++ [b]) < 2 ^ 8 :=
    weigh_lt 8 (p ++ [b]) (by simp; omega) (by
      intro x hx
      rcases List.mem_append.1 hx with h | h
      · exact hpb x h
      · simp at h; omega)
  have happ := weigh_append 8 p b hp
  have e7 : 8 - 1 - p.length = 7 - p.length := by omega
  rw [e7] at happ
  have hsh : b <<< (7 - p.length) = b * 2 ^ (7 - p.length) := Nat.shiftLeft_eq _ _
  have hlt : b * 2 ^ (7 - p.length) < 2 ^ (8 - p.length) := by
    have e : 8 - p.length = (7 - p.length) + 1 := by omega
    rw [e, Nat.pow_succ]
    have := Nat.two_pow_pos (7 - p.length)
    calc b * 2 ^ (7 - p.length) ≤ 1 * 2 ^ (7 - p.length) := Nat.mul_le_mul_right _ hb
      _ < 2 ^ (7 - p.length) * 2 := by omega
  have hsmall : b * 2 ^ (7 - p.length) < 256 :=
    lt_of_lt_of_le hlt (by
      calc 2 ^ (8 - p.length) ≤ 2 ^ 8 := Nat.pow_le_pow_right (by decide) (by omega)
        _ = 256 := by norm_num)
  rw [hsh, Nat.mod_eq_of_lt hsmall, hq, ← Nat.mul_add_lt_is_or hlt q, ← hq, ← happ]
  exact Nat.mod_eq_of_lt (by simpa using hbnd)


/-! ## `Encode`: the state follows the stream of bits -/

theorem Rep_init : Rep { payload := [], byteResult := 0, bitPosition := 7 } [] [] := by
  refine ⟨by simp, by simp, by simp, rfl, ?_, by simp⟩
  simp [byteOfBits, weigh]

theorem Rep_emitBit {st : EncState} {chunks : List (List Nat)} {pending : List Nat}
    (h : Rep st chunks pending) (b : Nat) (hb : b ≤ 1) :
    ∃ chunks1 pending1, Rep (emitBit st b) chunks1 pending1 ∧
      chunks1.flatten ++ pending1 = chunks.flatten ++ pending ++ [b] := by
  obtain ⟨hch, hlen, hbits, hpay, hbyte, hpos⟩ := h
  have htn : st.bitPosition.toNat = 7 - pending.length := by omega
  have hnew := byte_or_bit pending b hlen hbits hb
  have hbits1 : ∀ x ∈ pending ++ [b], x ≤ 1 := by
    intro x hx
    rcases List.mem_append.1 hx with h | h
    · exact hbits x h
    · simp at h; omega
  unfold Hf.emitBit advance
  simp only [htn, hbyte, hnew]
  by_cases h7 : pending.length = 7
  · rw [if_pos (by omega)]
    refine ⟨chunks ++ [pending ++ [b]], [], ⟨?_, by simp, by simp, ?_, ?_, by simp⟩, by simp⟩
    · intro c hc
      rcases List.mem_append.1 hc with h | h
      · exact hch c h
      · simp at h
        subst h
        exact ⟨by simp [h7], hbits1⟩
    · simp [hpay]
    · simp [byteOfBits, weigh]
  · rw [if_neg (by omega)]
    refine ⟨chunks, pending ++ [b], ⟨hch, by simp; omega, hbits1, hpay, rfl, ?_⟩, by simp⟩
    simp only [List.length_append, List.length_singleton, Nat.cast_add, Nat.cast_one]
    omega

theorem Rep_emitBits : ∀ (bits : List Nat) {st : EncState} {chunks : List (List Nat)}
    {pending : List Nat}, Rep st chunks pending → (∀ b ∈ bits, b ≤ 1) →
    ∃ chunks1 pending1, Rep (bits.foldl Hf.emitBit st) chunks1 pending1 ∧
      chunks1.flatten ++ pending1 = chunks.flatten ++ pending ++ bits
  | [], st, chunks, pending, h, _ => ⟨chunks, pending, h, by simp⟩
  | b :: bits, st, chunks, pending, h, hb => by
    obtain ⟨c1, p1, h1, e1⟩ := Rep_emitBit h b (hb b (List.mem_cons_self _ _))
    obtain ⟨c2, p2, h2, e2⟩ := Rep_emitBits bits h1 (fun x hx => hb x (List.mem_cons_of_mem _ hx))
    exact ⟨c2, p2, h2, by rw [e2, e1]; simp⟩

theorem Rep_byte_lt {st : EncState} {chunks : List (List Nat)} {pending : List Nat}
    (h : Rep st chunks pending) : st.byteResult < 256 := by
  rw [h.2.2.2.2.1]
  have := weigh_lt 8 pending (by have := h.2.1; omega) h.2.2.1
  simpa [byteOfBits] using this

theorem encodeSymbol_eq {st : EncState} (code : Nat) (h : st.byteResult < 256) :
    encodeSymbol st code = (codeBits code).foldl emitBit st := by
  unfold encodeSymbol codeBits
  by_cases hc : code = 0
  · subst hc
    simp [emitBit, Nat.mod_eq_of_lt h]
  · rw [if_pos hc, if_neg hc, stackLoop_eq code code [] (Nat.le_refl _)]
    simp

theorem Rep_encodeLoop (codes : CodeTable) : ∀ (data : List Nat) {st : EncState}
    {chunks : List (List Nat)} {pending : List Nat}, Rep st chunks pending →
    (∀ ch ∈ data, codes ch ≠ none) →
    ∃ st1 chunks1 pending1, Hf.encodeLoop codes data st = some st1 ∧ Rep st1 chunks1 pending1 ∧
      chunks1.flatten ++ pending1 = chunks.flatten ++ pending ++ bitStream codes data
  | [], st, chunks, pending, h, _ => ⟨st, chunks, pending, rfl, h, by simp [bitStream]⟩
  | ch :: rest, st, chunks, pending, h, hd => by
    obtain ⟨v, hv⟩ := Option.ne_none_iff_exists'.1 (hd ch (List.mem_cons_self _ _))
    obtain ⟨c1, p1, h1, e1⟩ := Rep_emitBits (codeBits v) h (codeBits_le_one v)
    rw [← encodeSymbol_eq v (Rep_byte_lt h)] at h1
    obtain ⟨st2, c2, p2, hl, h2, e2⟩ := Rep_encodeLoop codes rest h1
      (fun x hx => hd x (List.mem_cons_of_mem _ hx))
    refine ⟨st2, c2, p2, ?_, h2, ?_⟩
    · simp only [Hf.encodeLoop, hv]
      exact hl
    · rw [e2, e1]
      simp [bitStream, hv]

theorem encodeLoop_none (codes : CodeTable) : ∀ (data : List Nat) (st : EncState),
    (∃ ch ∈ data, codes ch = none) → encodeLoop codes data st = none
  | [], _, h => by simp at h
  | ch :: rest, st, h => by
    unfold encodeLoop
    cases hv : codes ch with
    | none => rfl
    | some v =>
      obtain ⟨c, hc, hn⟩ := h
      rcases List.mem_cons.1 hc with rfl | hr
      · rw [hv] at hn
        simp at hn
      · exact encodeLoop_none codes rest _ ⟨c, hr, hn⟩

/-! ## `Encode`: the reference packing -/

theorem packBits_chunk (c rest : List Nat) (hc : c.length = 8) :
    packBits (c ++ rest) = byteOfBits c :: packBits rest := by
  unfold packBits
  have e : ((c ++ rest).length + 7) / 8 = (rest.length + 7) / 8 + 1 := by
    simp [hc]
    omega
  rw [e, List.range_succ_eq_map]
  simp only [List.map_cons, List.map_map]
  congr 1
  · simp [hc]
  · apply List.map_congr_left
    intro k _
    simp only [Function.comp]
    have : 8 * (k + 1) = c.length + 8 * k := by omega
    rw [this, List.drop_append]

theorem packBits_short (p : List Nat) (hp : p.length < 8) :
    packBits p = if p = [] then [] else [byteOfBits p] := by
  unfold packBits
  by_cases h : p = []
  · subst h
    simp
  · have hpos : 0 < p.length := List.length_pos.2 h
    have e : (p.length + 7) / 8 = 1 := by omega
    rw [e, if_neg h]
    have ht : List.take 8 p = p := List.take_of_length_le (by omega)
    simp [List.range_succ, ht]

theorem packBits_chunks : ∀ (chunks : List (List Nat)) (pending : List Nat),
    (∀ c ∈ chunks, c.length = 8) → pending.length < 8 →
    packBits (chunks.flatten ++ pending) =
      chunks.map byteOfBits ++ (if pending = [] then [] else [byteOfBits pending])
  | [], pending, _, hp => by simpa using packBits_short pending hp
  | c :: cs, pending, hc, hp => by
    have ih := packBits_chunks cs pending (fun x hx => hc x (List.mem_cons_of_mem _ hx)) hp
    simp only [List.flatten_cons, List.append_assoc, List.map_cons, List.cons_append]
    rw [packBits_chunk c _ (hc c (List.mem_cons_self _ _)), ih]

theorem flatten_length_chunks : ∀ (chunks : List (List Nat)), (∀ c ∈ chunks, c.length = 8) →
    chunks.flatten.length = 8 * chunks.length
  | [], _ => rfl
  | c :: cs, hc => by
    have ih := flatten_length_chunks cs (fun x hx => hc x (List.mem_cons_of_mem _ hx))
    simp only [List.flatten_cons, List.length_append, List.length_cons, ih,
      hc c (List.mem_cons_self _ _)]
    omega

/-- What `Encode` returns on an input all of whose bytes have a code. -/
theorem Encode_spec (codes : CodeTable) (data : List Nat) (hd : ∀ ch ∈ data, codes ch ≠ none) :
    ∃ e, Encode codes data = (some e, false) ∧
      e.Data = packBits (bitStream codes data) ∧
      e.Padding = (8 - (bitStream codes data).length % 8) % 8 ∧
      ∀ b ∈ bitStream codes data, b ≤ 1 := by
  obtain ⟨st, chunks, pending, hl, hrep, hstream⟩ := Rep_encodeLoop codes data Rep_init hd
  simp only [List.flatten_nil, List.nil_append] at hstream
  obtain ⟨hch, hlen, hbits, hpay, hbyte, hpos⟩ := hrep
  have hch8 : ∀ c ∈ chunks, c.length = 8 := fun c hc => (hch c hc).1
  have hpk := packBits_chunks chunks pending hch8 hlen
  have hfl := flatten_length_chunks chunks hch8
  have hsl : (bitStream codes data).length = 8 * chunks.length + pending.length := by
    rw [← hstream, List.length_append, hfl]
  have hle : ∀ b ∈ bitStream codes data, b ≤ 1 := by
    intro b hb
    rw [← hstream] at hb
    rcases List.mem_append.1 hb with h | h
    · obtain ⟨c, hc, hbc⟩ := List.mem_flatten.1 h
      exact (hch c hc).2 b hbc
    · exact hbits b h
  unfold Encode
  simp only [hl]
  by_cases hp : pending = []
  · subst hp
    simp only [List.length_nil] at hpos hsl
    rw [if_neg (by rw [hpos]; simp)]
    refine ⟨_, rfl, ?_, ?_, hle⟩
    · simp only [← hstream, hpk, hpay]
      simp
    · simp only [hsl]
      omega
  · have hpl : 0 < pending.length := List.length_pos.2 hp
    rw [if_pos (by omega)]
    refine ⟨_, rfl, ?_, ?_, hle⟩
    · simp only [← hstream, hpk, hpay, hbyte, if_neg hp]
    · simp only [hsl, hpos]
      omega

theorem Encode_missing (codes : CodeTable) (data : List Nat)
    (h : ∃ ch ∈ data, codes ch = none) : Encode codes data = (none, true) := by
  unfold Encode
  rw [encodeLoop_none codes data _ h]

theorem Encode_test :
    ∃ e, Encode expectedEnc testInput = (some e, false) ∧ e.Data = [86, 221, 0] ∧
      e.Padding = 7 :=
  ⟨_, rfl, by decide, by decide⟩

/-- C1: for every code table and every input whose bytes all have an entry, `Encode` succeeds
and its `Data` is the reference packing of the concatenated bit strings of the codes: groups of
8 bits, each filled from bit 7 down to bit 0, the last one filled up with zeros. The input
A, B, B, C, C, D, A, B with the table `{A:0, B:2, C:6, D:7}` gives `[86, 221, 0]` and the
padding 7. -/
theorem Encode_reference (codes : CodeTable) (data : List Nat)
    (hd : ∀ ch ∈ data, codes ch ≠ none) :
    (∃ e, Encode codes data = (some e, false) ∧ e.Data = packBits (bitStream codes data)) ∧
    ∃ e, Encode expectedEnc testInput = (some e, false) ∧ e.Data = [86, 221, 0] ∧
      e.Padding = 7 := by
  obtain ⟨e, he, hdata, _⟩ := Encode_spec codes data hd
  exact ⟨⟨e, he, hdata⟩, Encode_test⟩

theorem Encode_reference_witness :
    (∃ e, Encode expectedEnc testInput = (some e, false) ∧
      e.Data = packBits (bitStream expectedEnc testInput)) ∧
    ∃ e, Encode expectedEnc testInput = (some e, false) ∧ e.Data = [86, 221, 0] ∧
      e.Padding = 7 :=
  Encode_reference expectedEnc testInput (by decide)

/-- C10: `Encode` returns an error exactly when some byte of the input has no entry in the
code table; with the error it returns a nil result, and when every byte has an entry it returns
a payload and a nil error. -/
theorem Encode_error_iff (codes : CodeTable) (data : List Nat) :
    ((Encode codes data).2 = true ↔ ∃ ch ∈ data, codes ch = none) ∧
    ((∃ ch ∈ data, codes ch = none) → Encode codes data = (none, true)) ∧
    ((∀ ch ∈ data, codes ch ≠ none) → ∃ e, Encode codes data = (some e, false)) := by
  have hok : (∀ ch ∈ data, codes ch ≠ none) → ∃ e, Encode codes data = (some e, false) := by
    intro h
    obtain ⟨e, he, _⟩ := Encode_spec codes data h
    exact ⟨e, he⟩
  refine ⟨⟨fun h => ?_, fun h => by rw [Encode_missing codes data h]⟩,
    Encode_missing codes data, hok⟩
  by_contra hc
  push_neg at hc
  obtain ⟨e, he⟩ := hok hc
  rw [he] at h
  simp at h

theorem Encode_error_iff_witness :
    Encode expectedEnc [65, 69, 66] = (none, true) ∧
    ∃ e, Encode expectedEnc [65, 66] = (some e, false) :=
  ⟨(Encode_error_iff expectedEnc [65, 69, 66]).2.1 ⟨69, by decide, by decide⟩,
    (Encode_error_iff expectedEnc [65, 66]).2.2 (by decide)⟩
/-! ## The emitted bit strings -/

theorem GetTable_fourOnesTree : GetTable fourOnesTree = (some fourOnesCodes, false) := by
  have h : (table fourOnesTree [] (fun _ => none)).1 = fourOnesCodes := by
    funext ch
    simp [fourOnesTree, leaf, table, ParseUint, parseLoop, fourOnesCodes, Function.update]
    split_ifs <;> simp_all
  have h2 : (table fourOnesTree [] (fun _ => none)).2 = false := by
    simp [fourOnesTree, leaf, table, ParseUint, parseLoop]
  simp [GetTable, h, h2]

theorem codeBits_one : codeBits 1 = [1] := by
  simp [codeBits]

theorem codeBits_two : codeBits 2 = [1, 0] := by
  simp [codeBits]

/-- C6, as stated, fails: in the table made from `{A:1, B:1, C:1, D:1}` the symbols B and C
have the codes 1 and 2, whose emitted bit strings 1 and 10 differ, and the first is a prefix of
the second. -/
theorem emitted_codes_prefix_counterexample :
    BuildHuffman fourOnes = some (fourOnesTree, false) ∧
    GetTable fourOnesTree = (some fourOnesCodes, false) ∧
    fourOnesCodes 66 = some 1 ∧ fourOnesCodes 67 = some 2 ∧
    codeBits 1 ≠ codeBits 2 ∧ codeBits 1 <+: codeBits 2 := by
  refine ⟨by decide, GetTable_fourOnesTree, by decide, by decide, ?_, ?_⟩
  · rw [codeBits_one, codeBits_two]
    decide
  · rw [codeBits_one, codeBits_two]
    exact ⟨[0], rfl⟩

/-- C5, as stated, fails: with the table made from `{A:1, B:1, C:1, D:1}` the inputs B, A and
C are packed to the same `Data` and `Padding`. -/
theorem Encode_not_injective :
    BuildHuffman fourOnes = some (fourOnesTree, false) ∧
    GetTable fourOnesTree = (some fourOnesCodes, false) ∧
    ∃ e1 e2, Encode fourOnesCodes [66, 65] = (some e1, false) ∧
      Encode fourOnesCodes [67] = (some e2, false) ∧
      e1.Data = e2.Data ∧ e1.Padding = e2.Padding ∧ [66, 65] ≠ [67] :=
  ⟨by decide, GetTable_fourOnesTree, _, _, rfl, rfl, by decide, by decide, by decide⟩

theorem pathBits_prefix_reflect : ∀ (p q : List Bool), pathBits p <+: pathBits q → p <+: q
  | [], q, _ => List.nil_prefix
  | a :: p, [], h => by
    obtain ⟨u, hu⟩ := h
    simp [pathBits] at hu
  | a :: p, b :: q, h => by
    obtain ⟨u, hu⟩ := h
    simp only [pathBits, List.map_cons, List.cons_append, List.cons.injEq] at hu
    have hab : a = b := by
      cases a <;> cases b <;> simp at hu ⊢
    subst hab
    exact (List.prefix_cons_inj a).2 (pathBits_prefix_reflect p q ⟨u, hu.2⟩)

theorem parseLoop_some : ∀ (p : List Bool) (n v : Nat), n < 2 ^ 32 → parseLoop p n = some v →
    v = p.foldl (fun n b => 2 * n + (if b then 1 else 0)) n ∧ v < 2 ^ 32
  | [], n, v, hn, h => by
    simp only [parseLoop, Option.some.injEq] at h
    subst h
    exact ⟨rfl, hn⟩
  | c :: cs, n, v, hn, h => by
    have hd : (if c then 1 else 0) ≤ 1 := by split <;> omega
    unfold parseLoop at h
    norm_num at hn
    rw [if_neg (by norm_num; omega)] at h
    have e1 : n * 2 % 2 ^ 64 = 2 * n := by norm_num; omega
    have e2 : (2 * n + (if c then 1 else 0)) % 2 ^ 64 = 2 * n + (if c then 1 else 0) := by
      norm_num; omega
    simp only [e1, e2] at h
    by_cases hc : 2 * n + (if c then 1 else 0) < 2 * n ∨
        2 ^ 32 - 1 < 2 * n + (if c then 1 else 0)
    · rw [if_pos hc] at h
      simp at h
    · rw [if_neg hc] at h
      simp only [List.foldl_cons]
      exact parseLoop_some cs _ v (by norm_num at hc ⊢; omega) h

theorem ParseUint_some (p : List Bool) (v : Nat) (h : ParseUint p = some v) :
    v = pathValue p ∧ v < 2 ^ 32 := by
  unfold ParseUint at h
  split_ifs at h
  exact parseLoop_some p 0 v (by norm_num) h

/-- Every entry of the map after a call of the closure `table` was in the map before the call
or is the parsed path of a leaf of the tree, whatever the depth of the tree. -/
theorem table_entries : ∀ (t : Huffman) (code : List Bool) (f : CodeTable) (ch v : Nat),
    (table t code f).1 ch = some v →
    f ch = some v ∨ ∃ e ∈ paths t, e.1 = ch ∧ v = pathValue (code ++ e.2)
  | .nil, code, f, ch, v, h => Or.inl (by simpa [table] using h)
  | .node (some c) _ _ _, code, f, ch, v, h => by
    simp only [table] at h
    cases hp : ParseUint code with
    | none =>
      rw [hp] at h
      exact Or.inl h
    | some val =>
      rw [hp] at h
      obtain ⟨hv, hlt⟩ := ParseUint_some code val hp
      by_cases hc : ch = c
      · subst hc
        right
        refine ⟨(ch, []), by simp [paths], rfl, ?_⟩
        simp only [Function.update_same, Option.some.injEq] at h
        rw [← h, Nat.mod_eq_of_lt hlt, hv]
        simp
      · left
        simpa [Function.update, hc] using h
  | .node none s l r, code, f, ch, v, h => by
    simp only [table] at h
    have key : (table l (code ++ [false]) f).1 ch = some v ∨
        ∃ e ∈ paths r, e.1 = ch ∧ v = pathValue ((code ++ [true]) ++ e.2) := by
      by_cases h1 : (table l (code ++ [false]) f).2 = true
      · rw [if_pos h1] at h
        exact Or.inl h
      · rw [if_neg h1] at h
        exact table_entries r (code ++ [true]) _ ch v h
    rcases key with h0 | ⟨e, he, hch, hv⟩
    · rcases table_entries l (code ++ [false]) f ch v h0 with h1 | ⟨e, he, hch, hv⟩
      · exact Or.inl h1
      · right
        refine ⟨(e.1, false :: e.2), ?_, hch, by simpa using hv⟩
        rw [paths]
        exact List.mem_append.2 (Or.inl (List.mem_map.2 ⟨e, he, rfl⟩))
    · right
      refine ⟨(e.1, true :: e.2), ?_, hch, by simpa using hv⟩
      rw [paths]
      exact List.mem_append.2 (Or.inr (List.mem_map.2 ⟨e, he, rfl⟩))

theorem paths_unique (t : Huffman) (hnd : ((paths t).map Prod.fst).Nodup) (a : Nat)
    (p q : List Bool) (hp : (a, p) ∈ paths t) (hq : (a, q) ∈ paths t) : p = q := by
  have := List.inj_on_of_nodup_map hnd hp hq rfl
  exact (Prod.mk.inj this).2

/-- The entry of a symbol in the table that `GetTable` returns is the root-to-leaf path of the
symbol read as a binary number, whatever the depth of the tree. -/
theorem GetTable_entry (t : Huffman) (codes : CodeTable)
    (hg : GetTable t = (some codes, false)) (a va : Nat) (hva : codes a = some va) :
    ∃ pa, (a, pa) ∈ paths t ∧ va = pathValue pa := by
  unfold GetTable at hg
  by_cases h : (table t [] (fun _ => none)).2 = true
  · simp [h] at hg
  · simp only [h] at hg
    simp only [Bool.false_eq_true, if_false, Prod.mk.injEq, Option.some.injEq, and_true] at hg
    subst hg
    rcases table_entries t [] (fun _ => none) a va hva with h0 | ⟨e, he, hch, hv⟩
    · simp at h0
    · subst hch
      exact ⟨e.2, he, by simpa using hv⟩

theorem pathValue_append (p : List Bool) (c : Bool) :
    pathValue (p ++ [c]) = 2 * pathValue p + (if c then 1 else 0) := by
  simp [pathValue, List.foldl_append]

theorem pathValue_ofDigits (p : List Bool) : Nat.ofDigits 2 (pathBits p).reverse = pathValue p := by
  induction p using List.reverseRecOn with
  | nil => simp [pathBits, pathValue]
  | append_singleton p c ih =>
    rw [pathValue_append, ← ih]
    simp only [pathBits, List.map_append, List.map_cons, List.map_nil, List.reverse_append,
      List.reverse_cons, List.reverse_nil, List.nil_append, List.singleton_append,
      Nat.ofDigits_cons]
    omega

theorem pathValue_lt (p : List Bool) : pathValue p < 2 ^ p.length := by
  induction p using List.reverseRecOn with
  | nil => simp [pathValue]
  | append_singleton p c ih =>
    have hd : (if c then 1 else 0) ≤ 1 := by split <;> omega
    rw [pathValue_append, List.length_append, List.length_singleton, Nat.pow_succ]
    omega

theorem pathValue_false_cons (q : List Bool) : pathValue (false :: q) = pathValue q := by
  simp [pathValue]

/-- A path that starts with a step to `Right` is the bit string of its value. -/
theorem codeBits_pathValue_true (q : List Bool) :
    codeBits (pathValue (true :: q)) = pathBits (true :: q) := by
  have hL : ∀ l ∈ (pathBits (true :: q)).reverse, l < 2 := by
    intro l hl
    simp only [pathBits, List.mem_reverse, List.mem_map] at hl
    obtain ⟨b, _, rfl⟩ := hl
    split <;> omega
  have hlast : ∀ h : (pathBits (true :: q)).reverse ≠ [],
      (pathBits (true :: q)).reverse.getLast h ≠ 0 := by
    intro h
    simp [pathBits]
  have hd := Nat.digits_ofDigits 2 (by decide) _ hL hlast
  rw [pathValue_ofDigits] at hd
  have hne : pathValue (true :: q) ≠ 0 := by
    intro h0
    rw [h0] at hd
    simp [pathBits] at hd
  rw [codeBits, if_neg hne, hd, List.reverse_reverse]

theorem codeBits_pathValue_short (q : List Bool) (hq : q ≠ []) :
    (codeBits (pathValue q)).length ≤ q.length := by
  have hpos : 1 ≤ q.length := by
    cases q with
    | nil => exact absurd rfl hq
    | cons _ _ => simp
  unfold codeBits
  split_ifs with h0
  · simpa using hpos
  · rw [List.length_reverse]
    rw [Nat.digits_len 2 _ (by decide) h0]
    exact Nat.log_lt_of_lt_pow h0 (pathValue_lt q)

/-- The bit string of the value of a path has the length of the path only when it is the
path: no leading zero was lost. -/
theorem codeBits_pathValue_of_length : ∀ (p : List Bool),
    (codeBits (pathValue p)).length = p.length → codeBits (pathValue p) = pathBits p
  | [], h => by simp [codeBits, pathValue] at h
  | true :: q, _ => codeBits_pathValue_true q
  | false :: q, h => by
    by_cases hq : q = []
    · subst hq
      simp [codeBits, pathValue, pathBits]
    · have := codeBits_pathValue_short q hq
      rw [pathValue_false_cons] at h
      simp only [List.length_cons] at h
      omega

theorem depth_pos_of_leaves : ∀ t : Huffman, 2 ≤ (leaves t).length → 1 ≤ depth t
  | .nil, h => by simp [leaves] at h
  | .node (some _) _ _ _, h => by simp [leaves] at h
  | .node none _ l r, _ => by simp [depth]

theorem Encode_single (codes : CodeTable) (a va : Nat) (hva : codes a = some va) :
    ∃ e, Encode codes [a] = (some e, false) ∧ e.Data = packBits (codeBits va) := by
  obtain ⟨e, he, hd, _, _⟩ := Encode_spec codes [a] (by simp [hva])
  refine ⟨e, he, ?_⟩
  rw [hd]
  simp [bitStream, hva]

/-- C6, amended: on every table with at least two entries and pairwise distinct symbols (the
keys of a map) `BuildHuffman` returns a tree; `GetTable` succeeds on it when its depth is at
most 32 and then gives every symbol a code; and whenever `GetTable` returns a table, every
symbol with a code is a symbol of the frequency table, `Encode` emits for it the bit string of
its code, the code is the root-to-leaf path of the symbol read as a binary number, and for two
distinct symbols whose emitted bit strings have the lengths of their paths (no leading zero is
lost in the code value) the emitted bit strings are the paths, differ, and neither is a prefix
of the other. -/
theorem emitted_codes_prefix_free (f : List (Nat × Int)) (hlen : 2 ≤ f.length)
    (hnd : (f.map Prod.fst).Nodup) :
    ∃ t, BuildHuffman f = some (t, false) ∧
      (depth t ≤ 32 → ∃ codes, GetTable t = (some codes, false) ∧
        ∀ a ∈ f.map Prod.fst, codes a ≠ none) ∧
      ∀ codes, GetTable t = (some codes, false) →
        (∀ a va, codes a = some va → a ∈ f.map Prod.fst ∧
          ∃ e, Encode codes [a] = (some e, false) ∧ e.Data = packBits (codeBits va)) ∧
        ∀ a b va vb pa pb, a ≠ b → codes a = some va → codes b = some vb →
          (a, pa) ∈ paths t → (b, pb) ∈ paths t →
          va = pathValue pa ∧ vb = pathValue pb ∧
          ((codeBits va).length = pa.length → (codeBits vb).length = pb.length →
            codeBits va = pathBits pa ∧ codeBits vb = pathBits pb ∧
            codeBits va ≠ codeBits vb ∧
            ¬ codeBits va <+: codeBits vb ∧ ¬ codeBits vb <+: codeBits va) := by
  obtain ⟨t, hb, _, _, hl, _⟩ := BuildHuffman_forest f hlen
  have hfst : ((paths t).map Prod.fst).Perm (f.map Prod.fst) := by
    rw [paths_fst]
    exact hl.map Prod.fst
  have hndt : ((paths t).map Prod.fst).Nodup := hfst.nodup_iff.2 hnd
  refine ⟨t, hb, ?_, ?_⟩
  · intro h32
    have h1 : 1 ≤ depth t := depth_pos_of_leaves t (by rw [hl.length_eq]; exact hlen)
    obtain ⟨codes, hg, _, hsome⟩ := GetTable_spec t h1 h32
    refine ⟨codes, hg, ?_⟩
    intro a ha
    obtain ⟨e, he, rfl⟩ := List.mem_map.1 (hfst.symm.subset ha)
    rw [hsome hndt e he]
    simp
  · intro codes hg
    have hentry := GetTable_entry t codes hg
    refine ⟨?_, ?_⟩
    · intro a va hva
      obtain ⟨pa, hpa, _⟩ := hentry a va hva
      exact ⟨hfst.subset (List.mem_map.2 ⟨(a, pa), hpa, rfl⟩), Encode_single codes a va hva⟩
    · intro a b va vb pa pb hab hva hvb hpa hpb
      obtain ⟨qa, hqa, ea⟩ := hentry a va hva
      obtain ⟨qb, hqb, eb⟩ := hentry b vb hvb
      have ha2 : qa = pa := paths_unique t hndt a qa pa hqa hpa
      have hb2 : qb = pb := paths_unique t hndt b qb pb hqb hpb
      subst ha2
      subst hb2
      refine ⟨ea, eb, ?_⟩
      intro hla hlb
      have hfa : codeBits va = pathBits qa := by
        rw [ea] at hla ⊢
        exact codeBits_pathValue_of_length qa hla
      have hfb : codeBits vb = pathBits qb := by
        rw [eb] at hlb ⊢
        exact codeBits_pathValue_of_length qb hlb
      have h1 : ¬ codeBits va <+: codeBits vb := by
        rw [hfa, hfb]
        exact fun h => hab (paths_prefix_eq t a b qa qb hpa hpb (pathBits_prefix_reflect _ _ h))
      have h2 : ¬ codeBits vb <+: codeBits va := by
        rw [hfa, hfb]
        exact fun h =>
          hab (paths_prefix_eq t b a qb qa hpb hpa (pathBits_prefix_reflect _ _ h)).symm
      exact ⟨hfa, hfb, fun h => h1 (h ▸ List.prefix_refl _), h1, h2⟩

theorem emitted_codes_prefix_free_witness :
    BuildHuffman tableABCD = some (expectedTree, false) ∧
    GetTable expectedTree = (some expectedEnc, false) ∧
    expectedEnc 66 = some 2 ∧ expectedEnc 67 = some 6 ∧
    codeBits 2 = pathBits [true, false] ∧ codeBits 6 = pathBits [true, true, false] ∧
    ¬ codeBits 2 <+: codeBits 6 ∧ ¬ codeBits 6 <+: codeBits 2 := by
  obtain ⟨t, hb, _, h⟩ := emitted_codes_prefix_free tableABCD (by decide) (by decide)
  have h0 : BuildHuffman tableABCD = some (expectedTree, false) := by decide
  have ht : t = expectedTree := by
    rw [h0] at hb
    simpa using hb.symm
  subst ht
  have hp := (h expectedEnc GetTable_expectedTree).2 66 67 2 6 [true, false]
    [true, true, false] (by decide) (by decide) (by decide) (by decide) (by decide)
  have hc := hp.2.2 (by simp [codeBits]) (by simp [codeBits])
  exact ⟨h0, GetTable_expectedTree, by decide, by decide, hc.1, hc.2.1, hc.2.2.2.1, hc.2.2.2.2⟩


/-! ## The packing loses nothing of the stream of bits -/

theorem packBits_length (bs : List Nat) : (packBits bs).length = (bs.length + 7) / 8 := by
  simp [packBits]

theorem packBits_inj : ∀ (n : Nat) (bs1 bs2 : List Nat), bs1.length = n → bs2.length = n →
    (∀ b ∈ bs1, b ≤ 1) → (∀ b ∈ bs2, b ≤ 1) → packBits bs1 = packBits bs2 → bs1 = bs2 := by
  intro n
  induction n using Nat.strong_induction_on with
  | _ n ih =>
    intro bs1 bs2 h1 h2 hb1 hb2 hp
    by_cases hn : n < 8
    · rw [packBits_short bs1 (by omega), packBits_short bs2 (by omega)] at hp
      by_cases h0 : n = 0
      · subst h0
        rw [List.length_eq_zero.1 h1, List.length_eq_zero.1 h2]
      · have n1 : bs1 ≠ [] := fun h => h0 (by rw [← h1, h]; rfl)
        have n2 : bs2 ≠ [] := fun h => h0 (by rw [← h2, h]; rfl)
        rw [if_neg n1, if_neg n2] at hp
        simp only [List.cons.injEq, and_true] at hp
        exact weigh_inj 8 bs1 bs2 (by omega) (by omega) hb1 hb2 hp
    · have e1 : bs1 = bs1.take 8 ++ bs1.drop 8 := (List.take_append_drop 8 bs1).symm
      have e2 : bs2 = bs2.take 8 ++ bs2.drop 8 := (List.take_append_drop 8 bs2).symm
      have l1 : (bs1.take 8).length = 8 := by simp; omega
      have l2 : (bs2.take 8).length = 8 := by simp; omega
      rw [e1, e2, packBits_chunk _ _ l1, packBits_chunk _ _ l2] at hp
      simp only [List.cons.injEq] at hp
      have t1 : bs1.take 8 = bs2.take 8 :=
        weigh_inj 8 _ _ (by omega) (by omega) (fun b hb => hb1 b (List.mem_of_mem_take hb))
          (fun b hb => hb2 b (List.mem_of_mem_take hb)) hp.1
      have t2 : bs1.drop 8 = bs2.drop 8 :=
        ih (n - 8) (by omega) _ _ (by simp; omega) (by simp; omega)
          (fun b hb => hb1 b (List.mem_of_mem_drop hb))
          (fun b hb => hb2 b (List.mem_of_mem_drop hb)) hp.2
      rw [e1, e2, t1, t2]

/-- A stream of bits made with a prefix-free table has one reading only. -/
theorem bitStream_inj (codes : CodeTable) (S : Nat → Prop)
    (hpf : ∀ a b va vb, S a → S b → codes a = some va → codes b = some vb →
      codeBits va <+: codeBits vb → a = b) :
    ∀ (d1 d2 : List Nat), (∀ ch ∈ d1, S ch ∧ codes ch ≠ none) →
      (∀ ch ∈ d2, S ch ∧ codes ch ≠ none) →
      bitStream codes d1 = bitStream codes d2 → d1 = d2
  | [], [], _, _, _ => rfl
  | [], b :: r2, _, h2, he => by
    obtain ⟨vb, hvb⟩ := Option.ne_none_iff_exists'.1 (h2 b (List.mem_cons_self _ _)).2
    have := codeBits_ne_nil vb
    simp [bitStream, hvb, this] at he
  | a :: r1, [], h1, _, he => by
    obtain ⟨va, hva⟩ := Option.ne_none_iff_exists'.1 (h1 a (List.mem_cons_self _ _)).2
    have := codeBits_ne_nil va
    simp [bitStream, hva, this] at he
  | a :: r1, b :: r2, h1, h2, he => by
    obtain ⟨va, hva⟩ := Option.ne_none_iff_exists'.1 (h1 a (List.mem_cons_self _ _)).2
    obtain ⟨vb, hvb⟩ := Option.ne_none_iff_exists'.1 (h2 b (List.mem_cons_self _ _)).2
    have sa := (h1 a (List.mem_cons_self _ _)).1
    have sb := (h2 b (List.mem_cons_self _ _)).1
    simp only [bitStream, hva, hvb] at he
    have pa : codeBits va <+: codeBits vb ++ bitStream codes r2 := ⟨_, he⟩
    have pb : codeBits vb <+: codeBits vb ++ bitStream codes r2 := ⟨_, rfl⟩
    have hab : a = b := by
      rcases Nat.le_total (codeBits va).length (codeBits vb).length with hl | hl
      · exact hpf a b va vb sa sb hva hvb (List.prefix_of_prefix_length_le pa pb hl)
      · exact (hpf b a vb va sb sa hvb hva (List.prefix_of_prefix_length_le pb pa hl)).symm
    subst hab
    rw [hva] at hvb
    cases hvb
    have hrest := List.append_cancel_left he
    rw [bitStream_inj codes S hpf r1 r2 (fun x hx => h1 x (List.mem_cons_of_mem _ hx))
      (fun x hx => h2 x (List.mem_cons_of_mem _ hx)) hrest]

/-- C5, amended: for every table with at least two symbols, its tree and the table of codes
made from it, if the emitted bit string of every symbol is its root-to-leaf path (no leading
zero is lost in a code value), then `Encode` is injective on the inputs drawn from the symbols
of the table: two different inputs are never packed to the same `Data` and `Padding`. -/
theorem Encode_injective_of_faithful (f : List (Nat × Int)) (t : Huffman) (codes : CodeTable)
    (hb : BuildHuffman f = some (t, false)) (hg : GetTable t = (some codes, false))
    (hfaith : ∀ e ∈ paths t, ∃ v, codes e.1 = some v ∧ codeBits v = pathBits e.2)
    (d1 d2 : List Nat) (h1 : ∀ ch ∈ d1, ch ∈ f.map Prod.fst)
    (h2 : ∀ ch ∈ d2, ch ∈ f.map Prod.fst) (e1 e2 : EncodedData)
    (he1 : Encode codes d1 = (some e1, false)) (he2 : Encode codes d2 = (some e2, false))
    (hne : d1 ≠ d2) : ¬ (e1.Data = e2.Data ∧ e1.Padding = e2.Padding) := by
  rintro ⟨hD, hP⟩
  apply hne
  have _ := hg
  have hlen : 2 ≤ f.length := by
    by_contra hc
    have := BuildHuffman_short f (by omega)
    rw [this] at hb
    simp at hb
  obtain ⟨t0, hb0, _, _, hl, _⟩ := BuildHuffman_forest f hlen
  rw [hb0] at hb
  have ht : t0 = t := by
    simpa using hb
  subst ht
  have hsym : ∀ ch, ch ∈ f.map Prod.fst → ∃ p, (ch, p) ∈ paths t0 := by
    intro ch hch
    have : ch ∈ (paths t0).map Prod.fst := by
      rw [paths_fst]
      exact (hl.map Prod.fst).symm.subset hch
    obtain ⟨e, he, rfl⟩ := List.mem_map.1 this
    exact ⟨e.2, he⟩
  have hin : ∀ d : List Nat, (∀ ch ∈ d, ch ∈ f.map Prod.fst) →
      ∀ ch ∈ d, ch ∈ f.map Prod.fst ∧ codes ch ≠ none := by
    intro d hd ch hch
    obtain ⟨p, hp⟩ := hsym ch (hd ch hch)
    obtain ⟨v, hv, _⟩ := hfaith (ch, p) hp
    exact ⟨hd ch hch, by simp at hv; simp [hv]⟩
  have hpf : ∀ a b va vb, a ∈ f.map Prod.fst → b ∈ f.map Prod.fst → codes a = some va →
      codes b = some vb → codeBits va <+: codeBits vb → a = b := by
    intro a b va vb ha hb1 hva hvb hpre
    obtain ⟨pa, hpa⟩ := hsym a ha
    obtain ⟨pb, hpb⟩ := hsym b hb1
    obtain ⟨va1, hva1, hfa⟩ := hfaith (a, pa) hpa
    obtain ⟨vb1, hvb1, hfb⟩ := hfaith (b, pb) hpb
    simp only at hva1 hvb1 hfa hfb
    rw [hva] at hva1
    rw [hvb] at hvb1
    cases hva1
    cases hvb1
    rw [hfa, hfb] at hpre
    exact paths_prefix_eq t0 a b pa pb hpa hpb (pathBits_prefix_reflect _ _ hpre)
  obtain ⟨x1, hx1, hd1, hp1, hbits1⟩ := Encode_spec codes d1 (fun ch hch => (hin d1 h1 ch hch).2)
  obtain ⟨x2, hx2, hd2, hp2, hbits2⟩ := Encode_spec codes d2 (fun ch hch => (hin d2 h2 ch hch).2)
  rw [he1] at hx1
  rw [he2] at hx2
  have hx1' : e1 = x1 := by simpa using hx1
  have hx2' : e2 = x2 := by simpa using hx2
  subst hx1'
  subst hx2'
  have hlenD : (packBits (bitStream codes d1)).length = (packBits (bitStream codes d2)).length := by
    rw [← hd1, ← hd2, hD]
  rw [packBits_length, packBits_length] at hlenD
  have hpad : (8 - (bitStream codes d1).length % 8) % 8 =
      (8 - (bitStream codes d2).length % 8) % 8 := by
    rw [← hp1, ← hp2, hP]
  have hsame : (bitStream codes d1).length = (bitStream codes d2).length := by omega
  have hstream : bitStream codes d1 = bitStream codes d2 :=
    packBits_inj _ _ _ hsame rfl hbits1 hbits2 (by rw [← hd1, ← hd2, hD])
  exact bitStream_inj codes (fun ch => ch ∈ f.map Prod.fst) hpf d1 d2 (hin d1 h1) (hin d2 h2)
    hstream

theorem expectedEnc_faithful :
    ∀ e ∈ paths expectedTree, ∃ v, expectedEnc e.1 = some v ∧ codeBits v = pathBits e.2 := by
  intro e he
  simp [paths, expectedTree, leaf] at he
  rcases he with rfl | rfl | rfl | rfl <;> simp [expectedEnc, codeBits, pathBits]

theorem Encode_injective_of_faithful_witness :
    ¬ ((EncodedData.mk expectedEnc [64] 5).Data = (EncodedData.mk expectedEnc [128] 5).Data ∧
      (EncodedData.mk expectedEnc [64] 5).Padding =
        (EncodedData.mk expectedEnc [128] 5).Padding) :=
  Encode_injective_of_faithful tableABCD expectedTree expectedEnc (by decide)
    GetTable_expectedTree expectedEnc_faithful [65, 66] [66, 65] (by decide) (by decide)
    _ _ rfl rfl (by decide)
/-! ## `CompareHuffman` is structural equality -/

theorem CompareHuffman_eq_true_iff : ∀ a b : Huffman, CompareHuffman a b = true ↔ a = b
  | .nil, .nil => by simp [CompareHuffman]
  | .nil, .node _ _ _ _ => by simp [CompareHuffman]
  | .node _ _ _ _, .nil => by simp [CompareHuffman]
  | .node da sa la ra, .node db sb lb rb => by
    have hl := CompareHuffman_eq_true_iff la lb
    have hr := CompareHuffman_eq_true_iff ra rb
    cases da <;> cases db <;> simp [CompareHuffman, hl, hr, and_assoc]

/-- C14: `CompareHuffman a b` is true exactly when the two trees are structurally equal: both
nil, or both nodes of the same kind with equal symbols when present, equal `Sum` and
recursively equal left and right subtrees. It is reflexive and symmetric. -/
theorem CompareHuffman_structural (a b : Huffman) :
    (CompareHuffman a b = true ↔ a = b) ∧
    CompareHuffman Huffman.nil Huffman.nil = true ∧
    (∀ d s l r, CompareHuffman Huffman.nil (Huffman.node d s l r) = false ∧
      CompareHuffman (Huffman.node d s l r) Huffman.nil = false) ∧
    (∀ da sa la ra db sb lb rb,
      CompareHuffman (Huffman.node da sa la ra) (Huffman.node db sb lb rb) = true ↔
        da = db ∧ sa = sb ∧ CompareHuffman la lb = true ∧ CompareHuffman ra rb = true) ∧
    CompareHuffman a a = true ∧ CompareHuffman a b = CompareHuffman b a := by
  refine ⟨CompareHuffman_eq_true_iff a b, rfl, fun d s l r => ⟨rfl, rfl⟩, ?_,
    (CompareHuffman_eq_true_iff a a).2 rfl, ?_⟩
  · intro da sa la ra db sb lb rb
    rw [CompareHuffman_eq_true_iff, CompareHuffman_eq_true_iff, CompareHuffman_eq_true_iff]
    simp
  · cases h : CompareHuffman a b with
    | true =>
      have := (CompareHuffman_eq_true_iff a b).1 h
      exact ((CompareHuffman_eq_true_iff b a).2 this.symm).symm
    | false =>
      cases h2 : CompareHuffman b a with
      | false => rfl
      | true =>
        have := (CompareHuffman_eq_true_iff b a).1 h2
        rw [(CompareHuffman_eq_true_iff a b).2 this.symm] at h
        exact h.symm

/-! ## The bit accounting of `Encode` -/

theorem codeBits_length (v : Nat) : (codeBits v).length = codeLength v := by
  unfold codeBits codeLength
  by_cases h : v = 0
  · simp [h]
  · rw [if_neg h, if_neg h, List.length_reverse, Nat.digits_len 2 v (by decide) h]

theorem bitStream_length (codes : CodeTable) : ∀ data : List Nat,
    (∀ ch ∈ data, codes ch ≠ none) → (bitStream codes data).length = totalBits codes data
  | [], _ => rfl
  | ch :: rest, hd => by
    obtain ⟨v, hv⟩ := Option.ne_none_iff_exists'.1 (hd ch (List.mem_cons_self _ _))
    have ih := bitStream_length codes rest (fun x hx => hd x (List.mem_cons_of_mem _ hx))
    simp only [totalBits] at ih
    simp [bitStream, totalBits, hv, codeBits_length, ih]

/-- C12: for every code table and every input whose bytes all have an entry, with `T` the total
number of emitted bits, `Encode` returns a payload with `0 ≤ Padding ≤ 7` and
`8 * len(Data) - Padding = T`: `len(Data)` is `T / 8` rounded up, `Padding` is 0 when `T` is a
multiple of 8 and `8 - T % 8` otherwise, which is the final cursor position plus one. -/
theorem Encode_bit_accounting (codes : CodeTable) (data : List Nat)
    (hd : ∀ ch ∈ data, codes ch ≠ none) :
    ∃ e st, Encode codes data = (some e, false) ∧
      encodeLoop codes data { payload := [], byteResult := 0, bitPosition := 7 } = some st ∧
      e.Padding ≤ 7 ∧
      8 * e.Data.length = totalBits codes data + e.Padding ∧
      e.Data.length = (totalBits codes data + 7) / 8 ∧
      (totalBits codes data % 8 = 0 → e.Padding = 0 ∧ st.bitPosition = 7) ∧
      (totalBits codes data % 8 ≠ 0 →
        e.Padding = 8 - totalBits codes data % 8 ∧ (e.Padding : Int) = st.bitPosition + 1) := by
  obtain ⟨e, he, hdata, hpad, _⟩ := Encode_spec codes data hd
  obtain ⟨st, chunks, pending, hl, hrep, hstream⟩ := Rep_encodeLoop codes data Rep_init hd
  simp only [List.flatten_nil, List.nil_append] at hstream
  obtain ⟨hch, hlen, _, _, _, hpos⟩ := hrep
  have hfl := flatten_length_chunks chunks (fun c hc => (hch c hc).1)
  have hT := bitStream_length codes data hd
  have hsl : totalBits codes data = 8 * chunks.length + pending.length := by
    rw [← hT, ← hstream, List.length_append, hfl]
  have hlenD : e.Data.length = (totalBits codes data + 7) / 8 := by
    rw [hdata, packBits_length, hT]
  rw [hT] at hpad
  refine ⟨e, st, he, hl, by omega, by omega, hlenD, fun h0 => ⟨by omega, by omega⟩,
    fun h0 => ⟨by omega, by omega⟩⟩

theorem Encode_bit_accounting_witness :
    ∃ e st, Encode expectedEnc testInput = (some e, false) ∧
      encodeLoop expectedEnc testInput { payload := [], byteResult := 0, bitPosition := 7 } =
        some st ∧
      e.Padding ≤ 7 ∧
      8 * e.Data.length = totalBits expectedEnc testInput + e.Padding ∧
      e.Data.length = (totalBits expectedEnc testInput + 7) / 8 ∧
      (totalBits expectedEnc testInput % 8 = 0 → e.Padding = 0 ∧ st.bitPosition = 7) ∧
      (totalBits expectedEnc testInput % 8 ≠ 0 →
        e.Padding = 8 - totalBits expectedEnc testInput % 8 ∧
          (e.Padding : Int) = st.bitPosition + 1) :=
  Encode_bit_accounting expectedEnc testInput (by decide)

/-! ## `GetTable` and the errors of the right subtree -/

theorem parseLoop_zeros : ∀ k : Nat, parseLoop (List.replicate k false) 0 = some 0
  | 0 => rfl
  | k + 1 => by
    simp only [List.replicate_succ, parseLoop]
    simpa using parseLoop_zeros k

theorem table_zeros_ok : ∀ (t : Huffman) (k : Nat) (f : CodeTable),
    (table t (List.replicate (k + 1) false) f).2 = false
  | .nil, _, _ => rfl
  | .node (some ch) _ _ _, k, f => by
    have hp : ParseUint (List.replicate (k + 1) false) = some 0 := by
      unfold ParseUint
      rw [if_neg (by simp [List.replicate_succ])]
      exact parseLoop_zeros (k + 1)
    simp [table, hp]
  | .node none _ l r, k, f => by
    have e : List.replicate (k + 1) false ++ [false] = List.replicate (k + 1 + 1) false :=
      (List.replicate_succ' ..).symm
    have hl := table_zeros_ok l (k + 1) f
    simp only [table, e, hl]
    simp

/-- Whatever lies below a root without a symbol, `GetTable` returns a table and no error. -/
theorem GetTable_root_internal (s : Int) (l r : Huffman) :
    ∃ codes, GetTable (Huffman.node none s l r) = (some codes, false) := by
  have hl : (table l [false] (fun _ => none)).2 = false := table_zeros_ok l 0 _
  simp [GetTable, table, hl]

set_option maxRecDepth 1000000 in
theorem BuildHuffman_deepTable : BuildHuffman (deepTable 32) = some (comb 32, false) := by
  decide

/-- C11: on the table of 34 symbols with the weights 1, 1, 2, 4, ..., `2^32` the built tree
has the symbol 1 at the end of 33 steps to the right; this path cannot be parsed as a 32-bit
number, and `GetTable` returns a table and a nil error all the same. -/
theorem GetTable_right_error_dropped :
    BuildHuffman (deepTable 32) = some (comb 32, false) ∧
    (1, List.replicate 33 true) ∈ paths (comb 32) ∧
    ParseUint (List.replicate 33 true) = none ∧
    ∃ codes, GetTable (comb 32) = (some codes, false) :=
  ⟨BuildHuffman_deepTable, by decide, by decide, GetTable_root_internal _ _ _⟩

/-! ## The byte count against the lengths of the paths -/

/-- C13, as stated, fails: in the tree of `{A:1, B:1, C:1, D:1}` the path of A has 2 steps, so
the input A has 2 bits in all, but `Encode` emits one bit for the code 0 and returns the
padding 7, not 6. -/
theorem Encode_path_length_counterexample :
    BuildHuffman fourOnes = some (fourOnesTree, false) ∧
    GetTable fourOnesTree = (some fourOnesCodes, false) ∧
    totalPathBits fourOnesTree [65] = 2 ∧
    ∃ e, Encode fourOnesCodes [65] = (some e, false) ∧ e.Padding = 7 ∧
      e.Padding ≠ (8 - totalPathBits fourOnesTree [65] % 8) % 8 :=
  ⟨by decide, GetTable_fourOnesTree, by decide, _, rfl, by decide, by decide⟩

theorem pathLen_of_faithful (t : Huffman) (codes : CodeTable)
    (hfaith : ∀ e ∈ paths t, ∃ v, codes e.1 = some v ∧ (codeBits v).length = e.2.length)
    (ch : Nat) (hch : ch ∈ (paths t).map Prod.fst) :
    ∃ v, codes ch = some v ∧ codeLength v = pathLen t ch := by
  obtain ⟨e0, he0, h0⟩ := List.mem_map.1 hch
  cases hf : (paths t).find? (fun e => e.1 = ch) with
  | none =>
    have := List.find?_eq_none.1 hf e0 he0
    simp [h0] at this
  | some e =>
    have hmem := List.mem_of_find?_eq_some hf
    have hp := List.find?_some hf
    simp only [decide_eq_true_eq] at hp
    obtain ⟨v, hv, hl⟩ := hfaith e hmem
    rw [hp] at hv
    refine ⟨v, hv, ?_⟩
    rw [← codeBits_length, hl]
    simp [pathLen, hf]

/-- C13, amended: for every table with at least two symbols, its tree and the table of codes
made from it, if the emitted bit string of every symbol has the length of its root-to-leaf path
(no leading zero is lost in a code value), then for every input over the symbols of the table,
with `totalBits` the sum of the path lengths of its bytes, `Encode` produces
`len(Data) = ceil(totalBits / 8)` and `Padding = (8 - totalBits mod 8) mod 8`. -/
theorem Encode_path_bit_accounting (f : List (Nat × Int)) (t : Huffman) (codes : CodeTable)
    (hb : BuildHuffman f = some (t, false)) (hg : GetTable t = (some codes, false))
    (hfaith : ∀ e ∈ paths t, ∃ v, codes e.1 = some v ∧ (codeBits v).length = e.2.length)
    (data : List Nat) (hd : ∀ ch ∈ data, ch ∈ f.map Prod.fst) :
    ∃ e, Encode codes data = (some e, false) ∧
      e.Data.length = (totalPathBits t data + 7) / 8 ∧
      e.Padding = (8 - totalPathBits t data % 8) % 8 := by
  have _ := hg
  have hlen : 2 ≤ f.length := by
    by_contra hc
    have := BuildHuffman_short f (by omega)
    rw [this] at hb
    simp at hb
  obtain ⟨t0, hb0, _, _, hl, _⟩ := BuildHuffman_forest f hlen
  rw [hb0] at hb
  have ht : t0 = t := by
    simpa using hb
  subst ht
  have hsym : ∀ ch ∈ data, ch ∈ (paths t0).map Prod.fst := by
    intro ch hch
    rw [paths_fst]
    exact (hl.map Prod.fst).symm.subset (hd ch hch)
  have hcodes : ∀ ch ∈ data, codes ch ≠ none := by
    intro ch hch
    obtain ⟨v, hv, _⟩ := pathLen_of_faithful t0 codes hfaith ch (hsym ch hch)
    simp [hv]
  have htot : ∀ d : List Nat, (∀ ch ∈ d, ch ∈ (paths t0).map Prod.fst) →
      totalBits codes d = totalPathBits t0 d := by
    intro d
    induction d with
    | nil => intro _; rfl
    | cons ch rest ih =>
      intro h
      obtain ⟨v, hv, hlv⟩ := pathLen_of_faithful t0 codes hfaith ch
        (h ch (List.mem_cons_self _ _))
      have := ih (fun x hx => h x (List.mem_cons_of_mem _ hx))
      simp only [totalBits, totalPathBits] at this ⊢
      simp [hv, hlv, this]
  obtain ⟨e, he, hdata, hpad, _⟩ := Encode_spec codes data hcodes
  refine ⟨e, he, ?_, ?_⟩
  · rw [hdata, packBits_length, bitStream_length codes data hcodes, htot data hsym]
  · rw [hpad, bitStream_length codes data hcodes, htot data hsym]

theorem expectedEnc_lengths :
    ∀ e ∈ paths expectedTree, ∃ v, expectedEnc e.1 = some v ∧
      (codeBits v).length = e.2.length := by
  intro e he
  obtain ⟨v, hv, hb⟩ := expectedEnc_faithful e he
  exact ⟨v, hv, by rw [hb]; simp [pathBits]⟩

theorem Encode_path_bit_accounting_witness :
    ∃ e, Encode expectedEnc testInput = (some e, false) ∧
      e.Data.length = (totalPathBits expectedTree testInput + 7) / 8 ∧
      e.Padding = (8 - totalPathBits expectedTree testInput % 8) % 8 :=
  Encode_path_bit_accounting tableABCD expectedTree expectedEnc (by decide)
    GetTable_expectedTree expectedEnc_lengths testInput (by decide)

/-! ## Two internal nodes of equal priority -/

/-- C16: in the run of `BuildHuffman` on `{A:1, B:1, C:1, D:1}` the queue holds, after two
merges, two distinct internal nodes of priority 2, and `Less` is false between them in both
directions. -/
theorem Less_not_total_on_internal :
    Reach fourOnes [itemAB, itemCD] ∧ itemAB ≠ itemCD ∧
    itemLess itemAB itemCD = some false ∧ itemLess itemCD itemAB = some false := by
  refine ⟨?_, by decide, by decide, by decide⟩
  have h0 : heapInit (fourOnes.map seedItem) = some (fourOnes.map seedItem) := by decide
  have h1 : mergeStep (fourOnes.map seedItem) =
      some (seedItem (65, 1), seedItem (66, 1), [seedItem (67, 1), seedItem (68, 1)],
        [seedItem (67, 1), seedItem (68, 1), itemAB]) := by decide
  have h2 : mergeStep [seedItem (67, 1), seedItem (68, 1), itemAB] =
      some (seedItem (67, 1), seedItem (68, 1), [itemAB], [itemAB, itemCD]) := by decide
  exact Reach.step _ _ _ _ _ (Reach.step _ _ _ _ _ (Reach.init _ h0) (by decide) h1)
    (by decide) h2

/-! ## Leaves, internal nodes and the weight of the root -/

theorem wrapInt_idem (x : Int) : wrapInt (wrapInt x) = wrapInt x := by
  unfold wrapInt
  norm_num

theorem wrapInt_add_congr {a b a1 b1 : Int} (ha : wrapInt a = wrapInt a1)
    (hb : wrapInt b = wrapInt b1) : wrapInt (a + b) = wrapInt (a1 + b1) := by
  unfold wrapInt at *
  norm_num at *
  omega

theorem internalCount_succ : ∀ t : Huffman, wellFormed t = true →
    internalCount t + 1 = (leaves t).length
  | .nil, h => by simp [wellFormed] at h
  | .node (some _) _ _ _, _ => rfl
  | .node none _ l r, h => by
    simp only [wellFormed, Bool.and_eq_true] at h
    have hl := internalCount_succ l h.1
    have hr := internalCount_succ r h.2
    simp only [internalCount, leaves, List.length_append]
    omega

theorem SumOfLeaves_seed (e : Nat × Int) : SumOfLeaves (seedItem e).value := by
  refine ⟨e.2, rfl, ?_, ?_⟩
  · simp [seedItem, leafSum, leaves]
  · intro s0 l r h
    simp [seedItem] at h

theorem SumOfLeaves_node {a b : Huffman} {sa sb : Int} (ha : SumOfLeaves a)
    (hb : SumOfLeaves b) (hsa : a.getSum = some sa) (hsb : b.getSum = some sb) :
    SumOfLeaves (Huffman.node none (wrapInt (sa + sb)) a b) := by
  obtain ⟨s1, h1, c1, _⟩ := ha
  obtain ⟨s2, h2, c2, _⟩ := hb
  rw [hsa] at h1
  rw [hsb] at h2
  cases h1
  cases h2
  refine ⟨wrapInt (sa + sb), rfl, ?_, fun _ _ _ _ => wrapInt_idem _⟩
  rw [wrapInt_idem]
  have : leafSum (Huffman.node none (wrapInt (sa + sb)) a b) = leafSum a + leafSum b := by
    simp [leafSum, leaves]
  rw [this]
  exact wrapInt_add_congr c1 c2

/-- The tree built from a table of at least two entries: its shape, its leaves and the `Sum`
of its root. -/
theorem BuildHuffman_sums (f : List (Nat × Int)) (hlen : 2 ≤ f.length) :
    ∃ t, BuildHuffman f = some (t, false) ∧ wellFormed t = true ∧ (leaves t).Perm f ∧
      SumOfLeaves t ∧ (ExactSums f → t.getSum = some (leafSum t)) := by
  obtain ⟨item, hb, hI⟩ := BuildHuffman_inv
    (fun pq => ForestInv f pq ∧ ∀ it ∈ pq, SumOfLeaves it.value)
    (fun _ h => ForestInv_noNil h.1)
    (fun _ _ hp h => ⟨ForestInv_perm hp h.1, fun it hit => h.2 it (hp.subset hit)⟩)
    (fun a b rest sa sb h hsa hsb => ⟨ForestInv_merge a b rest sa sb h.1 hsa hsb, by
      intro it hit
      rcases List.mem_cons.1 hit with rfl | hr
      · exact SumOfLeaves_node (h.2 a (List.mem_cons_self _ _))
          (h.2 b (List.mem_cons_of_mem _ (List.mem_cons_self _ _))) hsa hsb
      · exact h.2 it (List.mem_cons_of_mem _ (List.mem_cons_of_mem _ hr))⟩)
    f hlen
    ⟨ForestInv_seed f, by
      intro it hit
      obtain ⟨e, _, rfl⟩ := List.mem_map.1 hit
      exact SumOfLeaves_seed e⟩
  have hit : item ∈ [item] := List.mem_cons_self _ _
  refine ⟨item.value, hb, (hI.1.1 item hit).1, ?_, hI.2 item hit,
    fun he => (hI.1.2.2 he item hit).2⟩
  simpa [forestLeaves] using hI.1.2.1

/-- C18: for every table with `n ≥ 2` entries the built tree is well formed (a leaf has a
symbol and no children, an internal node no symbol and two non-nil children), its leaves are
the entries of the table, each symbol once with its frequency as `Sum`, it has `n` leaves and
`n - 1` internal nodes, and the `Sum` of its root is the sum of all the frequencies as a 64-bit
`int`, which is their exact sum when the arithmetic is exact. -/
theorem BuildHuffman_leaves_and_nodes (f : List (Nat × Int)) (hlen : 2 ≤ f.length) :
    ∃ t, BuildHuffman f = some (t, false) ∧ wellFormed t = true ∧ (leaves t).Perm f ∧
      (leaves t).length = f.length ∧ internalCount t + 1 = f.length ∧
      t.getSum = some (wrapInt (f.map Prod.snd).sum) ∧
      (ExactSums f → t.getSum = some (f.map Prod.snd).sum) := by
  obtain ⟨t, hb, hwf, hl, hs, hex⟩ := BuildHuffman_sums f hlen
  have hsum : leafSum t = (f.map Prod.snd).sum := (hl.map Prod.snd).sum_eq
  refine ⟨t, hb, hwf, hl, hl.length_eq, by rw [internalCount_succ t hwf, hl.length_eq], ?_, ?_⟩
  · obtain ⟨s, h1, h2, h3⟩ := hs
    have hint : ∃ s0 l r, t = Huffman.node none s0 l r := by
      have hl2 : 2 ≤ (leaves t).length := by rw [hl.length_eq]; exact hlen
      match t, hwf, hl2 with
      | .node none s0 l r, _, _ => exact ⟨s0, l, r, rfl⟩
      | .node (some _) _ _ _, _, h => simp [leaves] at h
      | .nil, h, _ => simp [wellFormed] at h
    obtain ⟨s0, l, r, ht⟩ := hint
    rw [h1, ← hsum, ← h2, h3 s0 l r ht]
  · intro he
    rw [hex he, hsum]

theorem BuildHuffman_leaves_and_nodes_witness :
    2 ≤ tableABCD.length ∧ ∃ t, BuildHuffman tableABCD = some (t, false) ∧
      wellFormed t = true ∧ (leaves t).Perm tableABCD ∧
      (leaves t).length = tableABCD.length ∧ internalCount t + 1 = tableABCD.length ∧
      t.getSum = some (wrapInt (tableABCD.map Prod.snd).sum) ∧
      (ExactSums tableABCD → t.getSum = some (tableABCD.map Prod.snd).sum) :=
  ⟨by decide, BuildHuffman_leaves_and_nodes tableABCD (by decide)⟩

/-! ## The order that `Less` defines -/

theorem itemLess_eq_true_iff {a b : Item} (ha : a.value ≠ Huffman.nil)
    (hb : b.value ≠ Huffman.nil) :
    itemLess a b = some true ↔ keyLt (itemKey a) (itemKey b) := by
  unfold itemLess itemKey keyLt
  cases hav : a.value with
  | nil => exact absurd hav ha
  | node da sa la ra =>
    cases hbv : b.value with
    | nil => exact absurd hbv hb
    | node db sb lb rb =>
      cases da <;> cases db <;> by_cases hp : a.priority = b.priority <;> simp [hp]

theorem itemLess_eq_false_iff {a b : Item} (ha : a.value ≠ Huffman.nil)
    (hb : b.value ≠ Huffman.nil) :
    itemLess a b = some false ↔ itemLe b a := by
  obtain ⟨r, hr⟩ := itemLess_isSome ha hb
  have h := itemLess_eq_true_iff ha hb
  unfold itemLe
  rw [← h, hr]
  cases r <;> simp

theorem itemLe_refl (a : Item) : itemLe a a := by
  unfold itemLe keyLt
  omega

theorem itemLe_trans {a b c : Item} (h1 : itemLe a b) (h2 : itemLe b c) : itemLe a c := by
  unfold itemLe keyLt at *
  omega

theorem itemLe_of_lt {a b : Item} (h : keyLt (itemKey a) (itemKey b)) : itemLe a b := by
  unfold itemLe keyLt at *
  omega

theorem itemLe_total (a b : Item) : itemLe a b ∨ itemLe b a := by
  unfold itemLe keyLt
  omega

theorem itemLe_priority {a b : Item} (h : itemLe a b) : a.priority ≤ b.priority := by
  have ha : (itemKey a).1 = a.priority := by
    unfold itemKey
    split <;> rfl
  have hb : (itemKey b).1 = b.priority := by
    unfold itemKey
    split <;> rfl
  unfold itemLe keyLt at h
  omega

/-! ## `heap.down` and `heap.up` restore the heap condition -/

theorem Swap_get {pq pq1 : PriorityQueue} {i j : Nat} (h : Swap pq i j = some pq1) (k : Nat) :
    pq1[k]? = if k = j then pq[i]? else if k = i then pq[j]? else pq[k]? := by
  unfold Swap at h
  split at h
  · next a b ha hb =>
    simp only [Option.some.injEq] at h
    subst h
    have hi : i < pq.length := (List.getElem?_eq_some_iff.1 ha).1
    have hj : j < pq.length := (List.getElem?_eq_some_iff.1 hb).1
    simp only [List.getElem?_set, List.length_set]
    by_cases h1 : k = j
    · subst h1
      simp [hj, ha]
    · by_cases h2 : k = i
      · subst h2
        simp [h1, hi, hb, Ne.symm h1]
      · simp [h1, h2, Ne.symm h1, Ne.symm h2]
  · simp at h

theorem Less_get {pq : PriorityQueue} {i j : Nat} {a b : Item} (ha : pq[i]? = some a)
    (hb : pq[j]? = some b) : Less pq i j = itemLess a b := by
  unfold Less
  rw [ha, hb]

theorem get_of_lt {pq : PriorityQueue} {k : Nat} (h : k < pq.length) : ∃ x, pq[k]? = some x :=
  ⟨pq[k], List.getElem?_eq_getElem h⟩

theorem get_mem {pq : PriorityQueue} {k : Nat} {x : Item} (h : pq[k]? = some x) : x ∈ pq :=
  List.getElem?_mem h
theorem downLoop_heap : ∀ (fuel : Nat) (pq : PriorityQueue) (i n lo : Nat),
    NoNil pq → n ≤ pq.length → n - i < fuel → DownPre pq i n lo →
    ∃ pq1, downLoop fuel pq i n = some pq1 ∧ pq1.Perm pq ∧ HeapFrom pq1 n lo ∧
      ∀ k, n ≤ k → pq1[k]? = pq[k]?
  | 0, _, _, _, _, _, _, hf, _ => by omega
  | fuel + 1, pq, i, n, lo, hnn, hn, hf, hpre => by
    unfold downLoop
    simp only
    by_cases h1 : n ≤ 2 * i + 1
    · rw [if_pos h1]
      refine ⟨pq, rfl, List.Perm.refl _, ?_, fun _ _ => rfl⟩
      intro j hj0 hjn hlo
      exact hpre.1 j hj0 hjn hlo (by omega)
    · rw [if_neg h1]
      obtain ⟨xi, hxi⟩ := get_of_lt (show i < pq.length by omega)
      have hni := hnn xi (get_mem hxi)
      have key : ∀ j xj, pq[j]? = some xj → 0 < j → j < n → (j - 1) / 2 = i →
          (∀ c y, 0 < c → c < n → (c - 1) / 2 = i → pq[c]? = some y → itemLe xj y) →
          ∃ pq1, (match Less pq j i with
            | none => none
            | some false => some pq
            | some true =>
              match Swap pq i j with
              | none => none
              | some pq1 => downLoop fuel pq1 j n) = some pq1 ∧ pq1.Perm pq ∧
            HeapFrom pq1 n lo ∧ ∀ k, n ≤ k → pq1[k]? = pq[k]? := by
        intro j xj hxj hj0 hjn hpar hmin
        rw [Less_get hxj hxi]
        have hnj := hnn xj (get_mem hxj)
        obtain ⟨r, hr⟩ := itemLess_isSome hnj hni
        rw [hr]
        cases r with
        | false =>
          have hle : itemLe xi xj := (itemLess_eq_false_iff hnj hni).1 hr
          refine ⟨pq, rfl, List.Perm.refl _, ?_, fun _ _ => rfl⟩
          intro c hc0 hcn hlo
          by_cases hpc : (c - 1) / 2 = i
          · intro x y hx hy
            rw [hpc, hxi] at hx
            cases hx
            exact itemLe_trans hle (hmin c y hc0 hcn hpc hy)
          · exact hpre.1 c hc0 hcn hlo hpc
        | true =>
          have hlt := (itemLess_eq_true_iff hnj hni).1 hr
          obtain ⟨pq1, hs⟩ := Swap_isSome (show i < pq.length by omega)
            (show j < pq.length by omega)
          have hp := Swap_perm hs
          have hg := Swap_get hs
          simp only [hs]
          have hij : i ≠ j := by omega
          have hpre1 : DownPre pq1 j n lo := by
            refine ⟨?_, ?_⟩
            · intro c hc0 hcn hlo hne x y hx hy
              rw [hg] at hx hy
              by_cases hpc : (c - 1) / 2 = i
              · rw [hpc, if_neg hij, if_pos rfl, hxj] at hx
                cases hx
                by_cases hcj : c = j
                · rw [if_pos hcj, hxi] at hy
                  cases hy
                  exact itemLe_of_lt hlt
                · rw [if_neg hcj, if_neg (by omega)] at hy
                  exact hmin c y hc0 hcn hpc hy
              · rw [if_neg hne, if_neg hpc] at hx
                by_cases hci : c = i
                · rw [if_neg (by omega), if_pos hci, hxj] at hy
                  cases hy
                  subst hci
                  exact hpre.2 hc0 hlo j hj0 hjn hpar x xj hx hxj
                · rw [if_neg (by omega), if_neg hci] at hy
                  exact hpre.1 c hc0 hcn hlo hpc x y hx hy
            · intro _ hlo c hc0 hcn hpc x y hx hy
              rw [hg] at hx hy
              rw [hpar, if_neg hij, if_pos rfl, hxj] at hx
              cases hx
              rw [if_neg (by omega), if_neg (by omega)] at hy
              have hxj2 : pq[(c - 1) / 2]? = some xj := by rw [hpc]; exact hxj
              exact hpre.1 c hc0 hcn (by omega) (by omega) xj y hxj2 hy
          obtain ⟨pq2, h2, hp2, hh2, hf2⟩ := downLoop_heap fuel pq1 j n lo (NoNil_perm hnn hp)
            (by rw [hp.length_eq]; exact hn) (by omega) hpre1
          refine ⟨pq2, h2, hp2.trans hp, hh2, ?_⟩
          intro k hk
          rw [hf2 k hk, hg k, if_neg (by omega), if_neg (by omega)]
      obtain ⟨x1, hx1⟩ := get_of_lt (show 2 * i + 1 < pq.length by omega)
      have hn1 := hnn x1 (get_mem hx1)
      by_cases h2 : 2 * i + 1 + 1 < n
      · rw [if_pos h2]
        obtain ⟨x2, hx2⟩ := get_of_lt (show 2 * i + 1 + 1 < pq.length by omega)
        have hn2 := hnn x2 (get_mem hx2)
        rw [Less_get hx2 hx1]
        obtain ⟨r, hr⟩ := itemLess_isSome hn2 hn1
        rw [hr]
        cases r with
        | true =>
          have hlt := (itemLess_eq_true_iff hn2 hn1).1 hr
          refine key (2 * i + 1 + 1) x2 hx2 (by omega) h2 (by omega) ?_
          intro c y hc0 hcn hpc hy
          have hc : c = 2 * i + 1 ∨ c = 2 * i + 1 + 1 := by omega
          rcases hc with rfl | rfl
          · rw [hx1] at hy
            cases hy
            exact itemLe_of_lt hlt
          · rw [hx2] at hy
            cases hy
            exact itemLe_refl _
        | false =>
          have hle := (itemLess_eq_false_iff hn2 hn1).1 hr
          refine key (2 * i + 1) x1 hx1 (by omega) (by omega) (by omega) ?_
          intro c y hc0 hcn hpc hy
          have hc : c = 2 * i + 1 ∨ c = 2 * i + 1 + 1 := by omega
          rcases hc with rfl | rfl
          · rw [hx1] at hy
            cases hy
            exact itemLe_refl _
          · rw [hx2] at hy
            cases hy
            exact hle
      · rw [if_neg h2]
        refine key (2 * i + 1) x1 hx1 (by omega) (by omega) (by omega) ?_
        intro c y hc0 hcn hpc hy
        have hc : c = 2 * i + 1 := by omega
        subst hc
        rw [hx1] at hy
        cases hy
        exact itemLe_refl _
theorem upLoop_heap : ∀ (fuel : Nat) (pq : PriorityQueue) (j : Nat),
    NoNil pq → j < pq.length → j < fuel → UpPre pq j →
    ∃ pq1, upLoop fuel pq j = some pq1 ∧ pq1.Perm pq ∧ IsHeap pq1
  | 0, _, _, _, _, hf, _ => by omega
  | fuel + 1, pq, j, hnn, hj, hf, hpre => by
    unfold upLoop
    simp only
    by_cases h1 : (j - 1) / 2 = j
    · rw [if_pos h1]
      refine ⟨pq, rfl, List.Perm.refl _, ?_⟩
      intro k hk0 hkn _
      exact hpre.1 k hk0 hkn (by omega)
    · rw [if_neg h1]
      have hj0 : 0 < j := by omega
      obtain ⟨xi, hxi⟩ := get_of_lt (show (j - 1) / 2 < pq.length by omega)
      obtain ⟨xj, hxj⟩ := get_of_lt hj
      have hni := hnn xi (get_mem hxi)
      have hnj := hnn xj (get_mem hxj)
      rw [Less_get hxj hxi]
      obtain ⟨r, hr⟩ := itemLess_isSome hnj hni
      rw [hr]
      cases r with
      | false =>
        have hle : itemLe xi xj := (itemLess_eq_false_iff hnj hni).1 hr
        refine ⟨pq, rfl, List.Perm.refl _, ?_⟩
        intro k hk0 hkn _
        by_cases hkj : k = j
        · subst hkj
          intro x y hx hy
          rw [hxi] at hx
          rw [hxj] at hy
          cases hx
          cases hy
          exact hle
        · exact hpre.1 k hk0 hkn hkj
      | true =>
        have hlt := (itemLess_eq_true_iff hnj hni).1 hr
        obtain ⟨pq1, hs⟩ := Swap_isSome (show (j - 1) / 2 < pq.length by omega) hj
        have hp := Swap_perm hs
        have hg := Swap_get hs
        simp only [hs]
        have hlen : pq1.length = pq.length := hp.length_eq
        have hpre1 : UpPre pq1 ((j - 1) / 2) := by
          refine ⟨?_, ?_⟩
          · intro k hk0 hkn hki x y hx hy
            rw [hlen] at hkn
            rw [hg] at hx hy
            by_cases hkj : k = j
            · subst hkj
              rw [if_neg h1, if_pos rfl, hxj] at hx
              rw [if_pos rfl, hxi] at hy
              cases hx
              cases hy
              exact itemLe_of_lt hlt
            · rw [if_neg hkj, if_neg hki] at hy
              by_cases hp1 : (k - 1) / 2 = (j - 1) / 2
              · rw [hp1, if_neg h1, if_pos rfl, hxj] at hx
                cases hx
                have he := hpre.1 k hk0 hkn hkj xi y (by rw [hp1]; exact hxi) hy
                exact itemLe_trans (itemLe_of_lt hlt) he
              · by_cases hp2 : (k - 1) / 2 = j
                · rw [if_pos hp2, hxi] at hx
                  cases hx
                  exact hpre.2 hj0 k hk0 hkn hp2 _ y hxi hy
                · rw [if_neg hp2, if_neg hp1] at hx
                  exact hpre.1 k hk0 hkn hkj x y hx hy
          · intro hi0 c hc0 hcn hpc x y hx hy
            rw [hlen] at hcn
            rw [hg] at hx hy
            rw [if_neg (by omega), if_neg (by omega)] at hx
            have hei := hpre.1 ((j - 1) / 2) hi0 (by omega) h1 x xi hx hxi
            by_cases hcj : c = j
            · rw [if_pos hcj, hxi] at hy
              cases hy
              exact hei
            · rw [if_neg hcj, if_neg (by omega)] at hy
              have hec := hpre.1 c hc0 hcn hcj xi y (by rw [hpc]; exact hxi) hy
              exact itemLe_trans hei hec
        obtain ⟨pq2, h2, hp2, hh2⟩ := upLoop_heap fuel pq1 ((j - 1) / 2) (NoNil_perm hnn hp)
          (by rw [hlen]; omega) (by omega) hpre1
        exact ⟨pq2, h2, hp2.trans hp, hh2⟩

theorem initLoop_heap (n : Nat) : ∀ (k : Nat) (pq : PriorityQueue),
    NoNil pq → n ≤ pq.length → HeapFrom pq n k →
    ∃ pq1, initLoop n k pq = some pq1 ∧ pq1.Perm pq ∧ HeapFrom pq1 n 0
  | 0, pq, _, _, h => ⟨pq, rfl, List.Perm.refl _, h⟩
  | k + 1, pq, hnn, hn, h => by
    unfold initLoop
    have hpre : DownPre pq k n k := by
      refine ⟨?_, ?_⟩
      · intro j hj0 hjn hlo hne
        exact h j hj0 hjn (by omega)
      · intro hk0 hlo
        omega
    obtain ⟨pq1, h1, hp1, hh1, _⟩ := downLoop_heap (n + 1) pq k n k hnn hn (by omega) hpre
    have hd : down pq k n = some pq1 := h1
    simp only [hd]
    obtain ⟨pq2, h2, hp2, hh2⟩ := initLoop_heap n k pq1 (NoNil_perm hnn hp1)
      (by rw [hp1.length_eq]; exact hn) hh1
    exact ⟨pq2, h2, hp2.trans hp1, hh2⟩

theorem heapInit_heap (pq : PriorityQueue) (hnn : NoNil pq) :
    ∃ pq1, heapInit pq = some pq1 ∧ pq1.Perm pq ∧ IsHeap pq1 := by
  have h0 : HeapFrom pq pq.length (pq.length / 2) := by
    intro j hj0 hjn hlo
    omega
  obtain ⟨pq1, h1, hp1, hh1⟩ := initLoop_heap pq.length (pq.length / 2) pq hnn (Nat.le_refl _) h0
  refine ⟨pq1, h1, hp1, ?_⟩
  unfold IsHeap
  rw [hp1.length_eq]
  exact hh1

theorem heapPush_heap (pq : PriorityQueue) (x : Item) (hnn : NoNil pq)
    (hx : x.value ≠ Huffman.nil) (hh : IsHeap pq) :
    ∃ pq1, heapPush pq x = some pq1 ∧ pq1.Perm (x :: pq) ∧ IsHeap pq1 := by
  have hnn1 : NoNil (pq ++ [x]) := by
    intro it hit
    rcases List.mem_append.1 hit with h | h
    · exact hnn it h
    · simp at h
      subst h
      exact hx
  have hpre : UpPre (pq ++ [x]) (pq.length + 1 - 1) := by
    refine ⟨?_, ?_⟩
    · intro k hk0 hkn hne a b ha hb
      simp only [List.length_append, List.length_singleton] at hkn
      rw [List.getElem?_append_left (by omega)] at ha hb
      exact hh k hk0 (by omega) (Nat.zero_le _) a b ha hb
    · intro _ c _ hcn hpc
      simp only [List.length_append, List.length_singleton] at hcn
      omega
  obtain ⟨pq1, h1, hp1, hh1⟩ := upLoop_heap (pq.length + 1 - 1 + 1) (pq ++ [x])
    (pq.length + 1 - 1) hnn1 (by simp) (by omega) hpre
  refine ⟨pq1, h1, hp1.trans ?_, hh1⟩
  simp

theorem heap_root_le {pq : PriorityQueue} (hh : IsHeap pq) {r : Item} (hr : pq[0]? = some r) :
    ∀ (k : Nat) (y : Item), pq[k]? = some y → itemLe r y := by
  intro k
  induction k using Nat.strong_induction_on with
  | _ k ih =>
    intro y hy
    by_cases hk : k = 0
    · subst hk
      rw [hr] at hy
      cases hy
      exact itemLe_refl _
    · have hklen : k < pq.length := (List.getElem?_eq_some_iff.1 hy).1
      obtain ⟨p, hp⟩ := get_of_lt (show (k - 1) / 2 < pq.length by omega)
      have h1 := ih ((k - 1) / 2) (by omega) p hp
      have h2 := hh k (by omega) hklen (Nat.zero_le _) p y hp hy
      exact itemLe_trans h1 h2

theorem heapPop_heap (pq : PriorityQueue) (hnn : NoNil pq) (hne : pq ≠ []) (hh : IsHeap pq) :
    ∃ item pq1, heapPop pq = some (item, pq1) ∧ (item :: pq1).Perm pq ∧ IsHeap pq1 ∧
      ∀ y ∈ pq1, itemLe item y := by
  have hlen : 0 < pq.length := List.length_pos.2 hne
  obtain ⟨r, hr⟩ := get_of_lt hlen
  have hmin := heap_root_le hh hr
  unfold heapPop
  rw [if_neg (by omega)]
  simp only
  obtain ⟨pq1, hs⟩ := Swap_isSome hlen (show pq.length - 1 < pq.length by omega)
  have hp := Swap_perm hs
  have hg := Swap_get hs
  simp only [hs]
  have hpre : DownPre pq1 0 (pq.length - 1) 0 := by
    refine ⟨?_, fun h => by omega⟩
    intro j hj0 hjn _ hne0 x y hx hy
    rw [hg] at hx hy
    rw [if_neg (by omega), if_neg hne0] at hx
    rw [if_neg (by omega), if_neg (by omega)] at hy
    exact hh j hj0 (by omega) (Nat.zero_le _) x y hx hy
  obtain ⟨pq2, h2, hp2, hh2, hf2⟩ := downLoop_heap (pq.length - 1 + 1) pq1 0 (pq.length - 1) 0
    (NoNil_perm hnn hp) (by rw [hp.length_eq]; omega) (by omega) hpre
  have hd : down pq1 0 (pq.length - 1) = some pq2 := h2
  simp only [hd]
  have hlen2 : pq2.length = pq.length := (hp2.trans hp).length_eq
  have hlast : pq2.getLast? = some r := by
    rw [List.getLast?_eq_getElem?, hlen2, hf2 _ (Nat.le_refl _), hg, if_pos rfl, hr]
  rw [hlast]
  refine ⟨r, pq2.dropLast, rfl, ?_, ?_, ?_⟩
  · have hne2 : pq2 ≠ [] := by
      intro h
      rw [h] at hlen2
      simp at hlen2
      omega
    have hl : pq2.getLast hne2 = r := by
      have := List.getLast?_eq_getLast _ hne2
      rw [hlast] at this
      exact (Option.some.inj this).symm
    have e : pq2.dropLast ++ [r] = pq2 := by
      rw [← hl]
      exact List.dropLast_append_getLast hne2
    have h4 : ([r] ++ pq2.dropLast).Perm (pq2.dropLast ++ [r]) := List.perm_append_comm
    rw [e] at h4
    exact h4.trans (hp2.trans hp)
  · intro j hj0 hjn _ x y hx hy
    simp only [List.length_dropLast] at hjn
    rw [List.getElem?_dropLast, if_pos (by omega)] at hx hy
    exact hh2 j hj0 (by omega) (Nat.zero_le _) x y hx hy
  · intro y hy
    have hy2 : y ∈ pq := (hp2.trans hp).subset (List.mem_of_mem_dropLast hy)
    obtain ⟨k, hk, hky⟩ := List.getElem_of_mem hy2
    exact hmin k y (by rw [List.getElem?_eq_getElem hk, hky])

/-! ## One iteration of the merge loop -/

theorem mergeStep_spec (pq : PriorityQueue) (hnn : NoNil pq) (hh : IsHeap pq)
    (h2 : 2 ≤ pq.length) :
    ∃ first second pq2 pq3 s1 s2, mergeStep pq = some (first, second, pq2, pq3) ∧
      (first :: second :: pq2).Perm pq ∧
      first.value.getSum = some s1 ∧ second.value.getSum = some s2 ∧
      itemLe first second ∧ (∀ y ∈ pq2, itemLe second y) ∧
      pq3.Perm ({ value := Huffman.node none (wrapInt (s1 + s2)) first.value second.value,
                  priority := wrapInt (s1 + s2) } :: pq2) ∧
      IsHeap pq3 := by
  have hne : pq ≠ [] := by
    intro h
    rw [h] at h2
    simp at h2
  obtain ⟨first, pq1, hpop1, hp1, hh1, hmin1⟩ := heapPop_heap pq hnn hne hh
  have hnn1 : NoNil pq1 := fun it hit => hnn it (hp1.subset (List.mem_cons_of_mem _ hit))
  have hne1 : pq1 ≠ [] := by
    intro h
    have := hp1.length_eq
    rw [h] at this
    simp at this
    omega
  obtain ⟨second, pq2, hpop2, hp2, hh2, hmin2⟩ := heapPop_heap pq1 hnn1 hne1 hh1
  have hp12 : (first :: second :: pq2).Perm pq := (hp2.cons first).trans hp1
  have hnn2 : NoNil (first :: second :: pq2) := NoNil_perm hnn hp12
  obtain ⟨s1, hs1⟩ := NoNil_getSum hnn2 (List.mem_cons_self _ _)
  obtain ⟨s2, hs2⟩ := NoNil_getSum hnn2 (List.mem_cons_of_mem _ (List.mem_cons_self _ _))
  have hnn3 : NoNil pq2 := fun it hit =>
    hnn2 it (List.mem_cons_of_mem _ (List.mem_cons_of_mem _ hit))
  obtain ⟨pq3, hpush, hp3, hh3⟩ := heapPush_heap pq2
    { value := Huffman.node none (wrapInt (s1 + s2)) first.value second.value,
      priority := wrapInt (s1 + s2) } hnn3 (by simp) hh2
  refine ⟨first, second, pq2, pq3, s1, s2, ?_, hp12, hs1, hs2,
    hmin1 second (hp2.subset (List.mem_cons_self _ _)), hmin2, hp3, hh3⟩
  simp only [mergeStep, hpop1, hpop2, hs1, hs2, hpush]

theorem mergeLoop_succ (fuel : Nat) (pq : PriorityQueue) :
    mergeLoop (fuel + 1) pq =
      if 2 ≤ pq.length then
        match mergeStep pq with
        | none => none
        | some r => mergeLoop fuel r.2.2.2
      else some pq := by
  rw [mergeLoop]
  by_cases h : 2 ≤ pq.length
  · rw [if_pos h, if_pos h]
    unfold mergeStep
    cases heapPop pq with
    | none => rfl
    | some r1 =>
      obtain ⟨first, pq1⟩ := r1
      simp only
      cases heapPop pq1 with
      | none => rfl
      | some r2 =>
        obtain ⟨second, pq2⟩ := r2
        simp only
        cases first.value.getSum with
        | none => rfl
        | some s1 =>
          cases second.value.getSum with
          | none => rfl
          | some s2 =>
            simp only
            cases heapPush pq2 (Item.mk (Huffman.node none (wrapInt (s1 + s2)) first.value
              second.value) (wrapInt (s1 + s2))) with
            | none => rfl
            | some pq3 => rfl
  · simp only [if_neg h]

/-! ## The queues of a run of `BuildHuffman` -/

theorem Reach_heap (f : List (Nat × Int)) : ∀ pq, Reach f pq → NoNil pq ∧ IsHeap pq := by
  intro pq h
  induction h with
  | init pq h =>
    obtain ⟨pq1, h1, hp1, hh1⟩ := heapInit_heap (f.map seedItem) (seed_noNil f)
    rw [h1] at h
    cases h
    exact ⟨NoNil_perm (seed_noNil f) hp1, hh1⟩
  | step pq first second pq2 pq3 _ h2 hstep ih =>
    obtain ⟨a, b, q2, q3, s1, s2, hm, hp12, _, _, _, _, hp3, hh3⟩ :=
      mergeStep_spec pq ih.1 ih.2 h2
    rw [hm] at hstep
    cases hstep
    have hnn12 := NoNil_perm ih.1 hp12
    refine ⟨NoNil_perm ?_ hp3, hh3⟩
    intro it hit
    rcases List.mem_cons.1 hit with rfl | hr
    · simp
    · exact hnn12 it (List.mem_cons_of_mem _ (List.mem_cons_of_mem _ hr))

/-- An invariant of the queue that holds for the seeded leaves, does not depend on the order
of the queue and is kept by the merge of two lowest entries holds at every iteration. -/
theorem Reach_inv (f : List (Nat × Int)) (I : PriorityQueue → Prop)
    (hperm : ∀ pq pq1 : PriorityQueue, pq1.Perm pq → I pq → I pq1)
    (hmerge : ∀ (a b : Item) (rest : PriorityQueue) (sa sb : Int),
      I (a :: b :: rest) → a.value.getSum = some sa → b.value.getSum = some sb →
      itemLe a b → (∀ y ∈ rest, itemLe b y) →
      I ({ value := .node none (wrapInt (sa + sb)) a.value b.value,
           priority := wrapInt (sa + sb) } :: rest))
    (hseed : I (f.map seedItem)) : ∀ pq, Reach f pq → I pq := by
  intro pq h
  induction h with
  | init pq h =>
    obtain ⟨pq1, h1, hp1⟩ := heapInit_spec (f.map seedItem) (seed_noNil f)
    rw [h1] at h
    cases h
    exact hperm _ _ hp1 hseed
  | step pq first second pq2 pq3 hr h2 hstep ih =>
    obtain ⟨hnn, hh⟩ := Reach_heap f pq hr
    obtain ⟨a, b, q2, q3, s1, s2, hm, hp12, hs1, hs2, hle, hmin, hp3, _⟩ :=
      mergeStep_spec pq hnn hh h2
    rw [hm] at hstep
    cases hstep
    exact hperm _ _ hp3 (hmerge _ _ _ s1 s2 (hperm _ _ hp12 ih) hs1 hs2 hle hmin)

theorem mergeLoop_reach (f : List (Nat × Int)) : ∀ (fuel : Nat) (pq : PriorityQueue),
    Reach f pq → pq ≠ [] → pq.length ≤ fuel + 1 →
    ∃ item, mergeLoop fuel pq = some [item] ∧ Reach f [item]
  | 0, pq, hr, hne, hlen => by
    match pq, hr, hne, hlen with
    | [item], hr, _, _ => exact ⟨item, by simp [mergeLoop], hr⟩
    | _ :: _ :: _, _, _, hlen => simp at hlen
  | fuel + 1, pq, hr, hne, hlen => by
    rw [mergeLoop_succ]
    by_cases h2 : 2 ≤ pq.length
    · rw [if_pos h2]
      obtain ⟨hnn, hh⟩ := Reach_heap f pq hr
      obtain ⟨a, b, q2, q3, s1, s2, hm, hp12, _, _, _, _, hp3, _⟩ :=
        mergeStep_spec pq hnn hh h2
      have hr3 : Reach f q3 := Reach.step pq a b q2 q3 hr h2 hm
      have hlen3 : q3.length ≤ fuel + 1 := by
        have e1 := hp3.length_eq
        have e2 := hp12.length_eq
        simp at e1 e2
        omega
      have hne3 : q3 ≠ [] := by
        intro h
        have := hp3.length_eq
        rw [h] at this
        simp at this
      obtain ⟨item, hml, hri⟩ := mergeLoop_reach f fuel q3 hr3 hne3 hlen3
      exact ⟨item, by simp only [hm, hml], hri⟩
    · rw [if_neg h2]
      match pq, hr, hne, h2 with
      | [item], hr, _, _ => exact ⟨item, rfl, hr⟩
      | _ :: _ :: _, _, _, h2 => simp at h2

/-- The run of `BuildHuffman` on a table of at least two entries goes through the queues of
`Reach` and returns the tree of the only entry of the last one. -/
theorem BuildHuffman_reach (f : List (Nat × Int)) (hlen : 2 ≤ f.length) :
    ∃ pq item, heapInit (f.map seedItem) = some pq ∧ mergeLoop pq.length pq = some [item] ∧
      Reach f [item] ∧ BuildHuffman f = some (item.value, false) := by
  obtain ⟨pq, hinit, hp⟩ := heapInit_spec (f.map seedItem) (seed_noNil f)
  have hr : Reach f pq := Reach.init pq hinit
  have hne : pq ≠ [] := by
    intro h
    have := hp.length_eq
    rw [h] at this
    simp at this
    omega
  obtain ⟨item, hm, hri⟩ := mergeLoop_reach f pq.length pq hr hne (by omega)
  obtain ⟨hnn, _⟩ := Reach_heap f [item] hri
  obtain ⟨last, pq2, hpop, hp2⟩ := heapPop_spec [item] hnn (by simp)
  have hl : last = item := by
    have := hp2.subset (List.mem_cons_self _ _)
    simpa using this
  subst hl
  refine ⟨pq, last, hinit, hm, hri, ?_⟩
  unfold BuildHuffman
  rw [if_neg (by omega)]
  simp only [hinit, hm, hpop]

theorem PrioSum_seed (f : List (Nat × Int)) : PrioSum (f.map seedItem) := by
  intro it hit
  obtain ⟨e, _, rfl⟩ := List.mem_map.1 hit
  rfl

theorem Reach_forest (f : List (Nat × Int)) (pq : PriorityQueue) (h : Reach f pq) :
    ForestInv f pq ∧ PrioSum pq :=
  Reach_inv f (fun pq => ForestInv f pq ∧ PrioSum pq)
    (fun _ _ hp h => ⟨ForestInv_perm hp h.1, fun it hit => h.2 it (hp.subset hit)⟩)
    (fun a b rest sa sb h hsa hsb _ _ => ⟨ForestInv_merge a b rest sa sb h.1 hsa hsb, by
      intro it hit
      rcases List.mem_cons.1 hit with rfl | hr
      · rfl
      · exact h.2 it (List.mem_cons_of_mem _ (List.mem_cons_of_mem _ hr))⟩)
    ⟨ForestInv_seed f, PrioSum_seed f⟩ pq h

/-- C15: at every iteration of the merge loop of `BuildHuffman` on a table with at least two
entries, the weight of the first entry popped is no greater than the weight of the second, the
weight of the second no greater than the weight of any entry left in the queue, no entry left
is `Less` than either popped entry, and the node pushed has the first as `Left`, the second as
`Right` and the Go sum of their weights as `Sum` and as priority. -/
theorem mergeStep_takes_lowest (f : List (Nat × Int)) (pq : PriorityQueue)
    (hr : Reach f pq) (h2 : 2 ≤ pq.length) :
    ∃ first second pq2 pq3 s1 s2, mergeStep pq = some (first, second, pq2, pq3) ∧
      (first :: second :: pq2).Perm pq ∧
      first.value.getSum = some s1 ∧ first.priority = s1 ∧
      second.value.getSum = some s2 ∧ second.priority = s2 ∧
      s1 ≤ s2 ∧
      (∀ y ∈ pq2, y.value.getSum = some y.priority ∧ s2 ≤ y.priority ∧
        itemLess y first = some false ∧ itemLess y second = some false) ∧
      pq3.Perm ({ value := Huffman.node none (wrapInt (s1 + s2)) first.value second.value,
                  priority := wrapInt (s1 + s2) } :: pq2) := by
  obtain ⟨hnn, hh⟩ := Reach_heap f pq hr
  obtain ⟨_, hps⟩ := Reach_forest f pq hr
  obtain ⟨a, b, q2, q3, s1, s2, hm, hp12, hs1, hs2, hle, hmin, hp3, _⟩ :=
    mergeStep_spec pq hnn hh h2
  have hnn12 := NoNil_perm hnn hp12
  have hps12 : PrioSum (a :: b :: q2) := fun it hit => hps it (hp12.subset hit)
  have ha := hps12 a (List.mem_cons_self _ _)
  have hb := hps12 b (List.mem_cons_of_mem _ (List.mem_cons_self _ _))
  rw [hs1] at ha
  rw [hs2] at hb
  have ha1 : a.priority = s1 := (Option.some.inj ha).symm
  have hb1 : b.priority = s2 := (Option.some.inj hb).symm
  have hna := hnn12 a (List.mem_cons_self _ _)
  have hnb := hnn12 b (List.mem_cons_of_mem _ (List.mem_cons_self _ _))
  refine ⟨a, b, q2, q3, s1, s2, hm, hp12, hs1, ha1, hs2, hb1, ?_, ?_, hp3⟩
  · have := itemLe_priority hle
    omega
  · intro y hy
    have hy12 : y ∈ a :: b :: q2 := List.mem_cons_of_mem _ (List.mem_cons_of_mem _ hy)
    have hny := hnn12 y hy12
    have hby := hmin y hy
    refine ⟨hps12 y hy12, ?_, (itemLess_eq_false_iff hny hna).2 (itemLe_trans hle hby),
      (itemLess_eq_false_iff hny hnb).2 hby⟩
    have := itemLe_priority hby
    omega

theorem mergeStep_takes_lowest_witness :
    ∃ first second pq2 pq3 s1 s2,
      mergeStep [seedItem (67, 1), seedItem (68, 1), itemAB] =
        some (first, second, pq2, pq3) ∧
      (first :: second :: pq2).Perm [seedItem (67, 1), seedItem (68, 1), itemAB] ∧
      first.value.getSum = some s1 ∧ first.priority = s1 ∧
      second.value.getSum = some s2 ∧ second.priority = s2 ∧
      s1 ≤ s2 ∧
      (∀ y ∈ pq2, y.value.getSum = some y.priority ∧ s2 ≤ y.priority ∧
        itemLess y first = some false ∧ itemLess y second = some false) ∧
      pq3.Perm ({ value := Huffman.node none (wrapInt (s1 + s2)) first.value second.value,
                  priority := wrapInt (s1 + s2) } :: pq2) :=
  mergeStep_takes_lowest fourOnes [seedItem (67, 1), seedItem (68, 1), itemAB]
    (Reach.step (fourOnes.map seedItem) (seedItem (65, 1)) (seedItem (66, 1))
      [seedItem (67, 1), seedItem (68, 1)] _
      (Reach.init (fourOnes.map seedItem) (by decide)) (by decide) (by decide)) (by decide)

/-! ## A table of two symbols -/

theorem perm_pair {α : Type} {x y p q : α} (h : [x, y].Perm [p, q]) :
    (x = p ∧ y = q) ∨ (x = q ∧ y = p) := by
  have hx : x ∈ [p, q] := h.subset (List.mem_cons_self _ _)
  simp only [List.mem_cons, List.mem_singleton, List.not_mem_nil, or_false] at hx
  rcases hx with rfl | rfl
  · have := List.Perm.cons_inv h
    exact Or.inl ⟨rfl, by simpa using this⟩
  · have h2 : [x, y].Perm [x, p] := h.trans (List.Perm.swap _ _ _)
    have := List.Perm.cons_inv h2
    exact Or.inr ⟨rfl, by simpa using this⟩

/-- C17: for a table of exactly two symbols, the entry `(a, wa)` being the one with the smaller
weight (the smaller symbol when the weights are equal), `BuildHuffman` makes one merge,
whatever the seeding order: one iteration of the loop is needed and is enough, and the tree is
an internal root with the Go sum of the two weights as `Sum` (the exact sum when it fits), the
leaf of `a` as `Left` and the leaf of `b` as `Right`. -/
theorem BuildHuffman_two_symbols (a b : Nat) (wa wb : Int)
    (hlt : wa < wb ∨ (wa = wb ∧ a < b)) (l : List (Nat × Int))
    (hl : l.Perm [(a, wa), (b, wb)]) :
    BuildHuffman l =
      some (Huffman.node none (wrapInt (wa + wb)) (leaf a wa) (leaf b wb), false) ∧
    (∃ pq item, heapInit (l.map seedItem) = some pq ∧ mergeLoop 0 pq = none ∧
      mergeLoop 1 pq = some [item] ∧
      item.value = Huffman.node none (wrapInt (wa + wb)) (leaf a wa) (leaf b wb)) ∧
    (|wa| + |wb| < 2 ^ 63 → wrapInt (wa + wb) = wa + wb) := by
  have hlen : l.length = 2 := hl.length_eq
  have hkey : keyLt (itemKey (seedItem (a, wa))) (itemKey (seedItem (b, wb))) := by
    show keyLt (wa, 0, a) (wb, 0, b)
    unfold keyLt
    dsimp only
    omega
  have hI : ∀ pq, Reach l pq →
      pq.Perm [seedItem (a, wa), seedItem (b, wb)] ∨
      pq = [{ value := Huffman.node none (wrapInt (wa + wb)) (leaf a wa) (leaf b wb),
              priority := wrapInt (wa + wb) }] := by
    apply Reach_inv l
    · intro pq pq1 hp h
      rcases h with h | h
      · exact Or.inl (hp.trans h)
      · rw [h] at hp
        exact Or.inr (List.perm_singleton.1 hp)
    · intro x y rest sa sb h hsa hsb hle _
      rcases h with h | h
      · have hr : rest = [] := by
          have := h.length_eq
          simpa using this
        subst hr
        rcases perm_pair h with ⟨rfl, rfl⟩ | ⟨rfl, rfl⟩
        · simp only [seedItem, Huffman.getSum, Option.some.injEq] at hsa hsb
          subst hsa
          subst hsb
          exact Or.inr rfl
        · exact absurd hkey hle
      · simp at h
    · exact Or.inl (hl.map seedItem)
  obtain ⟨pq, item, hinit, hm, hri, hb⟩ := BuildHuffman_reach l (by omega)
  have hitem : item.value = Huffman.node none (wrapInt (wa + wb)) (leaf a wa) (leaf b wb) := by
    rcases hI [item] hri with h | h
    · have := h.length_eq
      simp at this
    · simp only [List.cons.injEq, and_true] at h
      rw [h]
  have hpl : pq.length = 2 := by
    obtain ⟨pq1, h1, hp1⟩ := heapInit_spec (l.map seedItem) (seed_noNil l)
    rw [h1] at hinit
    cases hinit
    rw [hp1.length_eq, List.length_map, hlen]
  refine ⟨by rw [hb, hitem], ⟨pq, item, hinit, ?_, ?_, hitem⟩, ?_⟩
  · simp [mergeLoop, hpl]
  · rw [hpl] at hm
    obtain ⟨item1, hm1, _⟩ := mergeLoop_reach l 1 pq (Reach.init pq hinit)
      (by intro h; rw [h] at hpl; simp at hpl) (by omega)
    obtain ⟨item2, hm2, hr2⟩ := mergeLoop_reach l 2 pq (Reach.init pq hinit)
      (by intro h; rw [h] at hpl; simp at hpl) (by omega)
    rw [hm] at hm2
    rw [mergeLoop_succ, if_pos (by omega)] at hm hm1
    cases hs : mergeStep pq with
    | none => rw [hs] at hm1; simp at hm1
    | some r =>
      rw [hs] at hm hm1
      simp only at hm hm1
      have hrl : r.2.2.2.length < 2 := by
        by_contra hc
        rw [mergeLoop] at hm1
        rw [if_pos (by omega)] at hm1
        simp at hm1
      rw [mergeLoop_succ, if_neg (by omega)] at hm
      rw [mergeLoop, if_neg (by omega)] at hm1
      rw [mergeLoop_succ, if_pos (by omega), hs]
      simp only
      rw [mergeLoop, if_neg (by omega), ← hm]
  · intro h
    apply wrapInt_eq
    · have := abs_lt.1 (lt_of_le_of_lt (abs_add wa wb) h)
      exact le_of_lt this.1
    · have := abs_lt.1 (lt_of_le_of_lt (abs_add wa wb) h)
      exact this.2

theorem BuildHuffman_two_symbols_witness :
    BuildHuffman [(66, 5), (65, 5)] =
      some (Huffman.node none (wrapInt (5 + 5)) (leaf 65 5) (leaf 66 5), false) ∧
    (∃ pq item, heapInit ([(66, 5), (65, 5)].map seedItem) = some pq ∧
      mergeLoop 0 pq = none ∧ mergeLoop 1 pq = some [item] ∧
      item.value = Huffman.node none (wrapInt (5 + 5)) (leaf 65 5) (leaf 66 5)) ∧
    (|(5 : Int)| + |(5 : Int)| < 2 ^ 63 → wrapInt (5 + 5) = 5 + 5) :=
  BuildHuffman_two_symbols 65 66 5 5 (Or.inr ⟨rfl, by decide⟩) [(66, 5), (65, 5)]
    (List.Perm.swap _ _ _)

/-! ## Multisets of leaf depths -/

theorem ValidD_card_one {D : Multiset Nat} (h : ValidD D) (hc : Multiset.card D = 1) :
    D = {0} := by
  cases h with
  | single => rfl
  | split d D0 _ => simp at hc

theorem ValidD_graft {E : Multiset Nat} (hE : ValidD E) :
    ∀ (d : Nat) (D : Multiset Nat), ValidD (d ::ₘ D) → ValidD (E.map (· + d) + D) := by
  induction hE with
  | single =>
    intro d D h
    simpa using h
  | split e E0 _ ih =>
    intro d D h
    have h1 := ih d D h
    simp only [Multiset.map_cons, Multiset.cons_add] at h1 ⊢
    have h2 := ValidD.split (e + d) _ h1
    have e1 : e + 1 + d = e + d + 1 := by omega
    rw [e1]
    exact h2

/-- In a valid multiset of more than one depth, two leaves of the greatest depth can be
replaced by one leaf one step higher. -/
theorem ValidD_contract {D : Multiset Nat} (h : ValidD D) :
    D ≠ {0} → ∃ m D1, D = (m + 1) ::ₘ (m + 1) ::ₘ D1 ∧ ValidD (m ::ₘ D1) ∧
      ∀ d ∈ D1, d ≤ m + 1 := by
  induction h with
  | single => intro h; exact absurd rfl h
  | split d D0 h0 ih =>
    intro _
    by_cases hs : d ::ₘ D0 = {0}
    · have hd : d = 0 := by
        have : d ∈ ({0} : Multiset Nat) := by rw [← hs]; exact Multiset.mem_cons_self _ _
        simpa using this
      have hD0 : D0 = 0 := by
        have := congrArg Multiset.card hs
        simp at this
        exact this
      subst hd
      subst hD0
      exact ⟨0, 0, rfl, ValidD.single, by simp⟩
    · obtain ⟨m, E, hE, hv, hle⟩ := ih hs
      have hmem : d ∈ (m + 1) ::ₘ (m + 1) ::ₘ E := by
        rw [← hE]
        exact Multiset.mem_cons_self _ _
      by_cases hdm : d = m + 1
      · subst hdm
        have hD0 : D0 = (m + 1) ::ₘ E := (Multiset.cons_inj_right _).1 hE
        refine ⟨m + 1, D0, rfl, h0, ?_⟩
        intro x hx
        rw [hD0] at hx
        rcases Multiset.mem_cons.1 hx with rfl | hx
        · omega
        · have := hle x hx
          omega
      · have hdE : d ∈ E := by
          rcases Multiset.mem_cons.1 hmem with h | h
          · exact absurd h hdm
          · rcases Multiset.mem_cons.1 h with h | h
            · exact absurd h hdm
            · exact h
        obtain ⟨E1, hE1⟩ := Multiset.exists_cons_of_mem hdE
        subst hE1
        have hD0 : D0 = (m + 1) ::ₘ (m + 1) ::ₘ E1 := by
          have : d ::ₘ D0 = d ::ₘ (m + 1) ::ₘ (m + 1) ::ₘ E1 := by
            rw [hE]
            simp only [← Multiset.singleton_add]
            abel
          exact (Multiset.cons_inj_right _).1 this
        have hdle : d ≤ m := by
          have := hle d hdE
          omega
        refine ⟨m, (d + 1) ::ₘ (d + 1) ::ₘ E1, ?_, ?_, ?_⟩
        · rw [hD0]
          simp only [← Multiset.singleton_add]
          abel
        · have hv1 : ValidD (d ::ₘ m ::ₘ E1) := by
            rw [Multiset.cons_swap]
            exact hv
          have hv2 := ValidD.split d _ hv1
          have e : m ::ₘ (d + 1) ::ₘ (d + 1) ::ₘ E1 = (d + 1) ::ₘ (d + 1) ::ₘ m ::ₘ E1 := by
            simp only [← Multiset.singleton_add]
            abel
          rw [e]
          exact hv2
        · intro x hx
          rcases Multiset.mem_cons.1 hx with rfl | hx
          · omega
          · rcases Multiset.mem_cons.1 hx with rfl | hx
            · omega
            · exact hle x (Multiset.mem_cons_of_mem hx)

/-! ## Lighter leaves go deeper -/

theorem pairCost_cons (p : Int × Nat) (M : Multiset (Int × Nat)) :
    pairCost (p ::ₘ M) = p.1 * (p.2 : Int) + pairCost M := by
  simp [pairCost]

/-- The lightest leaf can take the greatest depth without a rise of the cost. -/
theorem lightest_deepest (M : Multiset (Int × Nat)) (a : Int) (R : Multiset Int) (k : Nat)
    (D : Multiset Nat) (hW : M.map Prod.fst = a ::ₘ R) (hmin : ∀ r ∈ R, a ≤ r)
    (hD : M.map Prod.snd = k ::ₘ D) (hmax : ∀ d ∈ D, d ≤ k) :
    ∃ N, N.map Prod.fst = R ∧ N.map Prod.snd = D ∧
      pairCost ((a, k) ::ₘ N) ≤ pairCost M := by
  have ha : a ∈ M.map Prod.fst := by rw [hW]; exact Multiset.mem_cons_self _ _
  obtain ⟨pa, hpa, hpa1⟩ := Multiset.mem_map.1 ha
  obtain ⟨M1, hM1⟩ := Multiset.exists_cons_of_mem hpa
  subst hM1
  obtain ⟨w, da⟩ := pa
  simp only at hpa1
  subst hpa1
  simp only [Multiset.map_cons] at hW hD
  have hW1 : M1.map Prod.fst = R := (Multiset.cons_inj_right _).1 hW
  by_cases hk : da = k
  · subst hk
    exact ⟨M1, hW1, (Multiset.cons_inj_right _).1 hD, le_refl _⟩
  · have hkm : k ∈ da ::ₘ M1.map Prod.snd := by rw [hD]; exact Multiset.mem_cons_self _ _
    have hk1 : k ∈ M1.map Prod.snd := by
      rcases Multiset.mem_cons.1 hkm with h | h
      · exact absurd h.symm hk
      · exact h
    obtain ⟨px, hpx, hpx2⟩ := Multiset.mem_map.1 hk1
    obtain ⟨M2, hM2⟩ := Multiset.exists_cons_of_mem hpx
    subst hM2
    obtain ⟨x, dx⟩ := px
    simp only at hpx2
    subst hpx2
    simp only [Multiset.map_cons] at hW1 hD
    have hD1 : D = da ::ₘ M2.map Prod.snd := by
      have : dx ::ₘ D = dx ::ₘ da ::ₘ M2.map Prod.snd := by
        rw [← hD]
        exact Multiset.cons_swap _ _ _
      exact (Multiset.cons_inj_right _).1 this
    have hxa : w ≤ x := hmin x (by rw [← hW1]; exact Multiset.mem_cons_self _ _)
    have hda : da ≤ dx := hmax da (by rw [hD1]; exact Multiset.mem_cons_self _ _)
    refine ⟨(x, da) ::ₘ M2, ?_, ?_, ?_⟩
    · simpa using hW1
    · simpa using hD1.symm
    · simp only [pairCost_cons]
      have h1 : (0 : Int) ≤ x - w := by omega
      have h2 : (0 : Int) ≤ (dx : Int) - (da : Int) := by omega
      nlinarith [mul_nonneg h1 h2]

/-- The exchange step: in a valid arrangement of leaves whose two lowest weights are `a` and
`b`, the two can be made siblings at the greatest depth and merged into one leaf of weight
`a + b`; the cost falls by `a + b` at least. -/
theorem exchange_two_lowest (M : Multiset (Int × Nat)) (a b : Int) (R : Multiset Int)
    (hV : ValidD (M.map Prod.snd)) (hW : M.map Prod.fst = a ::ₘ b ::ₘ R) (hab : a ≤ b)
    (hmin : ∀ r ∈ R, b ≤ r) :
    ∃ N, ValidD (N.map Prod.snd) ∧ N.map Prod.fst = (a + b) ::ₘ R ∧
      pairCost N + a + b ≤ pairCost M := by
  have hne : M.map Prod.snd ≠ {0} := by
    intro h
    have h1 := congrArg Multiset.card h
    have h2 := congrArg Multiset.card hW
    simp at h1 h2
    omega
  obtain ⟨m, D1, hD, hv, hle⟩ := ValidD_contract hV hne
  obtain ⟨Na, hNaW, hNaD, hca⟩ := lightest_deepest M a (b ::ₘ R) (m + 1) ((m + 1) ::ₘ D1) hW
    (by
      intro r hr
      rcases Multiset.mem_cons.1 hr with rfl | hr
      · exact hab
      · exact le_trans hab (hmin r hr))
    hD
    (by
      intro d hd
      rcases Multiset.mem_cons.1 hd with rfl | hd
      · exact le_refl _
      · exact hle d hd)
  obtain ⟨Nb, hNbW, hNbD, hcb⟩ := lightest_deepest Na b R (m + 1) D1 hNaW hmin hNaD hle
  refine ⟨(a + b, m) ::ₘ Nb, ?_, ?_, ?_⟩
  · simpa [hNbD] using hv
  · simp [hNbW]
  · simp only [pairCost_cons] at hca hcb ⊢
    push_cast at hca hcb ⊢
    nlinarith

/-! ## The cost of a tree -/

theorem sum_shift_depth (L : List (Int × Nat)) :
    ((L.map fun p => ((p.1, p.2 + 1) : Int × Nat)).map fun p => p.1 * (p.2 : Int)).sum =
      (L.map fun p => p.1 * (p.2 : Int)).sum + (L.map Prod.fst).sum := by
  induction L with
  | nil => rfl
  | cons p L ih =>
    simp only [List.map_cons, List.sum_cons, ih]
    push_cast
    ring

theorem leafDepths_fst : ∀ t : Huffman, (leafDepths t).map Prod.fst = (leaves t).map Prod.snd
  | .nil => rfl
  | .node (some _) _ _ _ => rfl
  | .node none _ l r => by
    simp [leafDepths, leaves, leafDepths_fst l, leafDepths_fst r, Function.comp_def]

theorem treeCost_node (s : Int) (l r : Huffman) :
    treeCost (Huffman.node none s l r) = treeCost l + treeCost r + leafSum l + leafSum r := by
  simp only [treeCost, leafDepths, List.map_append, List.sum_append, sum_shift_depth,
    leafDepths_fst, leafSum]
  ring

theorem treeCost_seed (e : Nat × Int) : treeCost (seedItem e).value = 0 := by
  simp [treeCost, leafDepths, seedItem]

theorem sum_shift_path (g : Nat → Int) (b : Bool) (L : List (Nat × List Bool)) :
    ((L.map fun e => (e.1, b :: e.2)).map fun e => g e.1 * (e.2.length : Int)).sum =
      (L.map fun e => g e.1 * (e.2.length : Int)).sum + (L.map fun e => g e.1).sum := by
  induction L with
  | nil => rfl
  | cons p L ih =>
    simp only [List.map_cons, List.sum_cons, ih, List.length_cons]
    push_cast
    ring

theorem paths_weight_sum (g : Nat → Int) : ∀ t : Huffman, (∀ e ∈ leaves t, g e.1 = e.2) →
    ((paths t).map fun e => g e.1).sum = leafSum t
  | .nil, _ => rfl
  | .node (some ch) s _ _, h => by
    have := h (ch, s) (by simp [leaves])
    simp [paths, leafSum, leaves, this]
  | .node none _ l r, h => by
    have hl := paths_weight_sum g l (fun e he => h e (by simp [leaves, he]))
    have hr := paths_weight_sum g r (fun e he => h e (by simp [leaves, he]))
    simp only [leafSum] at hl hr
    simp only [paths, leafSum, leaves, List.map_append, List.sum_append, List.map_map,
      Function.comp_def, hl, hr]

/-- The weighted path length of a tree whose leaves carry the weights `g` of their symbols. -/
theorem paths_cost_eq_treeCost (g : Nat → Int) : ∀ t : Huffman,
    (∀ e ∈ leaves t, g e.1 = e.2) →
    ((paths t).map fun e => g e.1 * (e.2.length : Int)).sum = treeCost t
  | .nil, _ => rfl
  | .node (some ch) s _ _, _ => by
    simp [paths, treeCost, leafDepths]
  | .node none s l r, h => by
    have hl0 : ∀ e ∈ leaves l, g e.1 = e.2 := fun e he => h e (by simp [leaves, he])
    have hr0 : ∀ e ∈ leaves r, g e.1 = e.2 := fun e he => h e (by simp [leaves, he])
    have hl := paths_cost_eq_treeCost g l hl0
    have hr := paths_cost_eq_treeCost g r hr0
    rw [treeCost_node, ← hl, ← hr, ← paths_weight_sum g l hl0, ← paths_weight_sum g r hr0]
    simp only [paths, List.map_append, List.sum_append, sum_shift_path]
    ring

theorem freqOf_of_mem : ∀ (f : List (Nat × Int)), (f.map Prod.fst).Nodup →
    ∀ e ∈ f, freqOf f e.1 = e.2
  | [], _, e, he => by simp at he
  | x :: rest, hnd, e, he => by
    simp only [List.map_cons, List.nodup_cons] at hnd
    rcases List.mem_cons.1 he with rfl | hr
    · simp [freqOf]
    · have hne : x.1 ≠ e.1 := by
        intro h
        exact hnd.1 (h ▸ List.mem_map_of_mem Prod.fst hr)
      have ih := freqOf_of_mem rest hnd.2 e hr
      simp only [freqOf] at ih ⊢
      rw [List.find?_cons_of_neg _ (by simpa using hne)]
      exact ih

/-! ## The leaf depths of a tree are valid -/

theorem paths_depths_valid : ∀ t : Huffman, wellFormed t = true →
    ValidD (Multiset.ofList ((paths t).map fun e => e.2.length))
  | .nil, h => by simp [wellFormed] at h
  | .node (some _) _ _ _, _ => by
    simpa [paths] using ValidD.single
  | .node none s l r, h => by
    simp only [wellFormed, Bool.and_eq_true] at h
    have hl := paths_depths_valid l h.1
    have hr := paths_depths_valid r h.2
    have h11 : ValidD (1 ::ₘ 1 ::ₘ 0) := ValidD.split 0 0 ValidD.single
    have h1 := ValidD_graft hl 1 (1 ::ₘ 0) h11
    rw [Multiset.add_cons, add_zero] at h1
    have h2 := ValidD_graft hr 1 _ h1
    rw [add_comm] at h2
    have e2 : Multiset.ofList ((paths (Huffman.node none s l r)).map fun e => e.2.length) =
        (Multiset.ofList ((paths l).map fun e => e.2.length)).map (· + 1) +
          (Multiset.ofList ((paths r).map fun e => e.2.length)).map (· + 1) := by
      simp only [paths, List.map_append, List.map_map, Multiset.map_coe, Multiset.coe_add]
      rfl
    rw [e2]
    exact h2

/-! ## The merge of the two lowest entries keeps the optimum within reach -/

theorem pairCost_single_depth (M : Multiset (Int × Nat)) (h : M.map Prod.snd = {0}) :
    pairCost M = 0 := by
  have hc : Multiset.card M = 1 := by
    have := congrArg Multiset.card h
    simpa using this
  obtain ⟨p, hp⟩ := Multiset.card_eq_one.1 hc
  subst hp
  have h0 : p.2 = 0 := by
    simpa using h
  simp [pairCost, h0]

theorem OptInv_perm {f : List (Nat × Int)} {pq pq1 : PriorityQueue} (hp : pq1.Perm pq)
    (h : OptInv f pq) : OptInv f pq1 := by
  intro M0 hv hw
  obtain ⟨M, h1, h2, h3⟩ := h M0 hv hw
  refine ⟨M, h1, ?_, ?_⟩
  · rw [h2]
    exact Multiset.coe_eq_coe.2 (hp.map _).symm
  · rw [(hp.map _).sum_eq]
    exact h3

theorem OptInv_seed (f : List (Nat × Int)) : OptInv f (f.map seedItem) := by
  intro M0 hv hw
  refine ⟨M0, hv, ?_, ?_⟩
  · rw [hw]
    simp [seedItem, Function.comp_def]
  · have : ((f.map seedItem).map fun it => treeCost it.value).sum = 0 := by
      apply List.sum_eq_zero
      intro x hx
      simp only [List.map_map, List.mem_map, Function.comp] at hx
      obtain ⟨e, _, rfl⟩ := hx
      exact treeCost_seed e
    rw [this]
    simp

theorem OptInv_merge {f : List (Nat × Int)} (a b : Item) (rest : PriorityQueue) (sa sb : Int)
    (h : OptInv f (a :: b :: rest)) (hpa : a.priority = sa) (hpb : b.priority = sb)
    (hla : leafSum a.value = sa) (hlb : leafSum b.value = sb)
    (hw : wrapInt (sa + sb) = sa + sb) (hab : sa ≤ sb)
    (hmin : ∀ y ∈ rest, sb ≤ y.priority) :
    OptInv f ({ value := Huffman.node none (wrapInt (sa + sb)) a.value b.value,
                priority := wrapInt (sa + sb) } :: rest) := by
  intro M0 hv hw0
  obtain ⟨M, h1, h2, h3⟩ := h M0 hv hw0
  have h2' : M.map Prod.fst =
      sa ::ₘ sb ::ₘ Multiset.ofList (rest.map fun it => it.priority) := by
    rw [h2]
    simp [hpa, hpb]
  obtain ⟨N, hN1, hN2, hN3⟩ := exchange_two_lowest M sa sb _ h1 h2' hab (by
    intro r hr
    simp only [Multiset.mem_coe, List.mem_map] at hr
    obtain ⟨y, hy, rfl⟩ := hr
    exact hmin y hy)
  refine ⟨N, hN1, ?_, ?_⟩
  · rw [hN2]
    simp [hw]
  · simp only [List.map_cons, List.sum_cons, treeCost_node, hla, hlb] at h3 ⊢
    omega

theorem competitor_pairs (f : List (Nat × Int)) (hnd : (f.map Prod.fst).Nodup) (t : Huffman)
    (hwf : wellFormed t = true) (hp : ((paths t).map Prod.fst).Perm (f.map Prod.fst)) :
    ∃ M0 : Multiset (Int × Nat), ValidD (M0.map Prod.snd) ∧
      M0.map Prod.fst = Multiset.ofList (f.map Prod.snd) ∧
      pairCost M0 = weightedPathLength f t := by
  refine ⟨Multiset.ofList ((paths t).map fun e => (freqOf f e.1, e.2.length)), ?_, ?_, ?_⟩
  · have := paths_depths_valid t hwf
    simpa [Function.comp_def] using this
  · have h1 : ((paths t).map fun e => freqOf f e.1).Perm (f.map Prod.snd) := by
      have h2 := hp.map (freqOf f)
      simp only [List.map_map] at h2
      have h3 : (f.map (freqOf f ∘ Prod.fst)) = f.map Prod.snd :=
        List.map_congr_left fun e he => freqOf_of_mem f hnd e he
      rw [h3] at h2
      exact h2
    simp only [Multiset.map_coe, List.map_map, Multiset.coe_eq_coe]
    exact h1
  · simp [pairCost, weightedPathLength, Function.comp_def]

/-- The tree built from a table whose sums are exact has the least weighted path length of
all the binary trees over the symbols of the table. -/
theorem BuildHuffman_optimal_exact (f : List (Nat × Int)) (hnd : (f.map Prod.fst).Nodup)
    (hlen : 2 ≤ f.length) (hex : ExactSums f) :
    ∃ t, BuildHuffman f = some (t, false) ∧
      ∀ t1, wellFormed t1 = true → ((paths t1).map Prod.fst).Perm (f.map Prod.fst) →
        weightedPathLength f t ≤ weightedPathLength f t1 := by
  obtain ⟨pq, item, _, _, hri, hb⟩ := BuildHuffman_reach f hlen
  have hJ : ForestInv f [item] ∧ PrioSum [item] ∧ OptInv f [item] := by
    refine Reach_inv f (fun pq => ForestInv f pq ∧ PrioSum pq ∧ OptInv f pq) ?_ ?_ ?_ _ hri
    · intro pq pq1 hp h
      exact ⟨ForestInv_perm hp h.1, fun it hit => h.2.1 it (hp.subset hit),
        OptInv_perm hp h.2.2⟩
    · intro a b rest sa sb h hsa hsb hle hmin
      have hF := ForestInv_merge a b rest sa sb h.1 hsa hsb
      have hma : a ∈ a :: b :: rest := List.mem_cons_self _ _
      have hmb : b ∈ a :: b :: rest := List.mem_cons_of_mem _ (List.mem_cons_self _ _)
      have hpa : a.priority = sa := by
        have := h.2.1 a hma
        rw [hsa] at this
        exact (Option.some.inj this).symm
      have hpb : b.priority = sb := by
        have := h.2.1 b hmb
        rw [hsb] at this
        exact (Option.some.inj this).symm
      have hla : leafSum a.value = sa := by
        have := (h.1.2.2 hex a hma).2
        rw [hsa] at this
        exact (Option.some.inj this).symm
      have hlb : leafSum b.value = sb := by
        have := (h.1.2.2 hex b hmb).2
        rw [hsb] at this
        exact (Option.some.inj this).symm
      have hw : wrapInt (sa + sb) = sa + sb := by
        have := (hF.2.2 hex _ (List.mem_cons_self _ _)).2
        simp only [Huffman.getSum, Option.some.injEq] at this
        rw [this]
        simp [leafSum, leaves] at hla hlb ⊢
        rw [hla, hlb]
      refine ⟨hF, ?_, ?_⟩
      · intro it hit
        rcases List.mem_cons.1 hit with rfl | hr
        · rfl
        · exact h.2.1 it (List.mem_cons_of_mem _ (List.mem_cons_of_mem _ hr))
      · apply OptInv_merge a b rest sa sb h.2.2 hpa hpb hla hlb hw
        · have := itemLe_priority hle
          omega
        · intro y hy
          have := itemLe_priority (hmin y hy)
          omega
    · exact ⟨ForestInv_seed f, PrioSum_seed f, OptInv_seed f⟩
  obtain ⟨hF, _, hO⟩ := hJ
  have hleaves : (leaves item.value).Perm f := by
    simpa [forestLeaves] using hF.2.1
  have hcost : weightedPathLength f item.value = treeCost item.value :=
    paths_cost_eq_treeCost (freqOf f) item.value
      (fun e he => freqOf_of_mem f hnd e (hleaves.subset he))
  refine ⟨item.value, hb, ?_⟩
  intro t1 hwf hp
  obtain ⟨M0, hv, hw, hc⟩ := competitor_pairs f hnd t1 hwf hp
  obtain ⟨M, h1, h2, h3⟩ := hO M0 hv hw
  have hs : M.map Prod.snd = {0} := by
    apply ValidD_card_one h1
    have := congrArg Multiset.card h2
    simpa using this
  rw [pairCost_single_depth M hs] at h3
  simp only [List.map_cons, List.map_nil, List.sum_cons, List.sum_nil] at h3
  rw [hcost, ← hc]
  omega

/-- C19, as stated, fails: the table `{A:2^62, B:2^62, C:2^62, D:2^62}` has no negative
frequency, its sums leave the range of a 64-bit `int`, and `BuildHuffman` returns a chain whose
weighted path length `9 * 2^62` is greater than that of the balanced tree over the same
symbols, `8 * 2^62`. -/
theorem BuildHuffman_overflow_not_optimal :
    (∀ e ∈ fourBig, 0 ≤ e.2) ∧
    BuildHuffman fourBig = some (fourBigTree, false) ∧
    wellFormed fourOnesTree = true ∧
    ((paths fourOnesTree).map Prod.fst).Perm (fourBig.map Prod.fst) ∧
    weightedPathLength fourBig fourOnesTree < weightedPathLength fourBig fourBigTree := by
  refine ⟨by decide, by decide, by decide, by decide, by decide⟩

/-- C19, amended: for every table with at least two symbols, no negative frequency and a sum
of the frequencies below `2^63` (no addition of `BuildHuffman` overflows), the built tree
minimises the weighted path length: for every binary tree whose internal nodes all have two
children and whose leaves are exactly the symbols of the table, the sum over the symbols of
frequency times depth in the built tree is at most that sum in the other tree. -/
theorem BuildHuffman_minimises_cost (f : List (Nat × Int)) (hnd : (f.map Prod.fst).Nodup)
    (hlen : 2 ≤ f.length) (hpos : ∀ e ∈ f, 0 ≤ e.2) (hsum : (f.map Prod.snd).sum < 2 ^ 63) :
    ∃ t, BuildHuffman f = some (t, false) ∧
      ∀ t1, wellFormed t1 = true → ((paths t1).map Prod.fst).Perm (f.map Prod.fst) →
        weightedPathLength f t ≤ weightedPathLength f t1 := by
  apply BuildHuffman_optimal_exact f hnd hlen
  unfold ExactSums
  have : (f.map fun e => |e.2|) = f.map Prod.snd :=
    List.map_congr_left fun e he => abs_of_nonneg (hpos e he)
  rw [this]
  exact hsum

theorem BuildHuffman_minimises_cost_witness :
    ∃ t, BuildHuffman tableABCD = some (t, false) ∧
      ∀ t1, wellFormed t1 = true →
        ((paths t1).map Prod.fst).Perm (tableABCD.map Prod.fst) →
        weightedPathLength tableABCD t ≤ weightedPathLength tableABCD t1 :=
  BuildHuffman_minimises_cost tableABCD (by decide) (by decide) (by decide) (by decide)

end Hf
